import Mathlib

/-!
# Verification of the LinguaPerdita procedural language generator

A shallow embedding of `lingua_perdita/language.py` (together with the
configuration constants of `lingua_perdita/constants.py`).  The generator is
a pure pipeline consuming a single seeded pseudo-random stream; the stream is
modelled by an abstract interface `RandGen` whose operations carry exactly the
guarantees of Python's `random.Random` methods (`randint` stays within its
inclusive bounds, `shuffle` permutes, `choice` picks a member, `random()`
compared against a bias yields a boolean).  A theorem quantified over all
`RandGen` interpretations covers in particular the Mersenne-Twister stream
obtained from any integer seed.

Machine integers of the source are modelled by `Nat`/`Int` (no overflow is
reachable: all quantities are small), Python floats appearing in the
`base_cost` interpolation are modelled by exact rationals — for the shipped
configuration the IEEE-754 double results coincide with the exact truncated
rationals for every one of the 30 words, which was checked value by value.
Fallible operations (list indexing that can raise `IndexError`) are modelled
with `Option`.
-/

namespace LinguaPerdita

/-! ## Data model (`language.py`, dataclasses `Word`, `Root`, `Text`,
`LanguageModel`)

Python's `tuple[int, ...]` and `tuple[str, ...]` become `List`; the id-keyed
`dict`s become insertion-ordered association lists (`dictSet` mirrors the
insert-or-overwrite-in-place semantics of a Python `dict`). -/

structure Word where
  id : String
  root_id : String
  glyph_indices : List Nat
  meaning : String
  category : String
  base_cost : Int
  deriving DecidableEq, Repr

structure Root where
  id : String
  display_name : String
  word_ids : List String
  discovery_threshold : Nat
  deriving DecidableEq, Repr

structure Text where
  id : String
  display_name : String
  word_ids : List String
  category : String
  unlock_threshold : Nat
  deriving DecidableEq, Repr

structure LanguageModel where
  seed : Int
  words : List (String × Word)
  roots : List (String × Root)
  texts : List (String × Text)
  word_list : List Word
  root_list : List Root
  text_list : List Text
  deriving DecidableEq, Repr

/-- Python `dict` assignment `d[k] = v`: overwrite in place if the key is
present, otherwise append at the end (insertion order). -/
def dictSet {V : Type} (d : List (String × V)) (k : String) (v : V) :
    List (String × V) :=
  if d.any (fun p => p.1 == k) then
    d.map (fun p => if p.1 == k then (k, v) else p)
  else d ++ [(k, v)]

/-- Python `dict` lookup `d[k]` (as an `Option`). -/
def dictGet {V : Type} (d : List (String × V)) (k : String) : Option V :=
  (d.find? (fun p => p.1 == k)).map (fun p => p.2)

/-! ## Configuration (`constants.py` and the static pools of `language.py`)

`WORDS_PER_CATEGORY`, `WORD_COST_RANGES`, `GLYPHS_PER_WORD` and `_MEANINGS`
are keyed by the same category names; the generator's per-category loop reads
all four in lockstep, so they are bundled as one record per category, listed
in the insertion order of `WORDS_PER_CATEGORY`. -/

structure CategoryConfig where
  name : String
  count : Nat
  costLo : Int
  costHi : Int
  glyphLo : Nat
  glyphHi : Nat
  pool : List String
  deriving DecidableEq, Repr

structure Config where
  categories : List CategoryConfig
  alphabetSize : Nat
  rootCount : Nat
  wordsPerRoot : Nat
  rootDiscoveryThreshold : Nat
  rootNames : List String
  textCount : Nat
  slotLo : Nat
  slotHi : Nat
  textNames : List String
  unlockThresholds : List Nat
  deriving DecidableEq, Repr

/-- `_MEANINGS["common"]`. -/
def commonPool : List String :=
  ["water", "fire", "earth", "sky", "stone", "hand", "eye", "sun",
   "moon", "star", "tree", "river", "path", "door", "light",
   "bone", "wind", "seed", "salt", "ash"]

/-- `_MEANINGS["everyday"]`. -/
def everydayPool : List String :=
  ["gather", "build", "speak", "listen", "travel", "carry", "break",
   "mend", "trade", "plant", "harvest", "shelter", "guard", "rest",
   "weave", "forge", "carve", "kindle", "bind", "honor"]

/-- `_MEANINGS["academic"]`. -/
def academicPool : List String :=
  ["knowledge", "theorem", "axiom", "paradox", "chronicle", "alchemy",
   "cipher", "cosmology", "dialectic", "epitome", "schema", "paradigm"]

/-- `_MEANINGS["rare"]`. -/
def rarePool : List String :=
  ["transcendence", "apotheosis", "eschatology", "pneuma", "anamnesis",
   "theurgy", "metempsychosis", "henosis"]

/-- The default configuration: `WORDS_PER_CATEGORY`, `WORD_COST_RANGES`,
`GLYPHS_PER_WORD`, `ALPHABET_SIZE = 26`, `ROOT_COUNT = 5`,
`WORDS_PER_ROOT = 6`, `ROOT_DISCOVERY_THRESHOLD = 3`, `_ROOT_NAMES`,
`TEXT_COUNT = 4`, `TEXT_WORD_SLOTS_RANGE = (8, 12)`, `_TEXT_NAMES`,
`TEXT_UNLOCK_THRESHOLDS = [0, 5, 12, 20]`. -/
def defaultConfig : Config where
  categories :=
    [⟨"common", 10, 80, 250, 2, 3, commonPool⟩,
     ⟨"everyday", 10, 500, 2000, 3, 4, everydayPool⟩,
     ⟨"academic", 6, 4000, 15000, 4, 5, academicPool⟩,
     ⟨"rare", 4, 20000, 60000, 5, 6, rarePool⟩]
  alphabetSize := 26
  rootCount := 5
  wordsPerRoot := 6
  rootDiscoveryThreshold := 3
  rootNames := ["kel", "myr", "tho", "van", "zir",
                "arn", "dru", "fen", "gol", "hes"]
  textCount := 4
  slotLo := 8
  slotHi := 12
  textNames := ["The Foundation Tablet", "The Builder's Record",
                "The Scholar's Codex", "The Hidden Archive"]
  unlockThresholds := [0, 5, 12, 20]

/-! ## The pseudo-random stream

`random.Random(seed)` is modelled by an abstract state type `σ` together
with the stream operations the generator calls, each returning the drawn
value and the advanced state.  The bundled laws are the documented contracts
of the corresponding `random` methods.  `randBelow p` models the comparison
`rng.random() < p` (the float literals 0.6/0.4 are carried as exact
rationals; only the resulting boolean is ever used).  `choiceIdx n` models
the index drawn by `rng.choice` on a sequence of length `n`. -/

structure RandGen (σ : Type) where
  randint : Nat → Nat → σ → Nat × σ
  randBelow : ℚ → σ → Bool × σ
  shuffle : {α : Type} → List α → σ → List α × σ
  choiceIdx : Nat → σ → Nat × σ
  randint_le : ∀ lo hi s, lo ≤ hi → lo ≤ (randint lo hi s).1
  randint_ge : ∀ lo hi s, lo ≤ hi → (randint lo hi s).1 ≤ hi
  shuffle_perm : ∀ {α : Type} (l : List α) (s : σ), (shuffle l s).1.Perm l
  choiceIdx_lt : ∀ n s, 0 < n → (choiceIdx n s).1 < n

variable {σ : Type}

/-- `rng.choice(l)`: draw an index, return the element there.  Python raises
on an empty sequence (and `choiceIdx_lt` keeps the index in range otherwise),
modelled by the `Option`. -/
def choice (G : RandGen σ) {α : Type} (l : List α) (s : σ) : Option (α × σ) :=
  let r := G.choiceIdx l.length s
  (l.get? r.1).map fun x => (x, r.2)

/-! ## WordFactory (`generate_language`, word-generation phase) -/

/-- `f"{i:02d}"` for `i < 100` (all word/root/text indices of reachable
configurations are below 100). -/
def pad2 (i : Nat) : String :=
  String.mk [Nat.digitChar (i / 10), Nat.digitChar (i % 10)]

/-- `f"word_{word_index:02d}"`. -/
def wordId (i : Nat) : String := "word_" ++ pad2 i

/-- `f"root_{ri:02d}"`. -/
def rootId (i : Nat) : String := "root_" ++ pad2 i

/-- `f"text_{ti:02d}"`. -/
def textId (i : Nat) : String := "text_" ++ pad2 i

/-- Python `int(...)` on a real value: truncation toward zero. -/
def truncQ (q : ℚ) : Int := if q < 0 then ⌈q⌉ else ⌊q⌋

/-- `base_cost` of the `i`-th word of a category (`language.py` lines
155–160): linear interpolation `int(cost_lo + t * (cost_hi - cost_lo))`
with `t = i / (count - 1)` when `count > 1` and `t = 0.5` otherwise. -/
def baseCost (lo hi : Int) (i count : Nat) : Int :=
  let t : ℚ := if 1 < count then (i : ℚ) / ((count : ℚ) - 1) else 1 / 2
  truncQ ((lo : ℚ) + t * ((hi : ℚ) - (lo : ℚ)))

/-- `tuple(rng.randint(0, ALPHABET_SIZE - 1) for _ in range(glyph_count))`. -/
def glyphTuple (G : RandGen σ) (alphabetSize : Nat) :
    Nat → σ → List Nat × σ
  | 0, s => ([], s)
  | n + 1, s =>
    let r₁ := G.randint 0 (alphabetSize - 1) s
    let r₂ := glyphTuple G alphabetSize n r₁.2
    (r₁.1 :: r₂.1, r₂.2)

/-- The retry loop of `language.py` lines 164–170: up to 100 attempts, break
on the first sequence not in `used_glyphs`; the sequence of the last attempt
is kept even when it collides.  `fuel` counts the attempts remaining after
the current one; the call site passes 99 (100 draws in total). -/
def tryGlyphs (G : RandGen σ) (alphabetSize : Nat) (used : List (List Nat))
    (n : Nat) : Nat → σ → List Nat × σ
  | fuel, s =>
    let r := glyphTuple G alphabetSize n s
    if r.1 ∈ used then
      match fuel with
      | 0 => r
      | f + 1 => tryGlyphs G alphabetSize used n f r.2
    else r

/-- The tuple drawn at (0-based) attempt `k` of the retry loop, used to state
the best-effort caveat of the glyph-uniqueness property. -/
def glyphAttempt (G : RandGen σ) (alphabetSize n : Nat) :
    Nat → σ → List Nat × σ
  | 0, s => glyphTuple G alphabetSize n s
  | k + 1, s => glyphAttempt G alphabetSize n k (glyphTuple G alphabetSize n s).2

/-- The inner loop `for i in range(count)` of the word-generation phase
(`language.py` lines 151–182): the `i`-th word takes `unique_meanings[i]`
(`none` models the `IndexError` when the selection ran short), its cost from
the interpolation, a glyph length from `randint(glyph_lo, glyph_hi)` and a
glyph sequence from the retry loop; the accepted sequence joins
`used_glyphs`, the meaning joins `used_meanings`.  Returns the words created
together with the updated shared sets and stream. -/
def mkWordsFor (G : RandGen σ) (alphabetSize : Nat) (cat : CategoryConfig)
    (uniq : List String) (startIdx : Nat) :
    Nat → Nat → List String → List (List Nat) → σ →
    Option (List Word × List String × List (List Nat) × σ)
  | _, 0, used, usedG, s => some ([], used, usedG, s)
  | i, n + 1, used, usedG, s =>
    (uniq.get? i).bind fun meaning =>
      let r₁ := G.randint cat.glyphLo cat.glyphHi s
      let r₂ := tryGlyphs G alphabetSize usedG r₁.1 99 r₁.2
      let usedG' := if r₂.1 ∈ usedG then usedG else r₂.1 :: usedG
      let w : Word :=
        { id := wordId (startIdx + i), root_id := "", glyph_indices := r₂.1,
          meaning := meaning, category := cat.name,
          base_cost := baseCost cat.costLo cat.costHi i cat.count }
      (mkWordsFor G alphabetSize cat uniq startIdx (i + 1) n
        (meaning :: used) usedG' r₂.2).map
        fun out => (w :: out.1, out.2.1, out.2.2.1, out.2.2.2)

/-- The per-category loop of the word-generation phase (`language.py` lines
137–182): shuffle the category's meaning pool, keep the first `count`
meanings not yet claimed by earlier categories (`unique_meanings`), then run
the inner loop.  Returns all words in creation order. -/
def mkAllWords (G : RandGen σ) (alphabetSize : Nat) :
    List CategoryConfig → Nat → List String → List (List Nat) → σ →
    Option (List Word × σ)
  | [], _, _, _, s => some ([], s)
  | cat :: rest, startIdx, used, usedG, s =>
    let r := G.shuffle cat.pool s
    let uniq := (r.1.filter (fun m => ¬ used.contains m)).take cat.count
    (mkWordsFor G alphabetSize cat uniq startIdx 0 cat.count used usedG r.2).bind
      fun out =>
        (mkAllWords G alphabetSize rest (startIdx + cat.count)
          out.2.1 out.2.2.1 out.2.2.2).map
          fun out' => (out.1 ++ out'.1, out'.2)

/-! ## RootPartitioner (`generate_language` lines 184–218) -/

/-- The replacement value built at `language.py` lines 201–208: a new `Word`
listing every field of the old one unchanged except `root_id`. -/
def restampWord (rid : String) (old : Word) : Word :=
  { id := old.id, root_id := rid, glyph_indices := old.glyph_indices,
    meaning := old.meaning, category := old.category,
    base_cost := old.base_cost }

/-- The loop `for ri in range(root_count)` (lines 192–215): walk the shuffled
word list in contiguous chunks of `wordsPerRoot`, restamp each chunk member
with the chunk's root id and record the chunk's word ids on the root.  `n`
counts the chunks still to build (`root_count` at the call site, which the
caller has clamped so that `n * wordsPerRoot` never exceeds the list length);
words beyond the last chunk are returned untouched.  `names` is
`_ROOT_NAMES[:root_count]`; the lookup `names[ri]` is in bounds whenever
`root_count ≤ len(_ROOT_NAMES)`, which holds in every configuration reachable
here, so the out-of-bounds `IndexError` branch is modelled by a default. -/
def buildRoots (wordsPerRoot : Nat) (names : List String) (discThresh : Nat) :
    Nat → Nat → List Word → List Word × List Root
  | _, 0, ws => (ws, [])
  | ri, n + 1, ws =>
    let chunk := ws.take wordsPerRoot
    let rid := rootId ri
    let stamped := chunk.map (restampWord rid)
    let root : Root :=
      { id := rid, display_name := names.getD ri "",
        word_ids := chunk.map (fun w => w.id),
        discovery_threshold := discThresh }
    let r :=
      buildRoots wordsPerRoot names discThresh (ri + 1) n (ws.drop wordsPerRoot)
    (stamped ++ r.1, root :: r.2)

/-! ## TextComposer (`generate_language` lines 229–262) -/

/-- The hardcoded cyclic category assignment of line 231. -/
def textCategories : List String := ["common", "everyday", "academic", "rare"]

/-- One slot draw (lines 246–250).  Python's short-circuit order is kept:
`rng.random()` is consumed only when `category_words` is non-empty; the
fallbacks `other_words`-then-`all_words` otherwise.  `none` models the
`rng.choice` on an empty sequence (unreachable when any word exists). -/
def drawSlot (G : RandGen σ) (catWords otherWords allWords : List Word)
    (bias : ℚ) (s : σ) : Option (Word × σ) :=
  let other (s' : σ) : Option (Word × σ) :=
    if otherWords.isEmpty then choice G allWords s' else choice G otherWords s'
  match catWords with
  | [] => other s
  | _ :: _ =>
    let r := G.randBelow bias s
    if r.1 || otherWords.isEmpty then choice G catWords r.2 else other r.2

/-- The slot loop `for si in range(slot_count)` (lines 245–250), collecting
the chosen words' ids. -/
def mkSlots (G : RandGen σ) (catWords otherWords allWords : List Word)
    (bias : ℚ) : Nat → σ → Option (List String × σ)
  | 0, s => some ([], s)
  | n + 1, s =>
    (drawSlot G catWords otherWords allWords bias s).bind fun out =>
      (mkSlots G catWords otherWords allWords bias n out.2).map
        fun out' => (out.1.id :: out'.1, out'.2)

/-- The text loop `for ti in range(TEXT_COUNT)` (lines 233–262): draw a slot
count from the configured range, split the word list by the text's category,
fill the slots with the 60%/40% bias, and attach the unlock threshold
(`TEXT_UNLOCK_THRESHOLDS[ti]`, extended by `ti * 8` past the end of the
list).  `names` is `_TEXT_NAMES[:TEXT_COUNT]`.  `n` is the number of texts
still to build. -/
def mkTexts (cfg : Config) (G : RandGen σ) (allWords : List Word)
    (names : List String) : Nat → Nat → σ → Option (List Text × σ)
  | _, 0, s => some ([], s)
  | ti, n + 1, s =>
    let r := G.randint cfg.slotLo cfg.slotHi s
    let category := textCategories.getD (ti % textCategories.length) ""
    let bias : ℚ := if ti = 0 then 6 / 10 else 4 / 10
    let catWords := allWords.filter (fun w => w.category == category)
    let otherWords := allWords.filter (fun w => ¬ w.category == category)
    (mkSlots G catWords otherWords allWords bias r.1 r.2).bind fun out =>
      let t : Text :=
        { id := textId ti,
          display_name := names.getD ti ("Text " ++ toString (ti + 1)),
          word_ids := out.1, category := category,
          unlock_threshold := cfg.unlockThresholds.getD ti (ti * 8) }
      (mkTexts cfg G allWords names (ti + 1) n out.2).map
        fun out' => (t :: out'.1, out'.2)

/-! ## CoverageRepairer (`generate_language` lines 264–316 and
`_update_text` lines 319–333) -/

/-- `_update_text`: replace a text's `word_ids`, writing the fresh immutable
`Text` to the id-keyed map and the ordered list at the same slot; a no-op
when the ids are unchanged. -/
def update_text (m : LanguageModel) (idx : Nat) (old : Text)
    (newIds : List String) : LanguageModel :=
  if newIds = old.word_ids then m
  else
    let t : Text :=
      { id := old.id, display_name := old.display_name, word_ids := newIds,
        category := old.category, unlock_threshold := old.unlock_threshold }
    { m with texts := dictSet m.texts old.id t,
             text_list := m.text_list.set idx t }

/-- `list.pop()`: remove and return the last element. -/
def popLast {α : Type} (l : List α) : Option (α × List α) :=
  match l.getLast? with
  | none => none
  | some x => some (x, l.dropLast)

/-- The `word_counts` dict of pass 1 (lines 278–280): indices of each word's
occurrences within one text, grouped by word in first-occurrence order.
`i` is the running `enumerate` counter. -/
def indexGroupsFrom : Nat → List String → List (String × List Nat) →
    List (String × List Nat)
  | _, [], acc => acc
  | i, w :: rest, acc =>
    let acc' :=
      if acc.any (fun q => q.1 == w) then
        acc.map (fun q => if q.1 == w then (q.1, q.2 ++ [i]) else q)
      else acc ++ [(w, [i])]
    indexGroupsFrom (i + 1) rest acc'

/-- The `replaceable` slot list of pass 1 (lines 282–285): for every word all
occurrence indices beyond the first, in the dict's insertion order. -/
def dupIndices (ids : List String) : List Nat :=
  (indexGroupsFrom 0 ids []).flatMap (fun q => q.2.tail)

/-- The substitution loop of pass 1 (lines 287–291): walk the replaceable
slots, popping one orphan per slot until the orphan queue empties. -/
def fillSlots : List String → List Nat → List String →
    List String × List String
  | ids, [], remaining => (ids, remaining)
  | ids, si :: rest, remaining =>
    match popLast remaining with
    | none => (ids, remaining)
    | some (o, rem') => fillSlots (ids.set si o) rest rem'

/-- Pass 1 (lines 275–292): for each text in order — stopping once the
orphan queue is empty — replace its within-text duplicate slots by orphans.
`fuel` is the number of texts still to visit (`ti + fuel` equals the text
count at every call). -/
def pass1From (m : LanguageModel) (remaining : List String) :
    Nat → Nat → LanguageModel × List String
  | _, 0 => (m, remaining)
  | ti, fuel + 1 =>
    if remaining.isEmpty then (m, remaining)
    else
      match m.text_list.get? ti with
      | none => (m, remaining)
      | some t =>
        let r := fillSlots t.word_ids (dupIndices t.word_ids) remaining
        pass1From (update_text m ti t r.1) r.2 (ti + 1) fuel

/-- The `word_text_count` dict of pass 2 (lines 297–300): for each word id,
the number of texts whose `word_ids` contain it (each text's ids are walked
as a Python `set`, so a text counts once however often it repeats the id). -/
def textRefCounts (texts : List Text) : String → Nat :=
  fun w => (texts.filter (fun t => t.word_ids.contains w)).length

/-- The inner slot loop of pass 2 (lines 305–313): walk a text's slots;
while orphans remain, a slot whose word is counted in more than one text
donates — the popped orphan replaces it, the donor's count is decremented
and the orphan's credited. -/
def pass2Slots : (String → Nat) → List String → List String →
    List String × (String → Nat) × List String
  | counts, remaining, [] => ([], counts, remaining)
  | counts, remaining, wid :: rest =>
    match popLast remaining with
    | none => (wid :: rest, counts, remaining)
    | some (o, rem') =>
      if 1 < counts wid then
        let c₁ := Function.update counts wid (counts wid - 1)
        let c₂ := Function.update c₁ o (c₁ o + 1)
        let r := pass2Slots c₂ rem' rest
        (o :: r.1, r.2.1, r.2.2)
      else
        let r := pass2Slots counts remaining rest
        (wid :: r.1, r.2.1, r.2.2)

/-- Pass 2 (lines 302–314): for each text in order — stopping once the
orphan queue is empty — run the donor-substitution slot loop and write the
updated text back. -/
def pass2From (m : LanguageModel) (counts : String → Nat)
    (remaining : List String) : Nat → Nat → LanguageModel × List String
  | _, 0 => (m, remaining)
  | ti, fuel + 1 =>
    if remaining.isEmpty then (m, remaining)
    else
      match m.text_list.get? ti with
      | none => (m, remaining)
      | some t =>
        let r := pass2Slots counts remaining t.word_ids
        pass2From (update_text m ti t r.1) r.2.1 r.2.2 (ti + 1) fuel

/-- `all_word_ids_in_texts` (lines 265–267), as the concatenation of every
text's ids: membership matches the Python set. -/
def coveredIds (m : LanguageModel) : List String :=
  m.text_list.flatMap (fun t => t.word_ids)

/-- The `orphaned` list of line 269, in `all_words` order. -/
def orphanedIds (m : LanguageModel) (allWords : List Word) : List String :=
  (allWords.filter (fun w => ¬ (coveredIds m).contains w.id)).map
    (fun w => w.id)

/-- The coverage-repair phase (lines 264–314): collect the word ids absent
from every text, shuffle them, run pass 1, and — when orphans remain — count
text references and run pass 2.  `allWords` is the generator's `all_words`
binding (the cost-sorted word list). -/
def coverageRepair (G : RandGen σ) (m : LanguageModel) (allWords : List Word)
    (s : σ) : LanguageModel × σ :=
  if (orphanedIds m allWords).isEmpty then (m, s)
  else
    if (pass1From m (G.shuffle (orphanedIds m allWords) s).1 0
        m.text_list.length).2.isEmpty then
      ((pass1From m (G.shuffle (orphanedIds m allWords) s).1 0
          m.text_list.length).1,
        (G.shuffle (orphanedIds m allWords) s).2)
    else
      ((pass2From
          (pass1From m (G.shuffle (orphanedIds m allWords) s).1 0
            m.text_list.length).1
          (textRefCounts (pass1From m (G.shuffle (orphanedIds m allWords) s).1
            0 m.text_list.length).1.text_list)
          (pass1From m (G.shuffle (orphanedIds m allWords) s).1 0
            m.text_list.length).2
          0
          (pass1From m (G.shuffle (orphanedIds m allWords) s).1 0
            m.text_list.length).1.text_list.length).1,
        (G.shuffle (orphanedIds m allWords) s).2)

/-! ## The full pipeline (`generate_language`) -/

/-- The model-population loop (lines 221–227): insert every item into the
id-keyed map and append it to the ordered list. -/
def populate {V : Type} (key : V → String) (items : List V) :
    List (String × V) :=
  items.foldl (fun d v => dictSet d (key v) v) []

/-- `generate_language(seed)`: the full pipeline.  `init` models the
construction `random.Random(seed)` — it maps the seed to the initial stream
state, after which every stage consumes the one stream in program order. -/
def generate_language (cfg : Config) (G : RandGen σ) (init : Int → σ)
    (seed : Int) : Option LanguageModel :=
  let s₀ := init seed
  (mkAllWords G cfg.alphabetSize cfg.categories 0 [] [] s₀).bind fun out =>
    let allWords₀ := out.1
    let sh := G.shuffle allWords₀ out.2
    let rootCount := min cfg.rootCount (allWords₀.length / cfg.wordsPerRoot)
    let rootNames := cfg.rootNames.take rootCount
    let br :=
      buildRoots cfg.wordsPerRoot rootNames cfg.rootDiscoveryThreshold
        0 rootCount sh.1
    let allWords := br.1.mergeSort (fun a b => a.base_cost ≤ b.base_cost)
    let roots := br.2
    let textNames := cfg.textNames.take cfg.textCount
    (mkTexts cfg G allWords textNames 0 cfg.textCount sh.2).map fun out' =>
      let m : LanguageModel :=
        { seed := seed,
          words := populate (fun w => w.id) allWords,
          roots := populate (fun r => r.id) roots,
          texts := populate (fun t => t.id) out'.1,
          word_list := allWords, root_list := roots, text_list := out'.1 }
      (coverageRepair G m allWords out'.2).1

/-! ## Concrete stream interpretations

Two computable instances of the interface, used to evaluate the generator on
concrete inputs: `unitGen` always returns the lowest admissible value (its
state is trivial), `ctrGen` drives every draw from a stepping counter. -/

def unitGen : RandGen Unit where
  randint lo _ s := (lo, s)
  randBelow _ s := (true, s)
  shuffle l s := (l, s)
  choiceIdx _ s := (0, s)
  randint_le _ _ _ _ := le_refl _
  randint_ge _ _ _ h := h
  shuffle_perm _ _ := List.Perm.refl _
  choiceIdx_lt _ _ h := h

def ctrGen : RandGen Nat where
  randint lo hi s := (lo + s % (hi + 1 - lo), s + 1)
  randBelow _ s := (s % 2 == 0, s + 1)
  shuffle l s := (l, s + 1)
  choiceIdx n s := (s % n, s + 1)
  randint_le lo _ _ _ := Nat.le_add_right lo _
  randint_ge lo hi s h := by
    have hpos : 0 < hi + 1 - lo := by omega
    have := Nat.mod_lt s hpos
    simp only
    omega
  shuffle_perm _ _ := List.Perm.refl _
  choiceIdx_lt n s h := Nat.mod_lt s h

/-- A trivial seed-to-state map for the unit-state stream. -/
def unitInit : Int → Unit := fun _ => ()

/-- A trivial seed-to-state map for the counter stream. -/
def ctrInit : Int → Nat := fun _ => 0

/-! ## Identifier lemmas -/

theorem digitChar_inj : ∀ d₁ < 10, ∀ d₂ < 10,
    Nat.digitChar d₁ = Nat.digitChar d₂ → d₁ = d₂ := by decide

theorem pad2_inj {i j : Nat} (hi : i < 100) (hj : j < 100)
    (h : pad2 i = pad2 j) : i = j := by
  have hdata : [Nat.digitChar (i / 10), Nat.digitChar (i % 10)] =
      [Nat.digitChar (j / 10), Nat.digitChar (j % 10)] := by
    have := congrArg String.data h
    simpa [pad2] using this
  have h1 : Nat.digitChar (i / 10) = Nat.digitChar (j / 10) :=
    (List.cons.injEq _ _ _ _ ▸ hdata).1
  have h2 : Nat.digitChar (i % 10) = Nat.digitChar (j % 10) := by
    have := (List.cons.injEq _ _ _ _ ▸ hdata).2
    exact (List.cons.injEq _ _ _ _ ▸ this).1
  have d1 : i / 10 = j / 10 :=
    digitChar_inj _ (by omega) _ (by omega) h1
  have d2 : i % 10 = j % 10 :=
    digitChar_inj _ (by omega) _ (by omega) h2
  omega

theorem string_append_left_cancel {p a b : String} (h : p ++ a = p ++ b) :
    a = b := by
  have := congrArg String.data h
  simp only [String.data_append] at this
  have h2 := List.append_cancel_left this
  cases a; cases b
  exact congrArg String.mk h2

theorem wordId_inj {i j : Nat} (hi : i < 100) (hj : j < 100)
    (h : wordId i = wordId j) : i = j :=
  pad2_inj hi hj (string_append_left_cancel h)

theorem wordId_range_nodup {start n : Nat} (h : start + n ≤ 100) :
    ((List.range n).map (fun k => wordId (start + k))).Nodup := by
  refine List.Nodup.map_on ?_ (List.nodup_range n)
  intro a ha b hb hab
  have ha' := List.mem_range.mp ha
  have hb' := List.mem_range.mp hb
  have := wordId_inj (i := start + a) (j := start + b)
    (by omega) (by omega) hab
  omega

/-! ## Dictionary lemmas (Python `dict` as insertion-ordered association
list) -/

theorem dictSet_fresh {V : Type} {d : List (String × V)} {k : String}
    (v : V) (h : ∀ p ∈ d, p.1 ≠ k) : dictSet d k v = d ++ [(k, v)] := by
  have : d.any (fun p => p.1 == k) = false := by
    simp only [List.any_eq_false]
    intro p hp
    simpa using h p hp
  simp [dictSet, this]

/-- Populating an empty dict with items of pairwise-distinct keys yields the
key-value list in order. -/
theorem populate_eq_map {V : Type} (key : V → String) :
    ∀ (items : List V) (acc : List (String × V)),
    (∀ p ∈ acc, ∀ v ∈ items, p.1 ≠ key v) →
    ((items.map key).Nodup) →
    items.foldl (fun d v => dictSet d (key v) v) acc =
      acc ++ items.map (fun v => (key v, v))
  | [], acc, _, _ => by simp
  | v :: rest, acc, hacc, hnd => by
    simp only [List.foldl_cons]
    have hfresh : dictSet acc (key v) v = acc ++ [(key v, v)] :=
      dictSet_fresh v (fun p hp => hacc p hp v (by simp))
    rw [hfresh]
    have hnd' : ((rest.map key).Nodup) := by
      simpa using hnd.of_cons
    have hacc' : ∀ p ∈ acc ++ [(key v, v)], ∀ w ∈ rest, p.1 ≠ key w := by
      intro p hp w hw
      rcases List.mem_append.mp hp with h | h
      · exact hacc p h w (by simp [hw])
      · simp only [List.mem_singleton] at h
        subst h
        simp only [List.map_cons, List.nodup_cons] at hnd
        intro heq
        apply hnd.1
        simp only at heq
        rw [heq]
        exact List.mem_map_of_mem key hw
    rw [populate_eq_map key rest (acc ++ [(key v, v)]) hacc' hnd']
    simp

theorem populate_eq {V : Type} (key : V → String) (items : List V)
    (hnd : (items.map key).Nodup) :
    populate key items = items.map (fun v => (key v, v)) := by
  simpa [populate] using
    populate_eq_map key items [] (by simp) hnd

/-- Lookup in a `map`-shaped dict finds the unique entry with the key. -/
theorem dictGet_map_self {V : Type} (key : V → String) :
    ∀ (items : List V), ((items.map key).Nodup) →
    ∀ v ∈ items, dictGet (items.map (fun w => (key w, w))) (key v) = some v
  | [], _, v, hv => by simp at hv
  | w :: rest, hnd, v, hv => by
    simp only [List.map_cons, List.nodup_cons] at hnd
    rcases List.mem_cons.mp hv with h | h
    · subst h
      simp [dictGet, List.find?]
    · have hne : key w ≠ key v := by
        intro heq
        apply hnd.1
        rw [heq]
        exact List.mem_map_of_mem key h
      have := dictGet_map_self key rest hnd.2 v h
      simp only [dictGet, List.map_cons, List.find?] at this ⊢
      have hbeq : ((key w, w).1 == key v) = false := by
        simpa using hne
      rw [hbeq]
      exact this

/-- Overwriting the entry of a present key rewrites it in place. -/
theorem dictSet_map_set {V : Type} (key : V → String)
    (items : List V) (hnd : (items.map key).Nodup) (idx : Nat) (old new : V)
    (hidx : items.get? idx = some old) (hkey : key new = key old) :
    dictSet (items.map (fun w => (key w, w))) (key old) new =
      (items.set idx new).map (fun w => (key w, w)) := by
  induction items generalizing idx with
  | nil => simp at hidx
  | cons w rest ih =>
    simp only [List.map_cons, List.nodup_cons] at hnd
    cases idx with
    | zero =>
      simp only [List.get?_cons_zero, Option.some.injEq] at hidx
      subst hidx
      have hmem : ((w :: rest).map (fun v => (key v, v))).any
          (fun p => p.1 == key w) = true := by
        simp [List.any_cons]
      simp only [dictSet, List.map_cons] at hmem ⊢
      rw [if_pos hmem]
      simp only [List.map_cons, List.set, List.map_map]
      have hrest : (rest.map (fun v => (key v, v))).map
          (fun p => if p.1 == key w then (key w, new) else p) =
          rest.map (fun v => (key v, v)) := by
        rw [List.map_map]
        apply List.map_congr_left
        intro v hv
        have hne : (key v == key w) = false := by
          simp only [beq_eq_false_iff_ne, ne_eq]
          intro hvw
          apply hnd.1
          rw [← hvw]
          exact List.mem_map_of_mem key hv
        simp [Function.comp, hne]
      rw [List.map_map] at hrest
      rw [hrest]
      simp [hkey]
    | succ n =>
      simp only [List.get?_cons_succ] at hidx
      have hold_mem : old ∈ rest := List.get?_mem hidx
      have hkw : (key w == key old) = false := by
        simp only [beq_eq_false_iff_ne, ne_eq]
        intro heq
        apply hnd.1
        rw [heq]
        exact List.mem_map_of_mem key hold_mem
      have hany : ((w :: rest).map (fun v => (key v, v))).any
          (fun p => p.1 == key old) = true := by
        simp only [List.any_eq_true]
        refine ⟨(key old, old), ?_, by simp⟩
        simp only [List.map_cons, List.mem_cons]
        right
        exact List.mem_map_of_mem _ hold_mem
      have hany' : (rest.map (fun v => (key v, v))).any
          (fun p => p.1 == key old) = true := by
        simp only [List.any_eq_true]
        exact ⟨(key old, old), List.mem_map_of_mem _ hold_mem, by simp⟩
      have ihres := ih hnd.2 n hidx
      simp only [dictSet, hany', if_true] at ihres
      simp only [dictSet, List.map_cons] at hany ⊢
      rw [if_pos hany]
      simp only [List.map_cons, List.set, hkw, Bool.false_eq_true, if_false,
        List.cons.injEq, true_and]
      exact ihres

/-! ## `popLast` lemmas -/

theorem popLast_eq_some {α : Type} {l rem : List α} {o : α}
    (h : popLast l = some (o, rem)) : l = rem ++ [o] := by
  rcases List.eq_nil_or_concat l with rfl | ⟨l', a, rfl⟩
  · simp [popLast] at h
  · simp only [List.concat_eq_append, popLast, List.getLast?_concat,
      List.dropLast_concat, Option.some.injEq, Prod.mk.injEq] at h
    obtain ⟨rfl, rfl⟩ := h
    exact List.concat_eq_append _ _

theorem popLast_eq_none {α : Type} {l : List α}
    (h : popLast l = none) : l = [] := by
  rcases List.eq_nil_or_concat l with rfl | ⟨l', a, rfl⟩
  · rfl
  · simp [List.concat_eq_append, popLast, List.getLast?_concat] at h

theorem popLast_sublist {α : Type} {l rem : List α} {o : α}
    (h : popLast l = some (o, rem)) : rem.Sublist l := by
  rw [popLast_eq_some h]
  exact List.sublist_append_left rem [o]

theorem popLast_mem {α : Type} {l rem : List α} {o : α}
    (h : popLast l = some (o, rem)) : o ∈ l := by
  rw [popLast_eq_some h]
  simp

theorem popLast_length {α : Type} {l rem : List α} {o : α}
    (h : popLast l = some (o, rem)) : l.length = rem.length + 1 := by
  rw [popLast_eq_some h]
  simp

theorem popLast_not_mem {α : Type} {l rem : List α} {o : α}
    (hnd : l.Nodup) (h : popLast l = some (o, rem)) : o ∉ rem := by
  have := popLast_eq_some h
  subst this
  have := List.disjoint_of_nodup_append hnd
  intro hmem
  exact this hmem (by simp)

/-! ## WordFactory lemmas -/

theorem mkWordsFor_spec (G : RandGen σ) (alpha : Nat) (cat : CategoryConfig)
    (uniq : List String) (startIdx : Nat) :
    ∀ (n i : Nat) (used : List String) (usedG : List (List Nat)) (s : σ)
      (ws : List Word) (u' : List String) (ug' : List (List Nat)) (s' : σ),
    mkWordsFor G alpha cat uniq startIdx i n used usedG s =
      some (ws, u', ug', s') →
    ws.length = n ∧
    (∀ k, k < n → ∃ w, ws.get? k = some w ∧
      w.id = wordId (startIdx + (i + k)) ∧ w.root_id = "" ∧
      w.category = cat.name ∧
      w.base_cost = baseCost cat.costLo cat.costHi (i + k) cat.count ∧
      w.meaning ∈ uniq) ∧
    (∀ x ∈ u', x ∈ used ∨ x ∈ uniq)
  | 0, i, used, usedG, s, ws, u', ug', s', h => by
    simp only [mkWordsFor, Option.some.injEq, Prod.mk.injEq] at h
    obtain ⟨rfl, rfl, rfl, rfl⟩ := h
    exact ⟨rfl, fun k hk => absurd hk (by omega), fun x hx => Or.inl hx⟩
  | n + 1, i, used, usedG, s, ws, u', ug', s', h => by
    simp only [mkWordsFor, Option.bind_eq_some, Option.map_eq_some'] at h
    obtain ⟨meaning, huniq, ⟨ws0, u0, ug0, s0⟩, hrec, hout⟩ := h
    obtain ⟨hws, hu, hug, hs⟩ := by simpa using hout
    subst hws hu hug hs
    obtain ⟨hlen, hblock, hused⟩ :=
      mkWordsFor_spec G alpha cat uniq startIdx n (i + 1)
        _ _ _ ws0 u0 ug0 s0 hrec
    refine ⟨by simp [hlen], ?_, ?_⟩
    · intro k hk
      cases k with
      | zero =>
        refine ⟨_, rfl, by simp, rfl, rfl, by simp, List.get?_mem huniq⟩
      | succ k' =>
        obtain ⟨w, hw, hid, hroot, hcat, hcost, hmean⟩ :=
          hblock k' (by omega)
        have harith : i + 1 + k' = i + (k' + 1) := by omega
        refine ⟨w, by simpa using hw, ?_, hroot, hcat, ?_, hmean⟩
        · rw [hid, harith]
        · rw [hcost, harith]
    · intro x hx
      rcases hused x hx with hx' | hx'
      · rcases List.mem_cons.mp hx' with rfl | hx''
        · exact Or.inr (List.get?_mem huniq)
        · exact Or.inl hx''
      · exact Or.inr hx'

theorem mkWordsFor_total (G : RandGen σ) (alpha : Nat) (cat : CategoryConfig)
    (uniq : List String) (startIdx : Nat) :
    ∀ (n i : Nat) (used : List String) (usedG : List (List Nat)) (s : σ),
    i + n ≤ uniq.length →
    (mkWordsFor G alpha cat uniq startIdx i n used usedG s).isSome = true
  | 0, _, _, _, _, _ => rfl
  | n + 1, i, used, usedG, s, hle => by
    have hi : i < uniq.length := by omega
    obtain ⟨meaning, hm⟩ : ∃ m, uniq.get? i = some m :=
      ⟨uniq.get ⟨i, hi⟩, List.get?_eq_get hi⟩
    simp only [mkWordsFor, hm, Option.some_bind, Option.isSome_map']
    refine mkWordsFor_total G alpha cat uniq startIdx n (i + 1) _ _ _ ?_
    omega

/-- Offset of a category's first word in the creation-ordered word list. -/
def catOffset (cats : List CategoryConfig) (j : Nat) : Nat :=
  ((cats.take j).map (fun c => c.count)).sum

/-- Sufficient pool sizes: every category finds enough meanings not claimed
by any earlier pool (earlier claims are a subset of earlier pools, so this
bounds the generator's own filter from below). -/
def poolsOk : List CategoryConfig → List String → Bool
  | [], _ => true
  | c :: rest, prior =>
    decide (c.count ≤ (c.pool.filter (fun m => ¬ prior.contains m)).length)
      && poolsOk rest (prior ++ c.pool)

theorem mkAllWords_spec (G : RandGen σ) (alpha : Nat) :
    ∀ (cats : List CategoryConfig) (startIdx : Nat) (used : List String)
      (usedG : List (List Nat)) (s : σ) (ws : List Word) (s' : σ),
    mkAllWords G alpha cats startIdx used usedG s = some (ws, s') →
    ws.length = (cats.map (fun c => c.count)).sum ∧
    (∀ k, k < ws.length → ∃ w, ws.get? k = some w ∧
      w.id = wordId (startIdx + k) ∧ w.root_id = "") ∧
    (∀ j, ∀ hj : j < cats.length, ∀ k, k < (cats.get ⟨j, hj⟩).count →
      ∃ w, ws.get? (catOffset cats j + k) = some w ∧
        w.category = (cats.get ⟨j, hj⟩).name ∧
        w.base_cost = baseCost (cats.get ⟨j, hj⟩).costLo
          (cats.get ⟨j, hj⟩).costHi k (cats.get ⟨j, hj⟩).count)
  | [], startIdx, used, usedG, s, ws, s', h => by
    simp only [mkAllWords, Option.some.injEq, Prod.mk.injEq] at h
    obtain ⟨rfl, rfl⟩ := h
    refine ⟨rfl, fun k hk => absurd hk (by simp), fun j hj => absurd hj (by simp)⟩
  | cat :: rest, startIdx, used, usedG, s, ws, s', h => by
    simp only [mkAllWords, Option.bind_eq_some, Option.map_eq_some'] at h
    obtain ⟨⟨ws₁, u₁, ug₁, s₁⟩, hws₁, ⟨ws₂, s₂⟩, hws₂, hout⟩ := h
    obtain ⟨hw, hs⟩ := by simpa using hout
    subst hw hs
    obtain ⟨hlen₁, hblock₁, _⟩ :=
      mkWordsFor_spec G alpha cat _ startIdx cat.count 0 _ _ _ ws₁ u₁ ug₁ s₁ hws₁
    obtain ⟨hlen₂, hids₂, hblock₂⟩ :=
      mkAllWords_spec G alpha rest (startIdx + cat.count) u₁ ug₁ s₁ ws₂ s₂ hws₂
    have hlen : (ws₁ ++ ws₂).length =
        ((cat :: rest).map (fun c => c.count)).sum := by
      simp [hlen₁, hlen₂]
    refine ⟨hlen, ?_, ?_⟩
    · intro k hk
      by_cases hk₁ : k < ws₁.length
      · obtain ⟨w, hw, hid, hroot, _, _, _⟩ := hblock₁ k (hlen₁ ▸ hk₁)
        refine ⟨w, ?_, by simpa using hid, hroot⟩
        rw [List.get?_append hk₁]
        exact hw
      · push_neg at hk₁
        have hk₂ : k - ws₁.length < ws₂.length := by
          simp only [List.length_append] at hk
          omega
        obtain ⟨w, hw, hid, hroot⟩ := hids₂ (k - ws₁.length) hk₂
        refine ⟨w, ?_, ?_, hroot⟩
        · rw [List.get?_append_right hk₁]
          exact hw
        · rw [hid]
          congr 1
          omega
    · intro j hj k hk
      cases j with
      | zero =>
        simp only [List.get] at hk ⊢
        obtain ⟨w, hw, _, _, hcat, hcost, _⟩ := hblock₁ k hk
        have hoff : catOffset (cat :: rest) 0 + k = k := by
          simp [catOffset]
        refine ⟨w, ?_, hcat, by simpa using hcost⟩
        rw [hoff, List.get?_append (by omega)]
        exact hw
      | succ j' =>
        simp only [List.length_cons, Nat.succ_lt_succ_iff] at hj
        simp only [List.get] at hk ⊢
        obtain ⟨w, hw, hcat, hcost⟩ := hblock₂ j' hj k hk
        have hoff : catOffset (cat :: rest) (j' + 1) =
            ws₁.length + catOffset rest j' := by
          simp [catOffset, hlen₁]
        refine ⟨w, ?_, hcat, hcost⟩
        rw [hoff]
        rw [show ws₁.length + catOffset rest j' + k =
          ws₁.length + (catOffset rest j' + k) from by omega]
        rw [List.get?_append_right (by omega)]
        simpa using hw

theorem mkAllWords_total (G : RandGen σ) (alpha : Nat) :
    ∀ (cats : List CategoryConfig) (prior : List String) (startIdx : Nat)
      (used : List String) (usedG : List (List Nat)) (s : σ),
    poolsOk cats prior = true → (∀ x ∈ used, x ∈ prior) →
    (mkAllWords G alpha cats startIdx used usedG s).isSome = true
  | [], _, _, _, _, _, _, _ => rfl
  | cat :: rest, prior, startIdx, used, usedG, s, hok, hsub => by
    simp only [poolsOk, Bool.and_eq_true, decide_eq_true_eq] at hok
    obtain ⟨hcount, hrest⟩ := hok
    have hperm : ((G.shuffle cat.pool s).1.filter
        (fun m => ¬ used.contains m)).length ≥ cat.count := by
      have hp : (G.shuffle cat.pool s).1.Perm cat.pool := G.shuffle_perm _ _
      have hmono : (cat.pool.filter (fun m => ¬ prior.contains m)).length ≤
          (cat.pool.filter (fun m => ¬ used.contains m)).length := by
        simp only [← List.countP_eq_length_filter]
        apply List.countP_mono_left
        intro a _ ha
        simp only [decide_eq_true_eq] at ha ⊢
        intro hmem
        exact ha (List.elem_iff.mpr (hsub a (List.elem_iff.mp hmem)))
      have hfe : ((G.shuffle cat.pool s).1.filter
          (fun m => ¬ used.contains m)).length =
          (cat.pool.filter (fun m => ¬ used.contains m)).length :=
        (hp.filter _).length_eq
      omega
    have huniq : cat.count ≤ ((((G.shuffle cat.pool s).1.filter
        (fun m => ¬ used.contains m)).take cat.count)).length := by
      simp only [List.length_take]
      omega
    simp only [mkAllWords]
    have htot := mkWordsFor_total G alpha cat
      (((G.shuffle cat.pool s).1.filter (fun m => ¬ used.contains m)).take
        cat.count) startIdx cat.count 0 used usedG (G.shuffle cat.pool s).2
      (by omega)
    obtain ⟨⟨ws₁, u₁, ug₁, s₁⟩, hws₁⟩ := Option.isSome_iff_exists.mp htot
    rw [hws₁]
    simp only [Option.some_bind, Option.isSome_map']
    obtain ⟨_, _, hused⟩ :=
      mkWordsFor_spec G alpha cat _ startIdx cat.count 0 _ _ _ ws₁ u₁ ug₁ s₁ hws₁
    apply mkAllWords_total G alpha rest (prior ++ cat.pool) (startIdx + cat.count)
      u₁ ug₁ s₁ hrest
    intro x hx
    rcases hused x hx with hx' | hx'
    · exact List.mem_append.mpr (Or.inl (hsub x hx'))
    · have : x ∈ (G.shuffle cat.pool s).1 := by
        have := List.mem_of_mem_take hx'
        exact List.mem_of_mem_filter this
      exact List.mem_append.mpr
        (Or.inr ((G.shuffle_perm cat.pool s).mem_iff.mp this))

/-! The constant stream `unitGen` draws every glyph as 0, so every glyph
sequence of a category collapses to `replicate glyphLo 0` — the retry bound
is exhausted from the second word of a category onward and a duplicate is
accepted. -/

theorem glyphTuple_unitGen (alpha : Nat) :
    ∀ n s, glyphTuple unitGen alpha n s = (List.replicate n 0, s)
  | 0, _ => rfl
  | n + 1, s => by
    simp only [glyphTuple, glyphTuple_unitGen alpha n]
    rfl

theorem tryGlyphs_unitGen (alpha : Nat) (used : List (List Nat)) (n : Nat) :
    ∀ fuel s, tryGlyphs unitGen alpha used n fuel s = (List.replicate n 0, s)
  | 0, s => by
    simp only [tryGlyphs, glyphTuple_unitGen]
    split <;> rfl
  | fuel + 1, s => by
    simp only [tryGlyphs, glyphTuple_unitGen]
    split
    · exact tryGlyphs_unitGen alpha used n fuel s
    · rfl

theorem mkWordsFor_unitGen_glyphs (alpha : Nat) (cat : CategoryConfig)
    (uniq : List String) (startIdx : Nat) :
    ∀ (n i : Nat) (used : List String) (usedG : List (List Nat)) (s : Unit)
      (out : List Word × List String × List (List Nat) × Unit),
    mkWordsFor unitGen alpha cat uniq startIdx i n used usedG s = some out →
    ∀ w ∈ out.1, w.glyph_indices = List.replicate cat.glyphLo 0
  | 0, i, used, usedG, s, out, h => by
    have h' := Option.some.inj h
    rw [← h']
    simp
  | n + 1, i, used, usedG, s, out, h => by
    simp only [mkWordsFor, Option.bind_eq_some] at h
    obtain ⟨meaning, huniq, h⟩ := h
    rw [Option.map_eq_some'] at h
    obtain ⟨out', hrec, hout⟩ := h
    rw [← hout]
    intro w hw
    simp only [tryGlyphs_unitGen] at hw
    rcases List.mem_cons.mp hw with rfl | hw'
    · rfl
    · exact mkWordsFor_unitGen_glyphs alpha cat uniq startIdx n (i + 1)
        _ _ _ out' hrec w hw'

/-! ## RootPartitioner lemmas -/

/-- All fields of a `Word` except `root_id`. -/
def frameOf (w : Word) : String × List Nat × String × String × Int :=
  (w.id, w.glyph_indices, w.meaning, w.category, w.base_cost)

theorem frameOf_restamp (rid : String) (w : Word) :
    frameOf (restampWord rid w) = frameOf w := rfl

/-- Root assignment touches no word field other than `root_id`: position by
position, the word list before and after `buildRoots` agrees on every other
field. -/
theorem buildRoots_frame (wpr : Nat) (names : List String) (dt : Nat) :
    ∀ (n ri : Nat) (ws : List Word) (i : Nat),
    (((buildRoots wpr names dt ri n ws).1.get? i).map frameOf) =
      ((ws.get? i).map frameOf)
  | 0, ri, ws, i => rfl
  | n + 1, ri, ws, i => by
    simp only [buildRoots]
    by_cases hi : i < (ws.take wpr).length
    · rw [List.get?_append (by simpa using hi)]
      simp only [List.length_take, lt_min_iff] at hi
      rw [List.get?_map, List.get?_take hi.1]
      cases hw : ws.get? i with
      | none => rfl
      | some w => simp [frameOf_restamp]
    · push_neg at hi
      have hlen : ((ws.take wpr).map (restampWord (rootId ri))).length =
          (ws.take wpr).length := by simp
      rw [List.get?_append_right (by omega)]
      rw [buildRoots_frame wpr names dt n (ri + 1) (ws.drop wpr)
        (i - ((ws.take wpr).map (restampWord (rootId ri))).length)]
      rw [List.get?_drop]
      simp only [List.length_map, List.length_take] at hi ⊢
      by_cases hws : wpr ≤ ws.length
      · rw [show wpr + (i - min wpr ws.length) = i from by omega]
      · push_neg at hws
        have h1 : ws.get? (wpr + (i - min wpr ws.length)) = none := by
          apply List.get?_eq_none.mpr
          omega
        have h2 : ws.get? i = none := by
          apply List.get?_eq_none.mpr
          omega
        rw [h1, h2]

theorem buildRoots_roots_length (wpr : Nat) (names : List String) (dt : Nat) :
    ∀ (n ri : Nat) (ws : List Word),
    (buildRoots wpr names dt ri n ws).2.length = n
  | 0, _, _ => rfl
  | n + 1, ri, ws => by
    simp only [buildRoots, List.length_cons]
    rw [buildRoots_roots_length wpr names dt n (ri + 1) (ws.drop wpr)]

theorem buildRoots_words_length (wpr : Nat) (names : List String) (dt : Nat) :
    ∀ (n ri : Nat) (ws : List Word),
    (buildRoots wpr names dt ri n ws).1.length = ws.length := by
  intro n ri ws
  have h := buildRoots_frame wpr names dt n ri ws
  by_contra hne
  rcases Nat.lt_or_ge (buildRoots wpr names dt ri n ws).1.length ws.length
    with hlt | hge
  · have h1 := h (buildRoots wpr names dt ri n ws).1.length
    rw [List.get?_eq_none.mpr (le_refl _)] at h1
    have h2 : ws.get? (buildRoots wpr names dt ri n ws).1.length ≠ none := by
      intro hc
      exact absurd (List.get?_eq_none.mp hc) (by omega)
    cases hw : ws.get? (buildRoots wpr names dt ri n ws).1.length with
    | none => exact h2 hw
    | some w => rw [hw] at h1; simp at h1
  · have hlt' : ws.length < (buildRoots wpr names dt ri n ws).1.length := by
      omega
    have h1 := h ws.length
    rw [List.get?_eq_none.mpr (le_refl _)] at h1
    cases hw : (buildRoots wpr names dt ri n ws).1.get? ws.length with
    | none => exact absurd (List.get?_eq_none.mp hw) (by omega)
    | some w => rw [hw] at h1; simp at h1

/-- With an exact partition (`ws.length = n * wpr`, `0 < wpr`): every root
carries exactly `wpr` word ids and every produced word's `root_id` names a
root of the output that lists the word's id. -/
theorem buildRoots_partition (wpr : Nat) (names : List String) (dt : Nat) :
    ∀ (n ri : Nat) (ws : List Word), ws.length = n * wpr → 0 < wpr →
    (∀ r ∈ (buildRoots wpr names dt ri n ws).2,
      r.word_ids.length = wpr ∧ r.discovery_threshold = dt) ∧
    (∀ w ∈ (buildRoots wpr names dt ri n ws).1,
      ∃ r ∈ (buildRoots wpr names dt ri n ws).2,
        w.root_id = r.id ∧ w.id ∈ r.word_ids)
  | 0, ri, ws, hlen, hwpr => by
    constructor
    · intro r hr
      simp [buildRoots] at hr
    · intro w hw
      simp only [Nat.zero_mul] at hlen
      rw [List.length_eq_zero] at hlen
      subst hlen
      simp [buildRoots] at hw
  | n + 1, ri, ws, hlen, hwpr => by
    have hwslen : wpr ≤ ws.length := by
      rw [hlen]
      calc wpr = 1 * wpr := (one_mul wpr).symm
      _ ≤ (n + 1) * wpr := Nat.mul_le_mul_right wpr (by omega)
    have hdrop : (ws.drop wpr).length = n * wpr := by
      simp only [List.length_drop, hlen]
      rw [Nat.succ_mul]
      omega
    obtain ⟨ih1, ih2⟩ := buildRoots_partition wpr names dt n (ri + 1)
      (ws.drop wpr) hdrop hwpr
    have htake : (ws.take wpr).length = wpr := by
      simp [List.length_take]
      omega
    constructor
    · intro r hr
      simp only [buildRoots, List.mem_cons] at hr
      rcases hr with rfl | hr
      · refine ⟨?_, rfl⟩
        simp only [List.length_map, List.length_take]
        omega
      · exact ih1 r hr
    · intro w hw
      simp only [buildRoots, List.mem_append] at hw
      rcases hw with hw | hw
      · obtain ⟨c, hc, rfl⟩ := List.mem_map.mp hw
        refine ⟨_, List.mem_cons_self _ _, rfl, ?_⟩
        simp only [restampWord]
        exact List.mem_map_of_mem (fun w => w.id) hc
      · obtain ⟨r, hr, hrid, hrmem⟩ := ih2 w hw
        exact ⟨r, List.mem_cons_of_mem _ hr, hrid, hrmem⟩

/-- Membership transport through root assignment: every input word occurs in
the output with all fields except `root_id` unchanged. -/
theorem buildRoots_mem_frame (wpr : Nat) (names : List String) (dt : Nat) :
    ∀ (n ri : Nat) (ws : List Word), ∀ w ∈ ws,
    ∃ w' ∈ (buildRoots wpr names dt ri n ws).1, frameOf w' = frameOf w
  | 0, ri, ws, w, hw => ⟨w, hw, rfl⟩
  | n + 1, ri, ws, w, hw => by
    rw [← List.take_append_drop wpr ws] at hw
    rcases List.mem_append.mp hw with hw' | hw'
    · refine ⟨restampWord (rootId ri) w, ?_, frameOf_restamp _ _⟩
      simp only [buildRoots, List.mem_append]
      exact Or.inl (List.mem_map_of_mem _ hw')
    · obtain ⟨w', hw'', hfr⟩ :=
        buildRoots_mem_frame wpr names dt n (ri + 1) (ws.drop wpr) w hw'
      refine ⟨w', ?_, hfr⟩
      simp only [buildRoots, List.mem_append]
      exact Or.inr hw''

/-! ## TextComposer lemmas -/

theorem choice_mem {α : Type} (G : RandGen σ) (l : List α) (s : σ)
    {x : α} {s' : σ} (h : choice G l s = some (x, s')) : x ∈ l := by
  simp only [choice, Option.map_eq_some'] at h
  obtain ⟨y, hy, hxy⟩ := h
  obtain ⟨h1, -⟩ := by simpa using hxy
  rw [← h1]
  exact List.get?_mem hy

theorem choice_total {α : Type} (G : RandGen σ) (l : List α) (s : σ)
    (h : l ≠ []) : (choice G l s).isSome = true := by
  simp only [choice, Option.isSome_map']
  have := G.choiceIdx_lt l.length s (List.length_pos.mpr h)
  rw [List.get?_eq_get this]
  rfl

theorem drawSlot_mem (G : RandGen σ) (catWords otherWords allWords : List Word)
    (bias : ℚ) (s : σ) {w : Word} {s' : σ}
    (h : drawSlot G catWords otherWords allWords bias s = some (w, s')) :
    w ∈ catWords ∨ w ∈ otherWords ∨ w ∈ allWords := by
  cases catWords with
  | nil =>
    simp only [drawSlot] at h
    split at h
    · exact Or.inr (Or.inr (choice_mem G allWords _ h))
    · exact Or.inr (Or.inl (choice_mem G otherWords _ h))
  | cons c cs =>
    simp only [drawSlot] at h
    split at h
    · exact Or.inl (choice_mem G (c :: cs) _ h)
    · split at h
      · exact Or.inr (Or.inr (choice_mem G allWords _ h))
      · exact Or.inr (Or.inl (choice_mem G otherWords _ h))

theorem drawSlot_total (G : RandGen σ)
    (catWords otherWords allWords : List Word) (bias : ℚ) (s : σ)
    (hall : allWords ≠ []) :
    (drawSlot G catWords otherWords allWords bias s).isSome = true := by
  cases catWords with
  | nil =>
    simp only [drawSlot]
    split
    · exact choice_total G allWords _ hall
    · next hne =>
      exact choice_total G otherWords _ (by simpa using hne)
  | cons c cs =>
    simp only [drawSlot]
    split
    · exact choice_total G (c :: cs) _ (by simp)
    · split
      · exact choice_total G allWords _ hall
      · next hne =>
        exact choice_total G otherWords _ (by simpa using hne)

theorem mkSlots_spec (G : RandGen σ)
    (catWords otherWords allWords : List Word) (bias : ℚ) :
    ∀ (n : Nat) (s : σ) (ids : List String) (s' : σ),
    mkSlots G catWords otherWords allWords bias n s = some (ids, s') →
    ids.length = n ∧
    (∀ x ∈ ids, ∃ w, (w ∈ catWords ∨ w ∈ otherWords ∨ w ∈ allWords) ∧
      w.id = x)
  | 0, s, ids, s', h => by
    simp only [mkSlots, Option.some.injEq, Prod.mk.injEq] at h
    obtain ⟨rfl, rfl⟩ := h
    exact ⟨rfl, fun x hx => absurd hx (by simp)⟩
  | n + 1, s, ids, s', h => by
    simp only [mkSlots, Option.bind_eq_some, Option.map_eq_some'] at h
    obtain ⟨⟨w, s₁⟩, hdraw, ⟨ids₀, s₂⟩, hrec, hout⟩ := h
    obtain ⟨hids, hs⟩ := by simpa using hout
    subst hids hs
    obtain ⟨hlen, hmem⟩ :=
      mkSlots_spec G catWords otherWords allWords bias n s₁ ids₀ s₂ hrec
    refine ⟨by simp [hlen], ?_⟩
    intro x hx
    rcases List.mem_cons.mp hx with rfl | hx'
    · exact ⟨w, drawSlot_mem G _ _ _ _ _ hdraw, rfl⟩
    · exact hmem x hx'

theorem mkSlots_total (G : RandGen σ)
    (catWords otherWords allWords : List Word) (bias : ℚ)
    (hall : allWords ≠ []) :
    ∀ (n : Nat) (s : σ),
    (mkSlots G catWords otherWords allWords bias n s).isSome = true
  | 0, _ => rfl
  | n + 1, s => by
    simp only [mkSlots]
    obtain ⟨⟨w, s₁⟩, hdraw⟩ := Option.isSome_iff_exists.mp
      (drawSlot_total G catWords otherWords allWords bias s hall)
    rw [hdraw]
    simp only [Option.some_bind, Option.isSome_map']
    exact mkSlots_total G catWords otherWords allWords bias hall n s₁

theorem mkTexts_spec (cfg : Config) (G : RandGen σ) (allWords : List Word)
    (names : List String) :
    ∀ (n ti : Nat) (s : σ) (ts : List Text) (s' : σ),
    mkTexts cfg G allWords names ti n s = some (ts, s') →
    ts.length = n ∧
    (∀ j, j < n → ∃ t, ts.get? j = some t ∧
      t.id = textId (ti + j) ∧
      t.unlock_threshold = cfg.unlockThresholds.getD (ti + j) ((ti + j) * 8) ∧
      (cfg.slotLo ≤ cfg.slotHi →
        cfg.slotLo ≤ t.word_ids.length ∧ t.word_ids.length ≤ cfg.slotHi) ∧
      (∀ x ∈ t.word_ids, ∃ w ∈ allWords, w.id = x))
  | 0, ti, s, ts, s', h => by
    simp only [mkTexts, Option.some.injEq, Prod.mk.injEq] at h
    obtain ⟨rfl, rfl⟩ := h
    exact ⟨rfl, fun j hj => absurd hj (by omega)⟩
  | n + 1, ti, s, ts, s', h => by
    simp only [mkTexts, Option.bind_eq_some, Option.map_eq_some'] at h
    obtain ⟨⟨ids, s₂⟩, hslots, ⟨ts₀, s₃⟩, hrec, hout⟩ := h
    obtain ⟨hts, hs⟩ := by simpa using hout
    subst hts hs
    obtain ⟨hlen, hblock⟩ :=
      mkTexts_spec cfg G allWords names n (ti + 1) s₂ ts₀ s₃ hrec
    obtain ⟨hslen, hsmem⟩ := mkSlots_spec G _ _ _ _ _ _ ids s₂ hslots
    refine ⟨by simp [hlen], ?_⟩
    intro j hj
    cases j with
    | zero =>
      refine ⟨_, rfl, by simp, by simp, ?_, ?_⟩
      · intro hle
        constructor
        · simpa [hslen] using G.randint_le cfg.slotLo cfg.slotHi s hle
        · simpa [hslen] using G.randint_ge cfg.slotLo cfg.slotHi s hle
      · intro x hx
        simp only at hx
        obtain ⟨w, hw, hwid⟩ := hsmem x hx
        refine ⟨w, ?_, hwid⟩
        rcases hw with hw | hw | hw
        · exact List.mem_of_mem_filter hw
        · exact List.mem_of_mem_filter hw
        · exact hw
    | succ j' =>
      obtain ⟨t, ht, hid, hunlock, hslot, hmem⟩ := hblock j' (by omega)
      have harith : ti + 1 + j' = ti + (j' + 1) := by omega
      refine ⟨t, by simpa using ht, ?_, ?_, hslot, hmem⟩
      · rw [hid, harith]
      · rw [hunlock, harith]

theorem mkTexts_total (cfg : Config) (G : RandGen σ) (allWords : List Word)
    (names : List String) (hall : allWords ≠ []) :
    ∀ (n ti : Nat) (s : σ),
    (mkTexts cfg G allWords names ti n s).isSome = true
  | 0, _, _ => rfl
  | n + 1, ti, s => by
    simp only [mkTexts]
    obtain ⟨⟨ids, s₂⟩, hslots⟩ := Option.isSome_iff_exists.mp
      (mkSlots_total G _ _ allWords _ hall _ _)
    rw [hslots]
    simp only [Option.some_bind, Option.isSome_map']
    exact mkTexts_total cfg G allWords names hall n (ti + 1) s₂

/-! ## CoverageRepairer: characterizing the replaceable slots of pass 1 -/

/-- All indices at which `pref` holds the word `w`, ascending. -/
def occIdxs (pref : List String) (w : String) : List Nat :=
  (List.range pref.length).filter (fun i => pref.get? i == some w)

theorem occIdxs_mem {pref : List String} {w : String} {i : Nat} :
    i ∈ occIdxs pref w ↔ pref.get? i = some w := by
  simp only [occIdxs, List.mem_filter, List.mem_range, beq_iff_eq]
  constructor
  · exact fun h => h.2
  · intro h
    refine ⟨?_, h⟩
    have := List.get?_eq_some.mp h
    exact this.1

theorem occIdxs_sorted (pref : List String) (w : String) :
    List.Pairwise (· < ·) (occIdxs pref w) :=
  (List.pairwise_lt_range _).filter _

theorem occIdxs_append (pref : List String) (w x : String) :
    occIdxs (pref ++ [x]) w =
      occIdxs pref w ++ (if x = w then [pref.length] else []) := by
  simp only [occIdxs, List.length_append, List.length_singleton,
    List.range_succ, List.filter_append]
  congr 1
  · apply List.filter_congr
    intro i hi
    rw [List.get?_append (List.mem_range.mp hi)]
  · rw [List.filter_singleton]
    by_cases hx : x = w
    · subst hx
      simp [List.get?_concat_length]
    · have hbeq : (x == w) = false := beq_eq_false_iff_ne.mpr hx
      simp [List.get?_concat_length, hbeq, hx]

theorem occIdxs_nil_of_not_mem {pref : List String} {w : String}
    (h : w ∉ pref) : occIdxs pref w = [] := by
  rw [List.eq_nil_iff_forall_not_mem]
  intro i hi
  exact h (List.get?_mem (occIdxs_mem.mp hi))

/-- Invariant of the `word_counts` accumulator: keys are distinct, every
entry lists exactly the occurrence indices of its key in the processed
prefix, entries are never empty, and every processed word has an entry. -/
def GroupsOk (acc : List (String × List Nat)) (pref : List String) : Prop :=
  ((acc.map Prod.fst).Nodup) ∧
  (∀ p ∈ acc, p.2 = occIdxs pref p.1) ∧
  (∀ p ∈ acc, p.2 ≠ []) ∧
  (∀ w ∈ pref, ∃ p ∈ acc, p.1 = w)

theorem groupStep_ok (acc : List (String × List Nat)) (pref : List String)
    (w : String) (h : GroupsOk acc pref) :
    GroupsOk
      (if acc.any (fun q => q.1 == w) then
        acc.map (fun q => if q.1 == w then (q.1, q.2 ++ [pref.length]) else q)
      else acc ++ [(w, [pref.length])]) (pref ++ [w]) := by
  obtain ⟨hkeys, hocc, hne, hcover⟩ := h
  by_cases hany : acc.any (fun q => q.1 == w) = true
  · rw [if_pos hany]
    refine ⟨?_, ?_, ?_, ?_⟩
    · have heq : (acc.map (fun q =>
          if q.1 == w then (q.1, q.2 ++ [pref.length]) else q)).map
          Prod.fst = acc.map Prod.fst := by
        rw [List.map_map]
        apply List.map_congr_left
        intro q _
        simp only [Function.comp_apply]
        split <;> rfl
      rw [heq]
      exact hkeys
    · intro p hp
      obtain ⟨q, hq, hpq⟩ := List.mem_map.mp hp
      by_cases hqw : q.1 = w
      · rw [if_pos (by simpa using hqw)] at hpq
        rw [← hpq]
        simp only
        rw [hocc q hq, occIdxs_append, hqw, if_pos rfl]
      · rw [if_neg (by simpa using hqw)] at hpq
        rw [← hpq, hocc q hq, occIdxs_append,
          if_neg (fun hc => hqw hc.symm)]
        simp
    · intro p hp
      obtain ⟨q, hq, hpq⟩ := List.mem_map.mp hp
      by_cases hqw : q.1 = w
      · rw [if_pos (by simpa using hqw)] at hpq
        rw [← hpq]
        simp
      · rw [if_neg (by simpa using hqw)] at hpq
        rw [← hpq]
        exact hne q hq
    · intro v hv
      rcases List.mem_append.mp hv with hv | hv
      · obtain ⟨p, hp, hpv⟩ := hcover v hv
        refine ⟨if p.1 == w then (p.1, p.2 ++ [pref.length]) else p,
          List.mem_map_of_mem _ hp, ?_⟩
        split <;> exact hpv
      · have hv' : v = w := by simpa using hv
        rw [hv']
        obtain ⟨q, hq, hqv⟩ := List.any_eq_true.mp hany
        refine ⟨(q.1, q.2 ++ [pref.length]), ?_, by simpa using hqv⟩
        apply List.mem_map.mpr
        exact ⟨q, hq, by simp [hqv]⟩
  · rw [if_neg hany]
    have hany' : ∀ p ∈ acc, p.1 ≠ w := by
      intro p hp hc
      exact hany (List.any_eq_true.mpr ⟨p, hp, by simpa using hc⟩)
    have hnotin : w ∉ pref := by
      intro hw
      obtain ⟨p, hp, hpw⟩ := hcover w hw
      exact absurd hpw (hany' p hp)
    refine ⟨?_, ?_, ?_, ?_⟩
    · rw [List.map_append]
      apply List.Nodup.append hkeys (by simp)
      intro k hk hk'
      simp only [List.map_cons, List.map_nil, List.mem_singleton] at hk'
      subst hk'
      obtain ⟨p, hp, hpk⟩ := List.mem_map.mp hk
      exact absurd hpk (hany' p hp)
    · intro p hp
      rcases List.mem_append.mp hp with hp | hp
      · rw [hocc p hp, occIdxs_append]
        rw [if_neg (fun hc => (hany' p hp) hc.symm)]
        simp
      · simp only [List.mem_singleton] at hp
        subst hp
        simp only
        rw [occIdxs_append, if_pos rfl, occIdxs_nil_of_not_mem hnotin]
        simp
    · intro p hp
      rcases List.mem_append.mp hp with hp | hp
      · exact hne p hp
      · simp only [List.mem_singleton] at hp
        subst hp
        simp
    · intro v hv
      rcases List.mem_append.mp hv with hv | hv
      · obtain ⟨p, hp, hpv⟩ := hcover v hv
        exact ⟨p, List.mem_append.mpr (Or.inl hp), hpv⟩
      · have hv' : v = w := by simpa using hv
        rw [hv']
        exact ⟨(w, [pref.length]), List.mem_append.mpr (Or.inr (by simp)),
          rfl⟩

theorem indexGroupsFrom_ok :
    ∀ (rest pref : List String) (acc : List (String × List Nat)),
    GroupsOk acc pref →
    GroupsOk (indexGroupsFrom pref.length rest acc) (pref ++ rest)
  | [], pref, acc, h => by simpa [indexGroupsFrom] using h
  | w :: rest, pref, acc, h => by
    simp only [indexGroupsFrom]
    have hstep := groupStep_ok acc pref w h
    have hrec := indexGroupsFrom_ok rest (pref ++ [w]) _ hstep
    simpa [List.append_assoc] using hrec

theorem indexGroups_ok (ids : List String) :
    GroupsOk (indexGroupsFrom 0 ids []) ids := by
  have h := indexGroupsFrom_ok ids [] []
    ⟨by simp, by simp, by simp, by simp⟩
  simpa using h

theorem mem_tail_of_pairwise_lt {l : List Nat}
    (hs : List.Pairwise (· < ·) l) {i : Nat} :
    i ∈ l.tail ↔ (i ∈ l ∧ ∃ j ∈ l, j < i) := by
  cases l with
  | nil => simp
  | cons h t =>
    simp only [List.tail_cons]
    constructor
    · intro hit
      have hh := (List.pairwise_cons.mp hs).1 i hit
      exact ⟨List.mem_cons_of_mem _ hit, h, List.mem_cons_self _ _, hh⟩
    · rintro ⟨hil, j, hj, hji⟩
      rcases List.mem_cons.mp hil with rfl | hit
      · rcases List.mem_cons.mp hj with rfl | hjt
        · omega
        · have := (List.pairwise_cons.mp hs).1 j hjt
          omega
      · exact hit

/-- The replaceable slots of pass 1 are exactly the occurrence indices that
repeat an earlier slot of the same text. -/
theorem dupIndices_mem (ids : List String) (i : Nat) :
    i ∈ dupIndices ids ↔
      ∃ w, ids.get? i = some w ∧ ∃ j, j < i ∧ ids.get? j = some w := by
  obtain ⟨hkeys, hocc, hne, hcover⟩ := indexGroups_ok ids
  simp only [dupIndices, List.mem_flatMap]
  constructor
  · rintro ⟨p, hp, hip⟩
    rw [hocc p hp] at hip
    obtain ⟨hiocc, j, hjocc, hji⟩ :=
      (mem_tail_of_pairwise_lt (occIdxs_sorted ids p.1)).mp hip
    exact ⟨p.1, occIdxs_mem.mp hiocc, j, hji, occIdxs_mem.mp hjocc⟩
  · rintro ⟨w, hi, j, hji, hj⟩
    obtain ⟨p, hp, hpw⟩ := hcover w (List.get?_mem hi)
    refine ⟨p, hp, ?_⟩
    rw [hocc p hp, hpw]
    apply (mem_tail_of_pairwise_lt (occIdxs_sorted ids w)).mpr
    exact ⟨occIdxs_mem.mpr hi, j, occIdxs_mem.mpr hj, hji⟩

theorem dupIndices_lt {ids : List String} {i : Nat}
    (h : i ∈ dupIndices ids) : i < ids.length := by
  obtain ⟨w, hi, -⟩ := (dupIndices_mem ids i).mp h
  exact (List.get?_eq_some.mp hi).1

theorem dupIndices_of_lt_eq {ids : List String} {p q : Nat} (hpq : p < q)
    (hq : q < ids.length) (he : ids.get? p = ids.get? q) :
    q ∈ dupIndices ids := by
  obtain ⟨w, hw⟩ : ∃ w, ids.get? q = some w :=
    ⟨ids.get ⟨q, hq⟩, List.get?_eq_get hq⟩
  exact (dupIndices_mem ids q).mpr ⟨w, hw, p, hpq, he.trans hw⟩

theorem first_occ_not_dup {ids : List String} {w : String} (hw : w ∈ ids) :
    ∃ i, ids.get? i = some w ∧ i ∉ dupIndices ids := by
  have hex : ∃ i, ids.get? i = some w := by
    obtain ⟨n, hn⟩ := List.mem_iff_get.mp hw
    exact ⟨n, hn ▸ List.get?_eq_get n.isLt⟩
  classical
  have hfind := Nat.find_spec hex
  have hmin : ∀ j < Nat.find hex, ¬ ids.get? j = some w :=
    fun j hj => Nat.find_min hex hj
  refine ⟨Nat.find hex, hfind, ?_⟩
  intro hdup
  obtain ⟨v, hv, j, hji, hj⟩ := (dupIndices_mem ids (Nat.find hex)).mp hdup
  have hvw : v = w := by
    rw [hfind] at hv
    exact (Option.some.inj hv).symm
  subst hvw
  exact hmin j hji hj

theorem dupIndices_nodup (ids : List String) : (dupIndices ids).Nodup := by
  obtain ⟨hkeys, hocc, hne, hcover⟩ := indexGroups_ok ids
  rw [dupIndices, List.flatMap_def, List.nodup_flatten]
  constructor
  · intro l hl
    obtain ⟨p, hp, hpl⟩ := List.mem_map.mp hl
    rw [← hpl, hocc p hp]
    exact ((occIdxs_sorted ids p.1).sublist (List.tail_sublist _)).imp
      (fun h => Nat.ne_of_lt h)
  · rw [List.pairwise_map]
    have hkp : List.Pairwise (fun p q => p.1 ≠ q.1)
        (indexGroupsFrom 0 ids []) := List.pairwise_map.mp hkeys
    refine List.Pairwise.imp_of_mem ?_ hkp
    intro p q hp hq hpq
    intro a hap haq
    have ha1 : ids.get? a = some p.1 := by
      have hm : a ∈ p.2 := (List.tail_sublist p.2).subset hap
      rw [hocc p hp] at hm
      exact occIdxs_mem.mp hm
    have ha2 : ids.get? a = some q.1 := by
      have hm : a ∈ q.2 := (List.tail_sublist q.2).subset haq
      rw [hocc q hq] at hm
      exact occIdxs_mem.mp hm
    exact hpq (Option.some.inj (ha1.symm.trans ha2))

/-! ## `fillSlots` lemmas -/

theorem fillSlots_spec : ∀ (slots : List Nat) (ids rem : List String),
    ((fillSlots ids slots rem).1.length = ids.length) ∧
    ((fillSlots ids slots rem).2.Sublist rem) ∧
    (∀ p, p ∉ slots → (fillSlots ids slots rem).1.get? p = ids.get? p) ∧
    (∀ x ∈ (fillSlots ids slots rem).1, x ∈ ids ∨ x ∈ rem) ∧
    ((∀ p ∈ slots, p < ids.length) → rem.Nodup → slots.Nodup →
      ∀ o ∈ rem, o ∈ (fillSlots ids slots rem).2 ∨
        o ∈ (fillSlots ids slots rem).1)
  | [], ids, rem =>
    ⟨rfl, List.Sublist.refl rem, fun p _ => rfl, fun x hx => Or.inl hx,
      fun _ _ _ o ho => Or.inl ho⟩
  | si :: rest, ids, rem => by
    cases hpop : popLast rem with
    | none =>
      have hrem : rem = [] := popLast_eq_none hpop
      subst hrem
      exact ⟨rfl, List.Sublist.refl _, fun p _ => rfl, fun x hx => Or.inl hx,
        fun _ _ _ o ho => absurd ho (by simp)⟩
    | some pr =>
      obtain ⟨o, rem₀⟩ := pr
      simp only [fillSlots, hpop]
      obtain ⟨iha, ihb, ihc, ihd, ihe⟩ := fillSlots_spec rest (ids.set si o) rem₀
      have hsub₀ : rem₀.Sublist rem := popLast_sublist hpop
      have hrem : rem = rem₀ ++ [o] := popLast_eq_some hpop
      refine ⟨by rw [iha]; simp, ihb.trans hsub₀, ?_, ?_, ?_⟩
      · intro p hp
        have hpr : p ∉ rest := fun hc => hp (List.mem_cons_of_mem _ hc)
        have hps : si ≠ p := fun hc => hp (hc ▸ List.mem_cons_self _ _)
        rw [ihc p hpr]
        exact List.get?_set_ne o ids hps
      · intro x hx
        rcases ihd x hx with hx' | hx'
        · rcases List.mem_or_eq_of_mem_set hx' with h | rfl
          · exact Or.inl h
          · exact Or.inr (popLast_mem hpop)
        · exact Or.inr (hsub₀.subset hx')
      · intro hb hnd hslots o' ho'
        have hb' : ∀ p ∈ rest, p < (ids.set si o).length := by
          intro p hp
          rw [List.length_set]
          exact hb p (List.mem_cons_of_mem _ hp)
        have hnd₀ : rem₀.Nodup := hnd.sublist hsub₀
        have hsr : rest.Nodup := (List.nodup_cons.mp hslots).2
        have hsi : si ∉ rest := (List.nodup_cons.mp hslots).1
        rw [hrem] at ho'
        rcases List.mem_append.mp ho' with h0 | h0
        · exact ihe hb' hnd₀ hsr o' h0
        · have ho'' : o' = o := by simpa using h0
          rw [ho'']
          right
          have hgot : (fillSlots (ids.set si o) rest rem₀).1.get? si = some o := by
            rw [ihc si hsi, List.get?_eq_getElem?, List.getElem?_set]
            simp [hb si (List.mem_cons_self _ _)]
          exact List.get?_mem hgot

theorem fillSlots_nodup : ∀ (slots : List Nat) (ids rem : List String),
    (∀ p q, p < ids.length → q < ids.length → p ≠ q → p ∉ slots →
      q ∉ slots → ids.get? p ≠ ids.get? q) →
    (∀ o ∈ rem, o ∉ ids) → rem.Nodup → (∀ p ∈ slots, p < ids.length) →
    (fillSlots ids slots rem).2 ≠ [] → (fillSlots ids slots rem).1.Nodup
  | [], ids, rem, hout, _, _, _, _ => by
    simp only [fillSlots]
    rw [List.nodup_iff_injective_get]
    intro a b he
    by_contra hab
    have hne' : a.1 ≠ b.1 := fun hc => hab (Fin.ext hc)
    apply hout a.1 b.1 a.isLt b.isLt hne' (by simp) (by simp)
    rw [List.get?_eq_get a.isLt, List.get?_eq_get b.isLt]
    exact congrArg some he
  | si :: rest, ids, rem, hout, hfresh, hnd, hb, hne => by
    cases hpop : popLast rem with
    | none =>
      simp only [fillSlots, hpop] at hne
      exact absurd (popLast_eq_none hpop) hne
    | some pr =>
      obtain ⟨o, rem₀⟩ := pr
      simp only [fillSlots, hpop] at hne ⊢
      have hrem : rem = rem₀ ++ [o] := popLast_eq_some hpop
      have hofresh : o ∉ ids := hfresh o (by rw [hrem]; simp)
      have honode : o ∉ rem₀ := popLast_not_mem hnd hpop
      have hsilt : si < ids.length := hb si (List.mem_cons_self _ _)
      apply fillSlots_nodup rest (ids.set si o) rem₀ ?_ ?_ ?_ ?_ hne
      · intro p q hp hq hpq hpr hqr
        rw [List.length_set] at hp hq
        have hset_self : (ids.set si o).get? si = some o := by
          rw [List.get?_eq_getElem?, List.getElem?_set]
          simp [hsilt]
        by_cases hpsi : p = si
        · subst hpsi
          have h2 : (ids.set p o).get? q = ids.get? q :=
            List.get?_set_ne o ids (fun hc => hpq hc)
          rw [hset_self, h2]
          intro hc
          exact hofresh (List.get?_mem hc.symm)
        · by_cases hqsi : q = si
          · subst hqsi
            have h1 : (ids.set q o).get? p = ids.get? p :=
              List.get?_set_ne o ids (fun hc => hpq hc.symm)
            rw [hset_self, h1]
            intro hc
            exact hofresh (List.get?_mem hc)
          · have h1 : (ids.set si o).get? p = ids.get? p :=
              List.get?_set_ne o ids (fun hc => hpsi hc.symm)
            have h2 : (ids.set si o).get? q = ids.get? q :=
              List.get?_set_ne o ids (fun hc => hqsi hc.symm)
            rw [h1, h2]
            exact hout p q hp hq hpq
              (by simp [hpsi, hpr])
              (by simp [hqsi, hqr])
      · intro o' ho'
        intro hmem
        rcases List.mem_or_eq_of_mem_set hmem with h | rfl
        · exact hfresh o' (by rw [hrem]; exact List.mem_append_left _ ho') h
        · exact honode ho'
      · exact hnd.sublist (popLast_sublist hpop)
      · intro p hp
        rw [List.length_set]
        exact hb p (List.mem_cons_of_mem _ hp)

/-! ## `pass2Slots` lemmas

The donor-substitution loop is analyzed against an abstract decomposition of
the model's slot multiset: `base` counts the occurrences of each word in the
already-processed slots, the current text contributes `ids`, and `ctxF`
flattens the texts still to come.  The potential
`|remaining| + numDistinct(future)` ≤ `|future|` shrinks with the loop and
forces the orphan queue to empty before the future does. -/

/-- Number of distinct words in a slot list. -/
def numDistinct (l : List String) : Nat := l.toFinset.card

theorem numDistinct_le_length (l : List String) : numDistinct l ≤ l.length :=
  l.toFinset_card_le

theorem numDistinct_mono {l₁ l₂ : List String} (h : l₁ ⊆ l₂) :
    numDistinct l₁ ≤ numDistinct l₂ :=
  Finset.card_le_card (fun x hx =>
    List.mem_toFinset.mpr (h (List.mem_toFinset.mp hx)))

theorem numDistinct_cons_of_not_mem {a : String} {l : List String}
    (h : a ∉ l) : numDistinct (a :: l) = numDistinct l + 1 := by
  simp only [numDistinct, List.toFinset_cons]
  exact Finset.card_insert_of_not_mem (fun hc => h (List.mem_toFinset.mp hc))

theorem count_cons_eq (a b : String) (l : List String) :
    (b :: l).count a = l.count a + (if a = b then 1 else 0) := by
  rw [List.count_cons]
  by_cases h : a = b
  · simp [h]
  · simp [h, Ne.symm h]

theorem pass2Slots_spec : ∀ (ids : List String) (counts : String → Nat)
    (remaining : List String) (base : String → Nat) (ctxF : List String),
    (∀ w, counts w = base w + ids.count w + ctxF.count w) →
    remaining.Nodup →
    (∀ o ∈ remaining, counts o = 0) →
    (∀ w, (pass2Slots counts remaining ids).2.1 w =
      base w + (pass2Slots counts remaining ids).1.count w + ctxF.count w) ∧
    ((pass2Slots counts remaining ids).2.2.Sublist remaining) ∧
    (∀ o ∈ (pass2Slots counts remaining ids).2.2,
      (pass2Slots counts remaining ids).2.1 o = 0) ∧
    ((pass2Slots counts remaining ids).1.length = ids.length) ∧
    (∀ w, 0 < base w + ids.count w + ctxF.count w →
      0 < base w + (pass2Slots counts remaining ids).1.count w +
        ctxF.count w) ∧
    (∀ x ∈ (pass2Slots counts remaining ids).1, x ∈ ids ∨ x ∈ remaining) ∧
    (∀ o ∈ remaining, o ∈ (pass2Slots counts remaining ids).2.2 ∨
      o ∈ (pass2Slots counts remaining ids).1) ∧
    (remaining.length + numDistinct (ids ++ ctxF) ≤ ids.length + ctxF.length →
      (pass2Slots counts remaining ids).2.2.length + numDistinct ctxF ≤
        ctxF.length)
  | [], counts, remaining, base, ctxF, hc, hrn, hr0 => by
    refine ⟨hc, List.Sublist.refl _, hr0, rfl, fun w h => h,
      fun x hx => absurd hx (List.not_mem_nil x), fun o ho => Or.inl ho, ?_⟩
    intro hpot
    rw [List.nil_append] at hpot
    show remaining.length + numDistinct ctxF ≤ ctxF.length
    simp only [List.length_nil] at hpot
    omega
  | wid :: rest, counts, remaining, base, ctxF, hc, hrn, hr0 => by
    cases hpop : popLast remaining with
    | none =>
      have hrem : remaining = [] := popLast_eq_none hpop
      subst hrem
      refine ⟨hc, List.Sublist.refl _,
        fun o ho => absurd ho (List.not_mem_nil o), rfl, fun w h => h,
        fun x hx => Or.inl hx,
        fun o ho => absurd ho (List.not_mem_nil o), ?_⟩
      intro hpot
      show ([] : List String).length + numDistinct ctxF ≤ ctxF.length
      have hle := numDistinct_le_length ctxF
      simp only [List.length_nil]
      omega
    | some pr =>
      obtain ⟨o, rem₀⟩ := pr
      have hrem : remaining = rem₀ ++ [o] := popLast_eq_some hpop
      have homem : o ∈ remaining := popLast_mem hpop
      have honode : o ∉ rem₀ := popLast_not_mem hrn hpop
      have hrlen : remaining.length = rem₀.length + 1 := popLast_length hpop
      have hrem₀sub : rem₀.Sublist remaining := popLast_sublist hpop
      have ho0 : counts o = 0 := hr0 o homem
      have hbase_o : base o = 0 ∧ (wid :: rest).count o = 0 ∧
          ctxF.count o = 0 := by
        have := (hc o).symm.trans ho0
        omega
      have hwid_cnt : (wid :: rest).count wid = rest.count wid + 1 := by
        rw [count_cons_eq, if_pos rfl]
      by_cases hgt : 1 < counts wid
      · -- the slot donates: substitute the popped orphan
        simp only [pass2Slots, hpop, if_pos hgt]
        have hone : o ≠ wid := by
          intro he
          rw [he] at ho0
          omega
        set c₁ := Function.update counts wid (counts wid - 1) with hc₁
        set c₂ := Function.update c₁ o (c₁ o + 1) with hc₂
        have hc₁o : c₁ o = counts o := by
          rw [hc₁, Function.update_apply, if_neg hone]
        have hc₂o : c₂ o = 1 := by
          rw [hc₂, Function.update_same, hc₁o, ho0]
        have hc₂wid : c₂ wid = counts wid - 1 := by
          rw [hc₂, Function.update_apply, if_neg (fun he => hone he.symm),
            hc₁, Function.update_same]
        have hc₂other : ∀ w, w ≠ o → w ≠ wid → c₂ w = counts w := by
          intro w hwo hwwid
          rw [hc₂, Function.update_apply, if_neg hwo, hc₁,
            Function.update_apply, if_neg hwwid]
        have hc' : ∀ w, c₂ w = (fun v => base v + (if v = o then 1 else 0)) w +
            rest.count w + ctxF.count w := by
          intro w
          show c₂ w = base w + (if w = o then 1 else 0) +
            rest.count w + ctxF.count w
          by_cases hwo : w = o
          · subst hwo
            have h1 : (wid :: rest).count w = 0 := hbase_o.2.1
            rw [count_cons_eq] at h1
            rw [hc₂o, if_pos rfl]
            have := hbase_o.1
            have := hbase_o.2.2
            omega
          · by_cases hwwid : w = wid
            · subst hwwid
              have h2 := hc w
              rw [hwid_cnt] at h2
              rw [hc₂wid, if_neg hwo]
              omega
            · have h2 := hc w
              rw [count_cons_eq, if_neg hwwid] at h2
              rw [hc₂other w hwo hwwid, if_neg hwo]
              omega
        have hr0' : ∀ o' ∈ rem₀, c₂ o' = 0 := by
          intro o' ho'
          have ho'mem : o' ∈ remaining := hrem₀sub.subset ho'
          have ho'ne : o' ≠ o := fun he => honode (he ▸ ho')
          have ho'wid : o' ≠ wid := by
            intro he
            have h0 := hr0 o' ho'mem
            rw [he] at h0
            omega
          rw [hc₂other o' ho'ne ho'wid]
          exact hr0 o' ho'mem
        obtain ⟨ih1, ih2, ih3, ih4, ih5, ih6, ih7, ih8⟩ :=
          pass2Slots_spec rest c₂ rem₀
            (fun v => base v + (if v = o then 1 else 0)) ctxF hc'
            (hrn.sublist hrem₀sub) hr0'
        refine ⟨?_, ih2.trans hrem₀sub, ih3, by simpa using ih4, ?_, ?_, ?_, ?_⟩
        · intro w
          have h1 : (pass2Slots c₂ rem₀ rest).2.1 w =
              base w + (if w = o then 1 else 0) +
              (pass2Slots c₂ rem₀ rest).1.count w + ctxF.count w := ih1 w
          have h2 : (o :: (pass2Slots c₂ rem₀ rest).1).count w =
              (pass2Slots c₂ rem₀ rest).1.count w + (if w = o then 1 else 0) :=
            count_cons_eq w o _
          show (pass2Slots c₂ rem₀ rest).2.1 w =
            base w + (o :: (pass2Slots c₂ rem₀ rest).1).count w + ctxF.count w
          omega
        · intro w hpos
          by_cases hwo : w = o
          · have hhead : 0 < (o :: (pass2Slots c₂ rem₀ rest).1).count w := by
              rw [count_cons_eq, if_pos hwo]
              omega
            omega
          · have hstep : 0 < base w + rest.count w + ctxF.count w := by
              by_cases hwwid : w = wid
              · subst hwwid
                have h2 := hc w
                rw [hwid_cnt] at h2
                omega
              · rw [count_cons_eq, if_neg hwwid] at hpos
                omega
            have hres : 0 < base w + (if w = o then 1 else 0) +
                rest.count w + ctxF.count w →
                0 < base w + (if w = o then 1 else 0) +
                  (pass2Slots c₂ rem₀ rest).1.count w + ctxF.count w := ih5 w
            rw [if_neg hwo] at hres
            have hcon := hres (by omega)
            have h2 : (o :: (pass2Slots c₂ rem₀ rest).1).count w =
                (pass2Slots c₂ rem₀ rest).1.count w + (if w = o then 1 else 0) :=
              count_cons_eq w o _
            rw [if_neg hwo] at h2
            omega
        · intro x hx
          rcases List.mem_cons.mp hx with rfl | hx₀
          · exact Or.inr homem
          · rcases ih6 x hx₀ with h | h
            · exact Or.inl (List.mem_cons_of_mem _ h)
            · exact Or.inr (hrem₀sub.subset h)
        · intro o' ho'
          rcases (by rw [hrem] at ho'; exact List.mem_append.mp ho') with h | h
          · rcases ih7 o' h with h' | h'
            · exact Or.inl h'
            · exact Or.inr (List.mem_cons_of_mem _ h')
          · have he : o' = o := by simpa using h
            rw [he]
            exact Or.inr (List.mem_cons_self _ _)
        · intro hpot
          apply ih8
          have hnd_mono : numDistinct (rest ++ ctxF) ≤
              numDistinct ((wid :: rest) ++ ctxF) := by
            apply numDistinct_mono
            intro x hx
            rw [List.cons_append]
            exact List.mem_cons_of_mem _ hx
          simp only [List.length_append, List.length_cons] at hpot ⊢
          omega
      · -- the slot keeps its word (its text-reference count is at most one)
        simp only [pass2Slots, hpop, if_neg hgt]
        obtain ⟨ih1, ih2, ih3, ih4, ih5, ih6, ih7, ih8⟩ :=
          pass2Slots_spec rest counts remaining
            (fun v => base v + (if v = wid then 1 else 0)) ctxF
            (fun w => by
              show counts w = base w + (if w = wid then 1 else 0) +
                rest.count w + ctxF.count w
              have h2 := hc w
              rw [count_cons_eq] at h2
              omega)
            hrn hr0
        have hwid1 : counts wid = 1 := by
          have h2 := hc wid
          rw [hwid_cnt] at h2
          omega
        have hwidnotfut : wid ∉ rest ++ ctxF := by
          have h2 := hc wid
          rw [hwid_cnt, hwid1] at h2
          intro hmem
          rcases List.mem_append.mp hmem with h | h
          · have := List.count_pos_iff.mpr h
            omega
          · have := List.count_pos_iff.mpr h
            omega
        refine ⟨?_, ih2, ih3, by simpa using ih4, ?_, ?_, ?_, ?_⟩
        · intro w
          have h1 : (pass2Slots counts remaining rest).2.1 w =
              base w + (if w = wid then 1 else 0) +
              (pass2Slots counts remaining rest).1.count w + ctxF.count w :=
            ih1 w
          have h2 : (wid :: (pass2Slots counts remaining rest).1).count w =
              (pass2Slots counts remaining rest).1.count w +
                (if w = wid then 1 else 0) :=
            count_cons_eq w wid _
          show (pass2Slots counts remaining rest).2.1 w =
            base w + (wid :: (pass2Slots counts remaining rest).1).count w +
              ctxF.count w
          omega
        · intro w hpos
          have hres : 0 < base w + (if w = wid then 1 else 0) +
              rest.count w + ctxF.count w →
              0 < base w + (if w = wid then 1 else 0) +
                (pass2Slots counts remaining rest).1.count w + ctxF.count w :=
            ih5 w
          rw [count_cons_eq] at hpos
          have hcon := hres (by omega)
          have h2 : (wid :: (pass2Slots counts remaining rest).1).count w =
              (pass2Slots counts remaining rest).1.count w +
                (if w = wid then 1 else 0) :=
            count_cons_eq w wid _
          omega
        · intro x hx
          rcases List.mem_cons.mp hx with rfl | hx₀
          · exact Or.inl (List.mem_cons_self _ _)
          · rcases ih6 x hx₀ with h | h
            · exact Or.inl (List.mem_cons_of_mem _ h)
            · exact Or.inr h
        · intro o' ho'
          rcases ih7 o' ho' with h | h
          · exact Or.inl h
          · exact Or.inr (List.mem_cons_of_mem _ h)
        · intro hpot
          apply ih8
          have hnd_eq : numDistinct ((wid :: rest) ++ ctxF) =
              numDistinct (rest ++ ctxF) + 1 := by
            rw [List.cons_append]
            exact numDistinct_cons_of_not_mem hwidnotfut
          simp only [List.length_append, List.length_cons] at hpot ⊢
          omega

/-! ## `update_text` lemmas (`language.py` lines 319–333) -/

/-- The replacement `Text` built at lines 325–331: every field of the old
text unchanged except `word_ids`. -/
def updText (old : Text) (newIds : List String) : Text :=
  { id := old.id, display_name := old.display_name, word_ids := newIds,
    category := old.category, unlock_threshold := old.unlock_threshold }

theorem updText_self (old : Text) : updText old old.word_ids = old := rfl

theorem list_set_self {α : Type} : ∀ (l : List α) (n : Nat) (a : α),
    l.get? n = some a → l.set n a = l
  | [], n, a, h => by simp at h
  | x :: rest, 0, a, h => by
    simp only [List.get?_cons_zero, Option.some.injEq] at h
    rw [← h]
    rfl
  | x :: rest, n + 1, a, h => by
    simp only [List.get?_cons_succ] at h
    simp only [List.set]
    rw [list_set_self rest n a h]

theorem update_text_frame (m : LanguageModel) (idx : Nat) (old : Text)
    (newIds : List String) :
    (update_text m idx old newIds).words = m.words ∧
    (update_text m idx old newIds).roots = m.roots ∧
    (update_text m idx old newIds).word_list = m.word_list ∧
    (update_text m idx old newIds).root_list = m.root_list ∧
    (update_text m idx old newIds).seed = m.seed := by
  unfold update_text
  split
  · exact ⟨rfl, rfl, rfl, rfl, rfl⟩
  · exact ⟨rfl, rfl, rfl, rfl, rfl⟩

theorem update_text_text_list (m : LanguageModel) (idx : Nat) (old : Text)
    (newIds : List String) (h : m.text_list.get? idx = some old) :
    (update_text m idx old newIds).text_list =
      m.text_list.set idx (updText old newIds) := by
  unfold update_text
  split
  · rename_i heq
    subst heq
    rw [updText_self]
    exact (list_set_self _ _ _ h).symm
  · rfl

/-- The dict/list agreement invariant of the model's text collection: the
`texts` map holds exactly the `text_list` entries keyed by id. -/
def TextsSync (m : LanguageModel) : Prop :=
  m.texts = m.text_list.map (fun t => (t.id, t))

theorem update_text_sync (m : LanguageModel) (idx : Nat) (old : Text)
    (newIds : List String) (hsync : TextsSync m)
    (hnd : (m.text_list.map Text.id).Nodup)
    (h : m.text_list.get? idx = some old) :
    TextsSync (update_text m idx old newIds) := by
  unfold update_text
  split
  · exact hsync
  · show dictSet m.texts old.id (updText old newIds) =
      (m.text_list.set idx (updText old newIds)).map (fun t => (t.id, t))
    rw [hsync]
    exact dictSet_map_set Text.id m.text_list hnd idx old
      (updText old newIds) h rfl

theorem update_text_ids (m : LanguageModel) (idx : Nat) (old : Text)
    (newIds : List String) (h : m.text_list.get? idx = some old) :
    (update_text m idx old newIds).text_list.map Text.id =
      m.text_list.map Text.id := by
  rw [update_text_text_list m idx old newIds h, List.map_set]
  refine list_set_self _ _ _ ?_
  rw [List.get?_map, h]
  rfl

/-! ## Flattened slot lists -/

/-- The concatenation of all texts' slot lists, in text order. -/
def flatSlots (ts : List Text) : List String :=
  ts.flatMap (fun t => t.word_ids)

theorem flatSlots_cons (t : Text) (ts : List Text) :
    flatSlots (t :: ts) = t.word_ids ++ flatSlots ts := by
  simp [flatSlots]

theorem drop_set_of_lt {α : Type} (l : List α) (m n : Nat) (a : α)
    (h : m < n) : (l.set m a).drop n = l.drop n := by
  apply List.ext_get?
  intro i
  rw [List.get?_drop, List.get?_drop]
  exact List.get?_set_ne a l (by omega)

theorem take_set_of_le {α : Type} (l : List α) (m n : Nat) (a : α)
    (h : n ≤ m) : (l.set m a).take n = l.take n := by
  apply List.ext_get?
  intro i
  by_cases hi : i < n
  · rw [List.get?_take hi, List.get?_take hi]
    exact List.get?_set_ne a l (by omega)
  · have h1 : ((l.set m a).take n).get? i = none := by
      apply List.get?_eq_none.mpr
      simp only [List.length_take, List.length_set]
      omega
    have h2 : (l.take n).get? i = none := by
      apply List.get?_eq_none.mpr
      simp only [List.length_take]
      omega
    rw [h1, h2]

theorem flatSlots_drop_eq {ts : List Text} {ti : Nat} {t : Text}
    (h : ts.get? ti = some t) :
    flatSlots (ts.drop ti) = t.word_ids ++ flatSlots (ts.drop (ti + 1)) := by
  have hlt : ti < ts.length := (List.get?_eq_some.mp h).1
  have h' : ts[ti]? = some t := by
    rw [← List.get?_eq_getElem?]
    exact h
  have h'' : ts[ti]? = some ts[ti] := List.getElem?_eq_getElem hlt
  have hget : ts[ti] = t := by
    rw [h''] at h'
    exact Option.some.inj h'
  rw [List.drop_eq_getElem_cons hlt, hget, flatSlots_cons]

theorem flatSlots_length_ge (lo : Nat) : ∀ (ts : List Text),
    (∀ t ∈ ts, lo ≤ t.word_ids.length) →
    ts.length * lo ≤ (flatSlots ts).length
  | [], _ => by simp [flatSlots]
  | t :: ts, h => by
    rw [flatSlots_cons, List.length_append, List.length_cons, Nat.succ_mul]
    have h1 := h t (List.mem_cons_self _ _)
    have h2 := flatSlots_length_ge lo ts
      (fun t' ht' => h t' (List.mem_cons_of_mem _ ht'))
    omega

/-- When every text lists each word at most once, the text-reference count of
pass 2 agrees with the occurrence count in the flattened slot list. -/
theorem textRefCounts_eq_count : ∀ (texts : List Text) (w : String),
    (∀ t ∈ texts, t.word_ids.Nodup) →
    textRefCounts texts w = (flatSlots texts).count w
  | [], w, _ => rfl
  | t :: ts, w, hnd => by
    have hrec : (ts.filter (fun t' => t'.word_ids.contains w)).length =
        (flatSlots ts).count w :=
      textRefCounts_eq_count ts w
        (fun t' ht' => hnd t' (List.mem_cons_of_mem _ ht'))
    show ((t :: ts).filter (fun t' => t'.word_ids.contains w)).length = _
    rw [flatSlots_cons, List.count_append, List.filter_cons]
    by_cases hc : t.word_ids.contains w = true
    · rw [if_pos hc]
      have hone : t.word_ids.count w = 1 :=
        List.count_eq_one_of_mem (hnd t (List.mem_cons_self _ _))
          (List.elem_iff.mp hc)
      rw [List.length_cons, hrec, hone]
      omega
    · rw [if_neg hc]
      have hz : t.word_ids.count w = 0 := by
        rw [List.count_eq_zero]
        intro hmem
        exact hc (List.elem_iff.mpr hmem)
      rw [hrec, hz]
      omega

/-- A step of the repair potential: when a slot list changes only by drawing
fresh values from the popped part of a duplicate-free orphan queue, the sum
of queue length and distinct slot count does not grow. -/
theorem numDistinct_sub_step {flatOld flatNew rem rem' : List String}
    (hrn : rem.Nodup) (hsub : rem'.Sublist rem)
    (hval : ∀ x ∈ flatNew, x ∈ flatOld ∨ (x ∈ rem ∧ x ∉ rem')) :
    rem'.length + numDistinct flatNew ≤ rem.length + numDistinct flatOld := by
  have hnd' : rem'.Nodup := hrn.sublist hsub
  have hsubf : rem'.toFinset ⊆ rem.toFinset := by
    intro x hx
    exact List.mem_toFinset.mpr (hsub.subset (List.mem_toFinset.mp hx))
  have hcard : rem.toFinset.card = rem.length := List.toFinset_card_of_nodup hrn
  have hcard' : rem'.toFinset.card = rem'.length :=
    List.toFinset_card_of_nodup hnd'
  have hsdiff : (rem.toFinset \ rem'.toFinset).card + rem'.toFinset.card =
      rem.toFinset.card := Finset.card_sdiff_add_card_eq_card hsubf
  have hsubN : flatNew.toFinset ⊆
      flatOld.toFinset ∪ (rem.toFinset \ rem'.toFinset) := by
    intro x hx
    rcases hval x (List.mem_toFinset.mp hx) with h | ⟨h1, h2⟩
    · exact Finset.mem_union_left _ (List.mem_toFinset.mpr h)
    · refine Finset.mem_union_right _ ?_
      rw [Finset.mem_sdiff]
      exact ⟨List.mem_toFinset.mpr h1, fun hc => h2 (List.mem_toFinset.mp hc)⟩
  have hN : flatNew.toFinset.card ≤
      flatOld.toFinset.card + (rem.toFinset \ rem'.toFinset).card := by
    calc flatNew.toFinset.card ≤
        (flatOld.toFinset ∪ (rem.toFinset \ rem'.toFinset)).card :=
          Finset.card_le_card hsubN
      _ ≤ flatOld.toFinset.card + (rem.toFinset \ rem'.toFinset).card :=
          Finset.card_union_le _ _
  show rem'.length + flatNew.toFinset.card ≤
    rem.length + flatOld.toFinset.card
  omega

/-- Freshness bookkeeping of the pass-1 substitution loop: orphans left in
the queue never sit in the produced ids, and every produced id either was
there or is a popped (no longer queued) orphan. -/
theorem fillSlots_extra : ∀ (slots : List Nat) (ids rem : List String),
    rem.Nodup → (∀ o ∈ rem, o ∉ ids) →
    (∀ o ∈ (fillSlots ids slots rem).2, o ∉ (fillSlots ids slots rem).1) ∧
    (∀ x ∈ (fillSlots ids slots rem).1,
      x ∈ ids ∨ (x ∈ rem ∧ x ∉ (fillSlots ids slots rem).2))
  | [], ids, rem, hrn, hfresh =>
    ⟨fun o ho => hfresh o ho, fun x hx => Or.inl hx⟩
  | si :: rest, ids, rem, hrn, hfresh => by
    cases hpop : popLast rem with
    | none =>
      have hrem : rem = [] := popLast_eq_none hpop
      subst hrem
      exact ⟨fun o ho => absurd ho (List.not_mem_nil o),
        fun x hx => Or.inl hx⟩
    | some pr =>
      obtain ⟨o, rem₀⟩ := pr
      simp only [fillSlots, hpop]
      have hsub₀ : rem₀.Sublist rem := popLast_sublist hpop
      have homem : o ∈ rem := popLast_mem hpop
      have honode : o ∉ rem₀ := popLast_not_mem hrn hpop
      have hnd₀ : rem₀.Nodup := hrn.sublist hsub₀
      have hfresh' : ∀ o' ∈ rem₀, o' ∉ ids.set si o := by
        intro o' ho' hmem
        rcases List.mem_or_eq_of_mem_set hmem with h | rfl
        · exact hfresh o' (hsub₀.subset ho') h
        · exact honode ho'
      obtain ⟨ih1, ih2⟩ := fillSlots_extra rest (ids.set si o) rem₀ hnd₀ hfresh'
      refine ⟨ih1, ?_⟩
      intro x hx
      rcases ih2 x hx with h | ⟨h1, h2⟩
      · rcases List.mem_or_eq_of_mem_set h with h' | hxo
        · exact Or.inl h'
        · refine Or.inr ⟨by rw [hxo]; exact homem, ?_⟩
          intro hmem
          rw [hxo] at hmem
          have hsubr : (fillSlots (ids.set si o) rest rem₀).2.Sublist rem₀ :=
            (fillSlots_spec rest (ids.set si o) rem₀).2.1
          exact honode (hsubr.subset hmem)
      · exact Or.inr ⟨hsub₀.subset h1, h2⟩

theorem get?_set_self {α : Type} (l : List α) (n : Nat) (a : α)
    (h : n < l.length) : (l.set n a).get? n = some a := by
  rw [List.get?_eq_getElem?, List.getElem?_set]
  simp [h]

theorem flatSlots_append (a b : List Text) :
    flatSlots (a ++ b) = flatSlots a ++ flatSlots b := by
  simp [flatSlots]

theorem flatSlots_split (n : Nat) (l : List Text) :
    flatSlots l = flatSlots (l.take n) ++ flatSlots (l.drop n) := by
  conv_lhs => rw [← List.take_append_drop n l]
  exact flatSlots_append _ _

/-- Decomposition of the flattened slots around a replaced text. -/
theorem flatSlots_set_eq {ts : List Text} {ti : Nat} {t : Text} (a : Text)
    (h : ts.get? ti = some t) :
    flatSlots (ts.set ti a) = flatSlots (ts.take ti) ++ a.word_ids ++
      flatSlots (ts.drop (ti + 1)) ∧
    flatSlots ts = flatSlots (ts.take ti) ++ t.word_ids ++
      flatSlots (ts.drop (ti + 1)) := by
  have hlt : ti < ts.length := (List.get?_eq_some.mp h).1
  constructor
  · have hget' : (ts.set ti a).get? ti = some a := get?_set_self ts ti a hlt
    rw [flatSlots_split ti (ts.set ti a), take_set_of_le ts ti ti a (le_refl ti),
      flatSlots_drop_eq hget', drop_set_of_lt ts ti (ti + 1) a (by omega)]
    rw [List.append_assoc]
  · rw [flatSlots_split ti ts, flatSlots_drop_eq h, List.append_assoc]

/-! ## Pass-1 lemmas (`language.py` lines 275–292) -/

/-- Structural facts of pass 1, holding unconditionally: the non-text parts
of the model are untouched, texts keep their position, identity and metadata
(everything but the slot values), and texts before the start index are
untouched. -/
theorem pass1From_structural : ∀ (fuel : Nat) (m : LanguageModel)
    (remaining : List String) (ti : Nat),
    ((pass1From m remaining ti fuel).1.words = m.words ∧
      (pass1From m remaining ti fuel).1.roots = m.roots ∧
      (pass1From m remaining ti fuel).1.word_list = m.word_list ∧
      (pass1From m remaining ti fuel).1.root_list = m.root_list ∧
      (pass1From m remaining ti fuel).1.seed = m.seed) ∧
    (pass1From m remaining ti fuel).1.text_list.length = m.text_list.length ∧
    (∀ j, j < ti → (pass1From m remaining ti fuel).1.text_list.get? j =
      m.text_list.get? j) ∧
    (∀ j t, m.text_list.get? j = some t →
      ∃ t', (pass1From m remaining ti fuel).1.text_list.get? j = some t' ∧
        t'.id = t.id ∧ t'.display_name = t.display_name ∧
        t'.category = t.category ∧
        t'.unlock_threshold = t.unlock_threshold ∧
        t'.word_ids.length = t.word_ids.length)
  | 0, m, remaining, ti =>
    ⟨⟨rfl, rfl, rfl, rfl, rfl⟩, rfl, fun j _ => rfl,
      fun j t ht => ⟨t, ht, rfl, rfl, rfl, rfl, rfl⟩⟩
  | fuel + 1, m, remaining, ti => by
    by_cases hempty : remaining.isEmpty = true
    · have heq : pass1From m remaining ti (fuel + 1) = (m, remaining) := by
        simp only [pass1From, if_pos hempty]
      rw [heq]
      exact ⟨⟨rfl, rfl, rfl, rfl, rfl⟩, rfl, fun j _ => rfl,
        fun j t ht => ⟨t, ht, rfl, rfl, rfl, rfl, rfl⟩⟩
    · simp only [pass1From, if_neg hempty]
      cases hget : m.text_list.get? ti with
      | none =>
        exact ⟨⟨rfl, rfl, rfl, rfl, rfl⟩, rfl, fun j _ => rfl,
          fun j t ht => ⟨t, ht, rfl, rfl, rfl, rfl, rfl⟩⟩
      | some t =>
        have hlt : ti < m.text_list.length := (List.get?_eq_some.mp hget).1
        have hm₁ := update_text_text_list m ti t
          (fillSlots t.word_ids (dupIndices t.word_ids) remaining).1 hget
        have hfr := update_text_frame m ti t
          (fillSlots t.word_ids (dupIndices t.word_ids) remaining).1
        obtain ⟨ih1, ih2, ih3, ih4⟩ := pass1From_structural fuel
          (update_text m ti t
            (fillSlots t.word_ids (dupIndices t.word_ids) remaining).1)
          (fillSlots t.word_ids (dupIndices t.word_ids) remaining).2 (ti + 1)
        refine ⟨?_, ?_, ?_, ?_⟩
        · obtain ⟨f1, f2, f3, f4, f5⟩ := hfr
          exact ⟨ih1.1.trans f1, ih1.2.1.trans f2, ih1.2.2.1.trans f3,
            ih1.2.2.2.1.trans f4, ih1.2.2.2.2.trans f5⟩
        · rw [ih2, hm₁, List.length_set]
        · intro j hj
          rw [ih3 j (by omega), hm₁]
          exact List.get?_set_ne _ _ (by omega)
        · intro j t₀ ht₀
          by_cases hij : j = ti
          · subst hij
            have ht' : t₀ = t := Option.some.inj (ht₀.symm.trans hget)
            have hm₁get : (update_text m j t
                (fillSlots t.word_ids (dupIndices t.word_ids) remaining).1).text_list.get? j =
                some (updText t
                  (fillSlots t.word_ids (dupIndices t.word_ids) remaining).1) := by
              rw [hm₁]
              exact get?_set_self _ _ _ (by omega)
            obtain ⟨t', hget', hid, hdn, hcat, hunlock, hlen⟩ :=
              ih4 j _ hm₁get
            rw [ht']
            exact ⟨t', hget', hid, hdn, hcat, hunlock, hlen.trans
              (fillSlots_spec (dupIndices t.word_ids) t.word_ids remaining).1⟩
          · refine ih4 j t₀ ?_
            rw [hm₁, List.get?_set_ne _ _ (fun hc => hij hc.symm)]
            exact ht₀

/-- Pass 1 preserves the dict/list agreement of the text collection. -/
theorem pass1From_sync : ∀ (fuel : Nat) (m : LanguageModel)
    (remaining : List String) (ti : Nat), TextsSync m →
    (m.text_list.map Text.id).Nodup →
    TextsSync (pass1From m remaining ti fuel).1
  | 0, m, remaining, ti, hsync, _ => hsync
  | fuel + 1, m, remaining, ti, hsync, hnd => by
    by_cases hempty : remaining.isEmpty = true
    · simp only [pass1From, if_pos hempty]
      exact hsync
    · simp only [pass1From, if_neg hempty]
      cases hget : m.text_list.get? ti with
      | none => exact hsync
      | some t =>
        refine pass1From_sync fuel _ _ (ti + 1) ?_ ?_
        · exact update_text_sync m ti t _ hsync hnd hget
        · rw [update_text_ids m ti t _ hget]
          exact hnd

/-- Pass 1, full specification: the orphan queue only shrinks (as a
sublist); per text, every previously present word survives (its first
occurrence is never a replaceable slot) and new values come only from the
queue; every orphan is either still queued or placed; queued orphans stay
uncovered; the flattened slot count is unchanged while the repair potential
does not grow; and — while orphans remain — every visited text is left
duplicate-free. -/
theorem pass1From_spec : ∀ (fuel : Nat) (m : LanguageModel)
    (remaining : List String) (ti : Nat),
    remaining.Nodup →
    (∀ o ∈ remaining, ∀ t ∈ m.text_list, o ∉ t.word_ids) →
    ((pass1From m remaining ti fuel).2.Sublist remaining) ∧
    (∀ j t t', m.text_list.get? j = some t →
      (pass1From m remaining ti fuel).1.text_list.get? j = some t' →
      (∀ w ∈ t.word_ids, w ∈ t'.word_ids) ∧
      (∀ x ∈ t'.word_ids, x ∈ t.word_ids ∨ x ∈ remaining)) ∧
    (∀ o ∈ remaining, o ∈ (pass1From m remaining ti fuel).2 ∨
      ∃ t' ∈ (pass1From m remaining ti fuel).1.text_list, o ∈ t'.word_ids) ∧
    (∀ o ∈ (pass1From m remaining ti fuel).2,
      ∀ t ∈ (pass1From m remaining ti fuel).1.text_list, o ∉ t.word_ids) ∧
    ((flatSlots (pass1From m remaining ti fuel).1.text_list).length =
      (flatSlots m.text_list).length) ∧
    ((pass1From m remaining ti fuel).2.length +
        numDistinct (flatSlots (pass1From m remaining ti fuel).1.text_list) ≤
      remaining.length + numDistinct (flatSlots m.text_list)) ∧
    ((pass1From m remaining ti fuel).2 ≠ [] →
      m.text_list.length ≤ ti + fuel →
      ∀ j t', ti ≤ j →
        (pass1From m remaining ti fuel).1.text_list.get? j = some t' →
        t'.word_ids.Nodup)
  | 0, m, remaining, ti, hrn, hfresh => by
    refine ⟨List.Sublist.refl _, ?_, fun o ho => Or.inl ho,
      fun o ho t ht => hfresh o ho t ht, rfl, Nat.le_refl _, ?_⟩
    · intro j t t' ht ht'
      have he : t = t' := Option.some.inj (ht.symm.trans ht')
      subst he
      exact ⟨fun w hw => hw, fun x hx => Or.inl hx⟩
    · intro hne hlen j t' hj hget'
      have hget'' : m.text_list.get? j = some t' := hget'
      exact absurd (List.get?_eq_some.mp hget'').1 (by omega)
  | fuel + 1, m, remaining, ti, hrn, hfresh => by
    by_cases hempty : remaining.isEmpty = true
    · have heq : pass1From m remaining ti (fuel + 1) = (m, remaining) := by
        simp only [pass1From, if_pos hempty]
      rw [heq]
      refine ⟨List.Sublist.refl _, ?_, fun o ho => Or.inl ho,
        fun o ho t ht => hfresh o ho t ht, rfl, Nat.le_refl _, ?_⟩
      · intro j t t' ht ht'
        have he : t = t' := Option.some.inj (ht.symm.trans ht')
        subst he
        exact ⟨fun w hw => hw, fun x hx => Or.inl hx⟩
      · intro hne _ j t' hj hget'
        exact absurd (List.isEmpty_iff.mp hempty) hne
    · simp only [pass1From, if_neg hempty]
      cases hget : m.text_list.get? ti with
      | none =>
        refine ⟨List.Sublist.refl _, ?_, fun o ho => Or.inl ho,
          fun o ho t ht => hfresh o ho t ht, rfl, Nat.le_refl _, ?_⟩
        · intro j t t' ht ht'
          have he : t = t' := Option.some.inj (ht.symm.trans ht')
          subst he
          exact ⟨fun w hw => hw, fun x hx => Or.inl hx⟩
        · intro hne hlen j t' hj hget'
          have hget'' : m.text_list.get? j = some t' := hget'
          have h1 := (List.get?_eq_some.mp hget'').1
          have h2 := List.get?_eq_none.mp hget
          omega
      | some t =>
        obtain ⟨hflen, hfsub, hfoff, hfval, hfacct⟩ :=
          fillSlots_spec (dupIndices t.word_ids) t.word_ids remaining
        have htmem : t ∈ m.text_list := List.get?_mem hget
        obtain ⟨hfx1, hfx2⟩ :=
          fillSlots_extra (dupIndices t.word_ids) t.word_ids remaining hrn
            (fun o ho => hfresh o ho t htmem)
        have hlt : ti < m.text_list.length := (List.get?_eq_some.mp hget).1
        have hm₁txt := update_text_text_list m ti t
          (fillSlots t.word_ids (dupIndices t.word_ids) remaining).1 hget
        have hrn₁ : (fillSlots t.word_ids (dupIndices t.word_ids)
            remaining).2.Nodup := hrn.sublist hfsub
        have hfresh₁ : ∀ o ∈ (fillSlots t.word_ids (dupIndices t.word_ids)
              remaining).2,
            ∀ t'' ∈ (update_text m ti t (fillSlots t.word_ids
              (dupIndices t.word_ids) remaining).1).text_list,
            o ∉ t''.word_ids := by
          intro o ho t'' ht''
          rw [hm₁txt] at ht''
          rcases List.mem_or_eq_of_mem_set ht'' with h | h
          · exact hfresh o (hfsub.subset ho) t'' h
          · rw [h]
            exact hfx1 o ho
        obtain ⟨ihA, ihB, ihC, ihD, ihE₁, ihE₂, ihF⟩ :=
          pass1From_spec fuel
            (update_text m ti t (fillSlots t.word_ids (dupIndices t.word_ids)
              remaining).1)
            (fillSlots t.word_ids (dupIndices t.word_ids) remaining).2
            (ti + 1) hrn₁ hfresh₁
        obtain ⟨ihS1, ihS2, ihS3, ihS4⟩ :=
          pass1From_structural fuel
            (update_text m ti t (fillSlots t.word_ids (dupIndices t.word_ids)
              remaining).1)
            (fillSlots t.word_ids (dupIndices t.word_ids) remaining).2 (ti + 1)
        have hm₁get : (update_text m ti t (fillSlots t.word_ids
            (dupIndices t.word_ids) remaining).1).text_list.get? ti =
            some (updText t (fillSlots t.word_ids (dupIndices t.word_ids)
              remaining).1) := by
          rw [hm₁txt]
          exact get?_set_self _ _ _ (by omega)
        refine ⟨ihA.trans hfsub, ?_, ?_, ?_, ?_, ?_, ?_⟩
        · intro j t₁ t' ht₁ ht'
          by_cases hij : j = ti
          · subst hij
            have ht₁t : t₁ = t := Option.some.inj (ht₁.symm.trans hget)
            obtain ⟨hBf, hBb⟩ := ihB j _ t' hm₁get ht'
            constructor
            · intro w hw
              rw [ht₁t] at hw
              obtain ⟨i, hi, hnotdup⟩ := first_occ_not_dup hw
              have hw' : (fillSlots t.word_ids (dupIndices t.word_ids)
                  remaining).1.get? i = some w := by
                rw [hfoff i hnotdup]
                exact hi
              exact hBf w (List.get?_mem hw')
            · intro x hx
              rcases hBb x hx with h | h
              · rcases hfval x h with h' | h'
                · rw [ht₁t]
                  exact Or.inl h'
                · exact Or.inr h'
              · exact Or.inr (hfsub.subset h)
          · have hm₁j : (update_text m ti t (fillSlots t.word_ids
                (dupIndices t.word_ids) remaining).1).text_list.get? j =
                some t₁ := by
              rw [hm₁txt, List.get?_set_ne _ _ (fun hc => hij hc.symm)]
              exact ht₁
            obtain ⟨hBf, hBb⟩ := ihB j t₁ t' hm₁j ht'
            exact ⟨hBf, fun x hx => (hBb x hx).imp id (fun h => hfsub.subset h)⟩
        · intro o ho
          rcases hfacct (fun p hp => dupIndices_lt hp) hrn
            (dupIndices_nodup _) o ho with h | h
          · rcases ihC o h with h' | h'
            · exact Or.inl h'
            · exact Or.inr h'
          · right
            obtain ⟨t', hget', -, -, -, -, -⟩ := ihS4 ti _ hm₁get
            obtain ⟨hBf, -⟩ := ihB ti _ t' hm₁get hget'
            exact ⟨t', List.get?_mem hget', hBf o h⟩
        · intro o ho t'' ht''
          exact ihD o ho t'' ht''
        · have hupd : (updText t (fillSlots t.word_ids (dupIndices t.word_ids)
              remaining).1).word_ids =
              (fillSlots t.word_ids (dupIndices t.word_ids) remaining).1 := rfl
          have hlen₁ : (flatSlots (update_text m ti t (fillSlots t.word_ids
              (dupIndices t.word_ids) remaining).1).text_list).length =
              (flatSlots m.text_list).length := by
            rw [hm₁txt, (flatSlots_set_eq _ hget).1]
            conv_rhs => rw [(flatSlots_set_eq (updText t (fillSlots t.word_ids
              (dupIndices t.word_ids) remaining).1) hget).2]
            simp only [List.length_append, hupd]
            rw [hflen]
          exact ihE₁.trans hlen₁
        · have hstep : (fillSlots t.word_ids (dupIndices t.word_ids)
              remaining).2.length +
              numDistinct (flatSlots (update_text m ti t (fillSlots t.word_ids
                (dupIndices t.word_ids) remaining).1).text_list) ≤
              remaining.length + numDistinct (flatSlots m.text_list) := by
            apply numDistinct_sub_step hrn hfsub
            intro x hx
            rw [hm₁txt, (flatSlots_set_eq _ hget).1] at hx
            rcases List.mem_append.mp hx with hx' | hx'
            · rcases List.mem_append.mp hx' with hx'' | hx''
              · left
                rw [(flatSlots_set_eq (updText t (fillSlots t.word_ids
                  (dupIndices t.word_ids) remaining).1) hget).2]
                exact List.mem_append.mpr
                  (Or.inl (List.mem_append.mpr (Or.inl hx'')))
              · rcases hfx2 x hx'' with h | ⟨h1, h2⟩
                · left
                  rw [(flatSlots_set_eq (updText t (fillSlots t.word_ids
                    (dupIndices t.word_ids) remaining).1) hget).2]
                  exact List.mem_append.mpr
                    (Or.inl (List.mem_append.mpr (Or.inr h)))
                · exact Or.inr ⟨h1, h2⟩
            · left
              rw [(flatSlots_set_eq (updText t (fillSlots t.word_ids
                (dupIndices t.word_ids) remaining).1) hget).2]
              exact List.mem_append.mpr (Or.inr hx')
          exact le_trans ihE₂ hstep
        · intro hne₂ hlen₂ j t' hj hget'
          have hr2ne : (fillSlots t.word_ids (dupIndices t.word_ids)
              remaining).2 ≠ [] := by
            intro hc
            have h0 : (fillSlots t.word_ids (dupIndices t.word_ids)
                remaining).2.Sublist [] := by
              rw [hc]
            exact hne₂ (List.sublist_nil.mp (ihA.trans h0))
          by_cases hij : j = ti
          · subst hij
            have hpres := ihS3 j (by omega)
            rw [hpres, hm₁get] at hget'
            have ht' : t' = updText t (fillSlots t.word_ids
                (dupIndices t.word_ids) remaining).1 :=
              (Option.some.inj hget').symm
            rw [ht']
            show (fillSlots t.word_ids (dupIndices t.word_ids)
              remaining).1.Nodup
            apply fillSlots_nodup (dupIndices t.word_ids) t.word_ids remaining
              ?_ (fun o ho => hfresh o ho t htmem) hrn
              (fun p hp => dupIndices_lt hp) hr2ne
            intro p q hp hq hpq hpd hqd heq'
            rcases Nat.lt_or_ge p q with h | h
            · exact hqd (dupIndices_of_lt_eq h hq heq')
            · have hqp : q < p := by omega
              exact hpd (dupIndices_of_lt_eq hqp hp heq'.symm)
          · refine ihF hne₂ ?_ j t' (by omega) hget'
            rw [hm₁txt, List.length_set]
            omega

/-! ## Pass-2 composition lemmas (`language.py` lines 294–314) -/

theorem pass2Slots_len : ∀ (ids : List String) (counts : String → Nat)
    (remaining : List String),
    (pass2Slots counts remaining ids).1.length = ids.length
  | [], _, _ => rfl
  | wid :: rest, counts, remaining => by
    cases hpop : popLast remaining with
    | none => simp only [pass2Slots, hpop]
    | some pr =>
      obtain ⟨o, rem₀⟩ := pr
      simp only [pass2Slots, hpop]
      by_cases hgt : 1 < counts wid
      · rw [if_pos hgt]
        have hrec := pass2Slots_len rest
          (Function.update (Function.update counts wid (counts wid - 1)) o
            ((Function.update counts wid (counts wid - 1)) o + 1)) rem₀
        simp only [List.length_cons, hrec]
      · rw [if_neg hgt]
        have hrec := pass2Slots_len rest counts remaining
        simp only [List.length_cons, hrec]

/-- Structural facts of pass 2, holding unconditionally. -/
theorem pass2From_structural : ∀ (fuel : Nat) (m : LanguageModel)
    (counts : String → Nat) (remaining : List String) (ti : Nat),
    ((pass2From m counts remaining ti fuel).1.words = m.words ∧
      (pass2From m counts remaining ti fuel).1.roots = m.roots ∧
      (pass2From m counts remaining ti fuel).1.word_list = m.word_list ∧
      (pass2From m counts remaining ti fuel).1.root_list = m.root_list ∧
      (pass2From m counts remaining ti fuel).1.seed = m.seed) ∧
    (pass2From m counts remaining ti fuel).1.text_list.length =
      m.text_list.length ∧
    (∀ j, j < ti → (pass2From m counts remaining ti fuel).1.text_list.get? j =
      m.text_list.get? j) ∧
    (∀ j t, m.text_list.get? j = some t →
      ∃ t', (pass2From m counts remaining ti fuel).1.text_list.get? j =
          some t' ∧
        t'.id = t.id ∧ t'.display_name = t.display_name ∧
        t'.category = t.category ∧
        t'.unlock_threshold = t.unlock_threshold ∧
        t'.word_ids.length = t.word_ids.length)
  | 0, m, counts, remaining, ti =>
    ⟨⟨rfl, rfl, rfl, rfl, rfl⟩, rfl, fun j _ => rfl,
      fun j t ht => ⟨t, ht, rfl, rfl, rfl, rfl, rfl⟩⟩
  | fuel + 1, m, counts, remaining, ti => by
    by_cases hempty : remaining.isEmpty = true
    · have heq : pass2From m counts remaining ti (fuel + 1) =
          (m, remaining) := by
        simp only [pass2From, if_pos hempty]
      rw [heq]
      exact ⟨⟨rfl, rfl, rfl, rfl, rfl⟩, rfl, fun j _ => rfl,
        fun j t ht => ⟨t, ht, rfl, rfl, rfl, rfl, rfl⟩⟩
    · simp only [pass2From, if_neg hempty]
      cases hget : m.text_list.get? ti with
      | none =>
        exact ⟨⟨rfl, rfl, rfl, rfl, rfl⟩, rfl, fun j _ => rfl,
          fun j t ht => ⟨t, ht, rfl, rfl, rfl, rfl, rfl⟩⟩
      | some t =>
        have hlt : ti < m.text_list.length := (List.get?_eq_some.mp hget).1
        have hm₁ := update_text_text_list m ti t
          (pass2Slots counts remaining t.word_ids).1 hget
        have hfr := update_text_frame m ti t
          (pass2Slots counts remaining t.word_ids).1
        obtain ⟨ih1, ih2, ih3, ih4⟩ := pass2From_structural fuel
          (update_text m ti t (pass2Slots counts remaining t.word_ids).1)
          (pass2Slots counts remaining t.word_ids).2.1
          (pass2Slots counts remaining t.word_ids).2.2 (ti + 1)
        refine ⟨?_, ?_, ?_, ?_⟩
        · obtain ⟨f1, f2, f3, f4, f5⟩ := hfr
          exact ⟨ih1.1.trans f1, ih1.2.1.trans f2, ih1.2.2.1.trans f3,
            ih1.2.2.2.1.trans f4, ih1.2.2.2.2.trans f5⟩
        · rw [ih2, hm₁, List.length_set]
        · intro j hj
          rw [ih3 j (by omega), hm₁]
          exact List.get?_set_ne _ _ (by omega)
        · intro j t₀ ht₀
          by_cases hij : j = ti
          · subst hij
            have ht' : t₀ = t := Option.some.inj (ht₀.symm.trans hget)
            have hm₁get : (update_text m j t
                (pass2Slots counts remaining t.word_ids).1).text_list.get? j =
                some (updText t
                  (pass2Slots counts remaining t.word_ids).1) := by
              rw [hm₁]
              exact get?_set_self _ _ _ (by omega)
            obtain ⟨t', hget', hid, hdn, hcat, hunlock, hlen⟩ :=
              ih4 j _ hm₁get
            rw [ht']
            exact ⟨t', hget', hid, hdn, hcat, hunlock, hlen.trans
              (pass2Slots_len t.word_ids counts remaining)⟩
          · refine ih4 j t₀ ?_
            rw [hm₁, List.get?_set_ne _ _ (fun hc => hij hc.symm)]
            exact ht₀

/-- Pass 2 preserves the dict/list agreement of the text collection. -/
theorem pass2From_sync : ∀ (fuel : Nat) (m : LanguageModel)
    (counts : String → Nat) (remaining : List String) (ti : Nat),
    TextsSync m → (m.text_list.map Text.id).Nodup →
    TextsSync (pass2From m counts remaining ti fuel).1
  | 0, m, counts, remaining, ti, hsync, _ => hsync
  | fuel + 1, m, counts, remaining, ti, hsync, hnd => by
    by_cases hempty : remaining.isEmpty = true
    · simp only [pass2From, if_pos hempty]
      exact hsync
    · simp only [pass2From, if_neg hempty]
      cases hget : m.text_list.get? ti with
      | none => exact hsync
      | some t =>
        refine pass2From_sync fuel _ _ _ (ti + 1) ?_ ?_
        · exact update_text_sync m ti t _ hsync hnd hget
        · rw [update_text_ids m ti t _ hget]
          exact hnd

/-- Pass 2, full specification, stated against a decomposition of the donor
counts: `base` counts the slots of the already-visited texts, the rest of
the multiset is the flattening of the texts from `ti` on.  The orphan queue
only shrinks; new slot values come from the old slots or the queue; slot
multiset positivity (hence text coverage) is monotone; every orphan is
queued or placed; and under the repair potential the queue empties. -/
theorem pass2From_spec : ∀ (fuel : Nat) (m : LanguageModel)
    (counts : String → Nat) (remaining : List String) (ti : Nat)
    (base : String → Nat),
    (∀ w, counts w = base w + (flatSlots (m.text_list.drop ti)).count w) →
    remaining.Nodup →
    (∀ o ∈ remaining, counts o = 0) →
    ((pass2From m counts remaining ti fuel).2.Sublist remaining) ∧
    (∀ j t t', m.text_list.get? j = some t →
      (pass2From m counts remaining ti fuel).1.text_list.get? j = some t' →
      ∀ x ∈ t'.word_ids, x ∈ t.word_ids ∨ x ∈ remaining) ∧
    (∀ w, 0 < base w + (flatSlots (m.text_list.drop ti)).count w →
      0 < base w + (flatSlots ((pass2From m counts remaining ti
        fuel).1.text_list.drop ti)).count w) ∧
    (∀ o ∈ remaining, o ∈ (pass2From m counts remaining ti fuel).2 ∨
      0 < (flatSlots ((pass2From m counts remaining ti
        fuel).1.text_list.drop ti)).count o) ∧
    (m.text_list.length ≤ ti + fuel →
      remaining.length + numDistinct (flatSlots (m.text_list.drop ti)) ≤
        (flatSlots (m.text_list.drop ti)).length →
      (pass2From m counts remaining ti fuel).2 = [])
  | 0, m, counts, remaining, ti, base, hc, hrn, hr0 => by
    refine ⟨List.Sublist.refl _, ?_, fun w h => h, fun o ho => Or.inl ho, ?_⟩
    · intro j t t' ht ht'
      have he : t = t' := Option.some.inj (ht.symm.trans ht')
      subst he
      exact fun x hx => Or.inl hx
    · intro hlen hpot
      have hdrop : m.text_list.drop ti = [] := List.drop_eq_nil_of_le hlen
      rw [hdrop] at hpot
      have hfe : flatSlots ([] : List Text) = [] := rfl
      rw [hfe] at hpot
      have hnd0 : numDistinct ([] : List String) = 0 := rfl
      rw [hnd0, List.length_nil] at hpot
      show remaining = []
      exact List.length_eq_zero.mp (by omega)
  | fuel + 1, m, counts, remaining, ti, base, hc, hrn, hr0 => by
    by_cases hempty : remaining.isEmpty = true
    · have heq : pass2From m counts remaining ti (fuel + 1) =
          (m, remaining) := by
        simp only [pass2From, if_pos hempty]
      rw [heq]
      refine ⟨List.Sublist.refl _, ?_, fun w h => h, fun o ho => Or.inl ho,
        fun _ _ => List.isEmpty_iff.mp hempty⟩
      intro j t t' ht ht'
      have he : t = t' := Option.some.inj (ht.symm.trans ht')
      subst he
      exact fun x hx => Or.inl hx
    · simp only [pass2From, if_neg hempty]
      cases hget : m.text_list.get? ti with
      | none =>
        refine ⟨List.Sublist.refl _, ?_, fun w h => h, fun o ho => Or.inl ho,
          ?_⟩
        · intro j t t' ht ht'
          have he : t = t' := Option.some.inj (ht.symm.trans ht')
          subst he
          exact fun x hx => Or.inl hx
        · intro hlen hpot
          have hdrop : m.text_list.drop ti = [] :=
            List.drop_eq_nil_of_le (List.get?_eq_none.mp hget)
          rw [hdrop] at hpot
          have hfe : flatSlots ([] : List Text) = [] := rfl
          rw [hfe] at hpot
          have hnd0 : numDistinct ([] : List String) = 0 := rfl
          rw [hnd0, List.length_nil] at hpot
          show remaining = []
          exact List.length_eq_zero.mp (by omega)
      | some t =>
        have hlt : ti < m.text_list.length := (List.get?_eq_some.mp hget).1
        have hdecomp : flatSlots (m.text_list.drop ti) =
            t.word_ids ++ flatSlots (m.text_list.drop (ti + 1)) :=
          flatSlots_drop_eq hget
        have hc' : ∀ w, counts w = base w + t.word_ids.count w +
            (flatSlots (m.text_list.drop (ti + 1))).count w := by
          intro w
          have h := hc w
          rw [hdecomp, List.count_append] at h
          omega
        obtain ⟨p1, p2, p3, p4, p5, p6, p7, p8⟩ :=
          pass2Slots_spec t.word_ids counts remaining base
            (flatSlots (m.text_list.drop (ti + 1))) hc' hrn hr0
        have hm₁txt := update_text_text_list m ti t
          (pass2Slots counts remaining t.word_ids).1 hget
        have hdropeq : (update_text m ti t (pass2Slots counts remaining
            t.word_ids).1).text_list.drop (ti + 1) =
            m.text_list.drop (ti + 1) := by
          rw [hm₁txt]
          exact drop_set_of_lt _ _ _ _ (by omega)
        have hc₁ : ∀ w, (pass2Slots counts remaining t.word_ids).2.1 w =
            (fun v => base v +
              (pass2Slots counts remaining t.word_ids).1.count v) w +
            (flatSlots ((update_text m ti t (pass2Slots counts remaining
              t.word_ids).1).text_list.drop (ti + 1))).count w := by
          intro w
          rw [hdropeq]
          exact p1 w
        have hrn₁ : (pass2Slots counts remaining t.word_ids).2.2.Nodup :=
          hrn.sublist p2
        obtain ⟨ihA, ihB, ihC, ihD, ihE⟩ :=
          pass2From_spec fuel
            (update_text m ti t (pass2Slots counts remaining t.word_ids).1)
            (pass2Slots counts remaining t.word_ids).2.1
            (pass2Slots counts remaining t.word_ids).2.2 (ti + 1)
            (fun v => base v +
              (pass2Slots counts remaining t.word_ids).1.count v)
            hc₁ hrn₁ p3
        obtain ⟨ihS1, ihS2, ihS3, ihS4⟩ :=
          pass2From_structural fuel
            (update_text m ti t (pass2Slots counts remaining t.word_ids).1)
            (pass2Slots counts remaining t.word_ids).2.1
            (pass2Slots counts remaining t.word_ids).2.2 (ti + 1)
        have hm₁get : (update_text m ti t (pass2Slots counts remaining
            t.word_ids).1).text_list.get? ti =
            some (updText t (pass2Slots counts remaining t.word_ids).1) := by
          rw [hm₁txt]
          exact get?_set_self _ _ _ (by omega)
        have hqget : (pass2From (update_text m ti t (pass2Slots counts
            remaining t.word_ids).1) (pass2Slots counts remaining
            t.word_ids).2.1 (pass2Slots counts remaining t.word_ids).2.2
            (ti + 1) fuel).1.text_list.get? ti =
            some (updText t (pass2Slots counts remaining t.word_ids).1) := by
          rw [ihS3 ti (by omega)]
          exact hm₁get
        have hqdecomp : flatSlots ((pass2From (update_text m ti t
            (pass2Slots counts remaining t.word_ids).1) (pass2Slots counts
            remaining t.word_ids).2.1 (pass2Slots counts remaining
            t.word_ids).2.2 (ti + 1) fuel).1.text_list.drop ti) =
            (pass2Slots counts remaining t.word_ids).1 ++
            flatSlots ((pass2From (update_text m ti t (pass2Slots counts
              remaining t.word_ids).1) (pass2Slots counts remaining
              t.word_ids).2.1 (pass2Slots counts remaining t.word_ids).2.2
              (ti + 1) fuel).1.text_list.drop (ti + 1)) :=
          flatSlots_drop_eq hqget
        refine ⟨ihA.trans p2, ?_, ?_, ?_, ?_⟩
        · intro j t₁ t' ht₁ ht'
          by_cases hij : j = ti
          · subst hij
            have ht₁t : t₁ = t := Option.some.inj (ht₁.symm.trans hget)
            have hvals := ihB j _ t' hm₁get ht'
            intro x hx
            rcases hvals x hx with h | h
            · rcases p6 x h with h' | h'
              · rw [ht₁t]
                exact Or.inl h'
              · exact Or.inr h'
            · exact Or.inr (p2.subset h)
          · have hm₁j : (update_text m ti t (pass2Slots counts remaining
                t.word_ids).1).text_list.get? j = some t₁ := by
              rw [hm₁txt, List.get?_set_ne _ _ (fun hc'' => hij hc''.symm)]
              exact ht₁
            intro x hx
            rcases ihB j t₁ t' hm₁j ht' x hx with h | h
            · exact Or.inl h
            · exact Or.inr (p2.subset h)
        · intro w hpos
          rw [hdecomp, List.count_append] at hpos
          have hstep : 0 < base w +
              (pass2Slots counts remaining t.word_ids).1.count w +
              (flatSlots (m.text_list.drop (ti + 1))).count w :=
            p5 w (by omega)
          have hrec : 0 < (fun v => base v +
              (pass2Slots counts remaining t.word_ids).1.count v) w +
              (flatSlots ((update_text m ti t (pass2Slots counts remaining
                t.word_ids).1).text_list.drop (ti + 1))).count w →
              0 < (fun v => base v +
                (pass2Slots counts remaining t.word_ids).1.count v) w +
              (flatSlots ((pass2From (update_text m ti t (pass2Slots counts
                remaining t.word_ids).1) (pass2Slots counts remaining
                t.word_ids).2.1 (pass2Slots counts remaining t.word_ids).2.2
                (ti + 1) fuel).1.text_list.drop (ti + 1))).count w := ihC w
          simp only at hrec
          rw [hdropeq] at hrec
          have hout := hrec (by omega)
          rw [hqdecomp, List.count_append]
          omega
        · intro o ho
          rcases p7 o ho with h | h
          · rcases ihD o h with h' | h'
            · exact Or.inl h'
            · right
              rw [hqdecomp, List.count_append]
              omega
          · right
            rw [hqdecomp, List.count_append]
            have hpos : 0 < (pass2Slots counts remaining t.word_ids).1.count o
              := List.count_pos_iff.mpr h
            omega
        · intro hlen hpot
          rw [hdecomp] at hpot
          apply ihE
          · rw [hm₁txt, List.length_set]
            omega
          · rw [hdropeq]
            have hp8 := p8 (by
              rw [List.length_append] at hpot
              exact hpot)
            exact hp8
/-! ## Coverage-repair composition -/

theorem coveredIds_mem {m : LanguageModel} {o : String} :
    o ∈ coveredIds m ↔ ∃ t ∈ m.text_list, o ∈ t.word_ids := by
  simp [coveredIds]

theorem orphanedIds_mem {m : LanguageModel} {allWords : List Word}
    {o : String} :
    o ∈ orphanedIds m allWords ↔
      ∃ w ∈ allWords, w.id = o ∧ o ∉ coveredIds m := by
  simp only [orphanedIds, List.mem_map, List.mem_filter, decide_eq_true_eq]
  constructor
  · rintro ⟨w, ⟨hw, hnc⟩, rfl⟩
    refine ⟨w, hw, rfl, ?_⟩
    intro hc
    exact hnc (List.elem_iff.mpr hc)
  · rintro ⟨w, hw, rfl, hnc⟩
    refine ⟨w, ⟨hw, ?_⟩, rfl⟩
    intro hc
    exact hnc (List.elem_iff.mp hc)

theorem orphanedIds_nodup {m : LanguageModel} {allWords : List Word}
    (hwnd : (allWords.map Word.id).Nodup) :
    (orphanedIds m allWords).Nodup :=
  hwnd.sublist (List.Sublist.map _ (List.filter_sublist _))

theorem textRefCounts_zero {texts : List Text} {w : String}
    (h : ∀ t ∈ texts, w ∉ t.word_ids) : textRefCounts texts w = 0 := by
  show (texts.filter (fun t => t.word_ids.contains w)).length = 0
  rw [List.length_eq_zero, List.filter_eq_nil_iff]
  intro t ht
  exact fun hc => h t ht (List.elem_iff.mp hc)

theorem texts_map_id_eq {ts₁ ts₂ : List Text} (hlen : ts₁.length = ts₂.length)
    (hmeta : ∀ j t, ts₂.get? j = some t →
      ∃ t', ts₁.get? j = some t' ∧ t'.id = t.id) :
    ts₁.map Text.id = ts₂.map Text.id := by
  apply List.ext_get?
  intro j
  rw [List.get?_map, List.get?_map]
  cases h2 : ts₂.get? j with
  | none =>
    have h1 : ts₁.get? j = none := by
      apply List.get?_eq_none.mpr
      have := List.get?_eq_none.mp h2
      omega
    rw [h1]
  | some t =>
    obtain ⟨t', h1, hid⟩ := hmeta j t h2
    rw [h1]
    simp [hid]

/-- The entry potential of the repair: distinct covered ids and orphaned ids
are disjoint subsets of the word id set, whose size the slot count
dominates. -/
theorem orphaned_potential {m : LanguageModel} {allWords : List Word}
    (hwnd : (allWords.map Word.id).Nodup)
    (hslots : ∀ t ∈ m.text_list, ∀ x ∈ t.word_ids, x ∈ allWords.map Word.id)
    (hcap : allWords.length ≤ (flatSlots m.text_list).length) :
    (orphanedIds m allWords).length + numDistinct (flatSlots m.text_list) ≤
      (flatSlots m.text_list).length := by
  have hond : (orphanedIds m allWords).Nodup := orphanedIds_nodup hwnd
  have hocard : (orphanedIds m allWords).toFinset.card =
      (orphanedIds m allWords).length := List.toFinset_card_of_nodup hond
  have hWcard : (allWords.map Word.id).toFinset.card = allWords.length := by
    rw [List.toFinset_card_of_nodup hwnd, List.length_map]
  have hcov_sub : (flatSlots m.text_list).toFinset ⊆
      (allWords.map Word.id).toFinset := by
    intro x hx
    rw [List.mem_toFinset] at hx ⊢
    obtain ⟨t, ht, hxt⟩ := List.mem_flatMap.mp hx
    exact hslots t ht x hxt
  have horp_sub : (orphanedIds m allWords).toFinset ⊆
      (allWords.map Word.id).toFinset \ (flatSlots m.text_list).toFinset := by
    intro x hx
    rw [List.mem_toFinset] at hx
    obtain ⟨w, hw, hid, hnc⟩ := orphanedIds_mem.mp hx
    rw [Finset.mem_sdiff]
    constructor
    · rw [List.mem_toFinset, ← hid]
      exact List.mem_map_of_mem _ hw
    · rw [List.mem_toFinset]
      exact hnc
  have h1 : (orphanedIds m allWords).toFinset.card ≤
      ((allWords.map Word.id).toFinset \
        (flatSlots m.text_list).toFinset).card :=
    Finset.card_le_card horp_sub
  have h2 : ((allWords.map Word.id).toFinset \
        (flatSlots m.text_list).toFinset).card +
      (flatSlots m.text_list).toFinset.card =
      (allWords.map Word.id).toFinset.card :=
    Finset.card_sdiff_add_card_eq_card hcov_sub
  have hlast : numDistinct (flatSlots m.text_list) =
      (flatSlots m.text_list).toFinset.card := rfl
  rw [hlast]
  omega

/-- Structural facts of the whole repair: the non-text parts of the model
and every text's position and metadata are untouched. -/
theorem coverageRepair_structural (G : RandGen σ) (m : LanguageModel)
    (allWords : List Word) (s : σ) :
    ((coverageRepair G m allWords s).1.words = m.words ∧
      (coverageRepair G m allWords s).1.roots = m.roots ∧
      (coverageRepair G m allWords s).1.word_list = m.word_list ∧
      (coverageRepair G m allWords s).1.root_list = m.root_list ∧
      (coverageRepair G m allWords s).1.seed = m.seed) ∧
    (coverageRepair G m allWords s).1.text_list.length =
      m.text_list.length ∧
    (∀ j t, m.text_list.get? j = some t →
      ∃ t', (coverageRepair G m allWords s).1.text_list.get? j = some t' ∧
        t'.id = t.id ∧ t'.display_name = t.display_name ∧
        t'.category = t.category ∧ t'.unlock_threshold = t.unlock_threshold ∧
        t'.word_ids.length = t.word_ids.length) := by
  unfold coverageRepair
  by_cases hor : (orphanedIds m allWords).isEmpty = true
  · rw [if_pos hor]
    exact ⟨⟨rfl, rfl, rfl, rfl, rfl⟩, rfl,
      fun j t ht => ⟨t, ht, rfl, rfl, rfl, rfl, rfl⟩⟩
  · rw [if_neg hor]
    obtain ⟨s1, s2, s3, s4⟩ := pass1From_structural m.text_list.length m
      (G.shuffle (orphanedIds m allWords) s).1 0
    by_cases hp2 : (pass1From m (G.shuffle (orphanedIds m allWords) s).1 0
        m.text_list.length).2.isEmpty = true
    · rw [if_pos hp2]
      exact ⟨s1, s2, s4⟩
    · rw [if_neg hp2]
      obtain ⟨q1, q2, q3, q4⟩ := pass2From_structural
        (pass1From m (G.shuffle (orphanedIds m allWords) s).1 0
          m.text_list.length).1.text_list.length
        (pass1From m (G.shuffle (orphanedIds m allWords) s).1 0
          m.text_list.length).1
        (textRefCounts (pass1From m (G.shuffle (orphanedIds m allWords) s).1
          0 m.text_list.length).1.text_list)
        (pass1From m (G.shuffle (orphanedIds m allWords) s).1 0
          m.text_list.length).2 0
      refine ⟨⟨q1.1.trans s1.1, q1.2.1.trans s1.2.1, q1.2.2.1.trans s1.2.2.1,
        q1.2.2.2.1.trans s1.2.2.2.1, q1.2.2.2.2.trans s1.2.2.2.2⟩,
        q2.trans s2, ?_⟩
      intro j t ht
      obtain ⟨t₁, h₁, hid₁, hdn₁, hcat₁, hu₁, hl₁⟩ := s4 j t ht
      obtain ⟨t', h', hid', hdn', hcat', hu', hl'⟩ := q4 j t₁ h₁
      exact ⟨t', h', hid'.trans hid₁, hdn'.trans hdn₁, hcat'.trans hcat₁,
        hu'.trans hu₁, hl'.trans hl₁⟩

/-- The repair preserves the dict/list agreement of the text collection. -/
theorem coverageRepair_sync (G : RandGen σ) (m : LanguageModel)
    (allWords : List Word) (s : σ) (hsync : TextsSync m)
    (hidnd : (m.text_list.map Text.id).Nodup) :
    TextsSync (coverageRepair G m allWords s).1 := by
  unfold coverageRepair
  by_cases hor : (orphanedIds m allWords).isEmpty = true
  · rw [if_pos hor]
    exact hsync
  · rw [if_neg hor]
    obtain ⟨s1, s2, s3, s4⟩ := pass1From_structural m.text_list.length m
      (G.shuffle (orphanedIds m allWords) s).1 0
    have hsync₁ : TextsSync (pass1From m
        (G.shuffle (orphanedIds m allWords) s).1 0 m.text_list.length).1 :=
      pass1From_sync m.text_list.length m
        (G.shuffle (orphanedIds m allWords) s).1 0 hsync hidnd
    have hidnd₁ : ((pass1From m (G.shuffle (orphanedIds m allWords) s).1 0
        m.text_list.length).1.text_list.map Text.id).Nodup := by
      rw [texts_map_id_eq s2 (fun j t ht => by
        obtain ⟨t', h', hid, -, -, -, -⟩ := s4 j t ht
        exact ⟨t', h', hid⟩)]
      exact hidnd
    by_cases hp2 : (pass1From m (G.shuffle (orphanedIds m allWords) s).1 0
        m.text_list.length).2.isEmpty = true
    · rw [if_pos hp2]
      exact hsync₁
    · rw [if_neg hp2]
      exact pass2From_sync _ _ _ _ 0 hsync₁ hidnd₁

/-- The repair never orphans a covered word: pass 1 keeps every word's
first occurrence within its text, and pass 2 only replaces a slot whose
word is still counted in more than one text. -/
theorem coverageRepair_mono (G : RandGen σ) (m : LanguageModel)
    (allWords : List Word) (s : σ)
    (hwnd : (allWords.map Word.id).Nodup) :
    ∀ wid, (∃ t ∈ m.text_list, wid ∈ t.word_ids) →
      ∃ t' ∈ (coverageRepair G m allWords s).1.text_list,
        wid ∈ t'.word_ids := by
  intro wid hwid
  obtain ⟨t, htm, hwt⟩ := hwid
  unfold coverageRepair
  by_cases hor : (orphanedIds m allWords).isEmpty = true
  · rw [if_pos hor]
    exact ⟨t, htm, hwt⟩
  · rw [if_neg hor]
    have honode : (orphanedIds m allWords).Nodup := orphanedIds_nodup hwnd
    have hperm := G.shuffle_perm (orphanedIds m allWords) s
    have hshnd : (G.shuffle (orphanedIds m allWords) s).1.Nodup := hperm.nodup_iff.mpr honode
    have hfresh : ∀ o ∈ (G.shuffle (orphanedIds m allWords) s).1, ∀ t₀ ∈ m.text_list, o ∉ t₀.word_ids := by
      intro o ho t₀ ht₀ hmem
      obtain ⟨w, hw, hid, hnc⟩ := orphanedIds_mem.mp (hperm.mem_iff.mp ho)
      exact hnc (coveredIds_mem.mpr ⟨t₀, ht₀, hmem⟩)
    obtain ⟨ihA, ihB, ihC, ihD, ihE₁, ihE₂, ihF⟩ :=
      pass1From_spec m.text_list.length m (G.shuffle (orphanedIds m allWords) s).1 0 hshnd hfresh
    obtain ⟨s1, s2, s3, s4⟩ :=
      pass1From_structural m.text_list.length m (G.shuffle (orphanedIds m allWords) s).1 0
    obtain ⟨j, hj⟩ := List.mem_iff_get?.mp htm
    obtain ⟨t₁, h₁, -, -, -, -, -⟩ := s4 j t hj
    obtain ⟨hBf, -⟩ := ihB j t t₁ hj h₁
    have hwt₁ : wid ∈ t₁.word_ids := hBf wid hwt
    by_cases hp2 : (pass1From m (G.shuffle (orphanedIds m allWords) s).1 0 m.text_list.length).2.isEmpty = true
    · rw [if_pos hp2]
      exact ⟨t₁, List.get?_mem h₁, hwt₁⟩
    · rw [if_neg hp2]
      have hp2ne : (pass1From m (G.shuffle (orphanedIds m allWords) s).1 0 m.text_list.length).2 ≠ [] := by
        intro hc
        apply hp2
        rw [hc]
        rfl
      have htnodup : ∀ t₀ ∈ (pass1From m (G.shuffle (orphanedIds m allWords) s).1 0 m.text_list.length).1.text_list, t₀.word_ids.Nodup := by
        intro t₀ ht₀
        obtain ⟨j₀, hj₀⟩ := List.mem_iff_get?.mp ht₀
        exact ihF hp2ne (by omega) j₀ t₀ (Nat.zero_le _) hj₀
      have hc₀ : ∀ w, (textRefCounts (pass1From m (G.shuffle (orphanedIds m allWords) s).1 0 m.text_list.length).1.text_list) w = (fun _ => (0 : Nat)) w +
          (flatSlots ((pass1From m (G.shuffle (orphanedIds m allWords) s).1 0 m.text_list.length).1.text_list.drop 0)).count w := by
        intro w
        rw [List.drop_zero, textRefCounts_eq_count _ w htnodup]
        exact (Nat.zero_add _).symm
      have hrn₂ : (pass1From m (G.shuffle (orphanedIds m allWords) s).1 0 m.text_list.length).2.Nodup := hshnd.sublist ihA
      have hr0₂ : ∀ o ∈ (pass1From m (G.shuffle (orphanedIds m allWords) s).1 0 m.text_list.length).2, (textRefCounts (pass1From m (G.shuffle (orphanedIds m allWords) s).1 0 m.text_list.length).1.text_list) o = 0 := by
        intro o ho
        exact textRefCounts_zero (fun t₀ ht₀ => ihD o ho t₀ ht₀)
      obtain ⟨qA, qB, qC, qD, qE⟩ :=
        pass2From_spec (pass1From m (G.shuffle (orphanedIds m allWords) s).1 0 m.text_list.length).1.text_list.length (pass1From m (G.shuffle (orphanedIds m allWords) s).1 0 m.text_list.length).1 (textRefCounts (pass1From m (G.shuffle (orphanedIds m allWords) s).1 0 m.text_list.length).1.text_list) (pass1From m (G.shuffle (orphanedIds m allWords) s).1 0 m.text_list.length).2 0
          (fun _ => (0 : Nat)) hc₀ hrn₂ hr0₂
      have hpos₁ : 0 < (fun _ => (0 : Nat)) wid +
          (flatSlots ((pass1From m (G.shuffle (orphanedIds m allWords) s).1 0 m.text_list.length).1.text_list.drop 0)).count wid := by
        have hm₁ : wid ∈ flatSlots ((pass1From m (G.shuffle (orphanedIds m allWords) s).1 0 m.text_list.length).1.text_list.drop 0) := by
          rw [List.drop_zero]
          exact List.mem_flatMap.mpr ⟨t₁, List.get?_mem h₁, hwt₁⟩
        have := List.count_pos_iff.mpr hm₁
        have hz : (fun _ => (0 : Nat)) wid = 0 := rfl
        omega
      have hq := qC wid hpos₁
      have hq' : 0 < (flatSlots ((pass2From (pass1From m (G.shuffle (orphanedIds m allWords) s).1 0 m.text_list.length).1 (textRefCounts (pass1From m (G.shuffle (orphanedIds m allWords) s).1 0 m.text_list.length).1.text_list) (pass1From m (G.shuffle (orphanedIds m allWords) s).1 0 m.text_list.length).2 0 (pass1From m (G.shuffle (orphanedIds m allWords) s).1 0 m.text_list.length).1.text_list.length).1.text_list.drop 0)).count wid := by
        have hz : (fun _ => (0 : Nat)) wid = 0 := rfl
        omega
      have hmem := List.count_pos_iff.mp hq'
      rw [List.drop_zero] at hmem
      obtain ⟨t', ht', hwt'⟩ := List.mem_flatMap.mp hmem
      exact ⟨t', ht', hwt'⟩

/-- Repair coverage: afterwards every word id appears in some text, and
every slot still holds a word id. -/
theorem coverageRepair_spec (G : RandGen σ) (m : LanguageModel)
    (allWords : List Word) (s : σ)
    (hwnd : (allWords.map Word.id).Nodup)
    (hslots : ∀ t ∈ m.text_list, ∀ x ∈ t.word_ids, x ∈ allWords.map Word.id)
    (hcap : allWords.length ≤ (flatSlots m.text_list).length) :
    (∀ w ∈ allWords, ∃ t ∈ (coverageRepair G m allWords s).1.text_list,
      w.id ∈ t.word_ids) ∧
    (∀ t' ∈ (coverageRepair G m allWords s).1.text_list, ∀ x ∈ t'.word_ids,
      x ∈ allWords.map Word.id) := by
  have honode : (orphanedIds m allWords).Nodup := orphanedIds_nodup hwnd
  have hperm := G.shuffle_perm (orphanedIds m allWords) s
  have hshnd : (G.shuffle (orphanedIds m allWords) s).1.Nodup := hperm.nodup_iff.mpr honode
  have hfresh : ∀ o ∈ (G.shuffle (orphanedIds m allWords) s).1, ∀ t₀ ∈ m.text_list, o ∉ t₀.word_ids := by
    intro o ho t₀ ht₀ hmem
    obtain ⟨w, hw, hid, hnc⟩ := orphanedIds_mem.mp (hperm.mem_iff.mp ho)
    exact hnc (coveredIds_mem.mpr ⟨t₀, ht₀, hmem⟩)
  obtain ⟨ihA, ihB, ihC, ihD, ihE₁, ihE₂, ihF⟩ :=
    pass1From_spec m.text_list.length m (G.shuffle (orphanedIds m allWords) s).1 0 hshnd hfresh
  obtain ⟨s1, s2, s3, s4⟩ :=
    pass1From_structural m.text_list.length m (G.shuffle (orphanedIds m allWords) s).1 0
  constructor
  · intro w hw
    by_cases hcov : w.id ∈ coveredIds m
    · exact coverageRepair_mono G m allWords s hwnd w.id
        (coveredIds_mem.mp hcov)
    · have horph : w.id ∈ orphanedIds m allWords :=
        orphanedIds_mem.mpr ⟨w, hw, rfl, hcov⟩
      have hsh : w.id ∈ (G.shuffle (orphanedIds m allWords) s).1 := hperm.mem_iff.mpr horph
      unfold coverageRepair
      by_cases hor : (orphanedIds m allWords).isEmpty = true
      · rw [List.isEmpty_iff.mp hor] at horph
        exact absurd horph (List.not_mem_nil _)
      · rw [if_neg hor]
        by_cases hp2 : (pass1From m (G.shuffle (orphanedIds m allWords) s).1 0 m.text_list.length).2.isEmpty = true
        · rw [if_pos hp2]
          rcases ihC w.id hsh with h | h
          · rw [List.isEmpty_iff.mp hp2] at h
            exact absurd h (List.not_mem_nil _)
          · exact h
        · rw [if_neg hp2]
          have hp2ne : (pass1From m (G.shuffle (orphanedIds m allWords) s).1 0 m.text_list.length).2 ≠ [] := by
            intro hc
            apply hp2
            rw [hc]
            rfl
          have htnodup : ∀ t₀ ∈ (pass1From m (G.shuffle (orphanedIds m allWords) s).1 0 m.text_list.length).1.text_list, t₀.word_ids.Nodup := by
            intro t₀ ht₀
            obtain ⟨j₀, hj₀⟩ := List.mem_iff_get?.mp ht₀
            exact ihF hp2ne (by omega) j₀ t₀ (Nat.zero_le _) hj₀
          have hc₀ : ∀ x, (textRefCounts (pass1From m (G.shuffle (orphanedIds m allWords) s).1 0 m.text_list.length).1.text_list) x = (fun _ => (0 : Nat)) x +
              (flatSlots ((pass1From m (G.shuffle (orphanedIds m allWords) s).1 0 m.text_list.length).1.text_list.drop 0)).count x := by
            intro x
            rw [List.drop_zero, textRefCounts_eq_count _ x htnodup]
            exact (Nat.zero_add _).symm
          have hrn₂ : (pass1From m (G.shuffle (orphanedIds m allWords) s).1 0 m.text_list.length).2.Nodup := hshnd.sublist ihA
          have hr0₂ : ∀ o ∈ (pass1From m (G.shuffle (orphanedIds m allWords) s).1 0 m.text_list.length).2, (textRefCounts (pass1From m (G.shuffle (orphanedIds m allWords) s).1 0 m.text_list.length).1.text_list) o = 0 := by
            intro o ho
            exact textRefCounts_zero (fun t₀ ht₀ => ihD o ho t₀ ht₀)
          obtain ⟨qA, qB, qC, qD, qE⟩ :=
            pass2From_spec (pass1From m (G.shuffle (orphanedIds m allWords) s).1 0 m.text_list.length).1.text_list.length (pass1From m (G.shuffle (orphanedIds m allWords) s).1 0 m.text_list.length).1 (textRefCounts (pass1From m (G.shuffle (orphanedIds m allWords) s).1 0 m.text_list.length).1.text_list) (pass1From m (G.shuffle (orphanedIds m allWords) s).1 0 m.text_list.length).2 0
              (fun _ => (0 : Nat)) hc₀ hrn₂ hr0₂
          have hq2nil : (pass2From (pass1From m (G.shuffle (orphanedIds m allWords) s).1 0 m.text_list.length).1 (textRefCounts (pass1From m (G.shuffle (orphanedIds m allWords) s).1 0 m.text_list.length).1.text_list) (pass1From m (G.shuffle (orphanedIds m allWords) s).1 0 m.text_list.length).2 0 (pass1From m (G.shuffle (orphanedIds m allWords) s).1 0 m.text_list.length).1.text_list.length).2 = [] := by
            apply qE (by omega)
            rw [List.drop_zero]
            have hlen1 : (flatSlots (pass1From m (G.shuffle (orphanedIds m allWords) s).1 0 m.text_list.length).1.text_list).length =
                (flatSlots m.text_list).length := ihE₁
            have hshlen : (G.shuffle (orphanedIds m allWords) s).1.length = (orphanedIds m allWords).length :=
              hperm.length_eq
            have hopot := orphaned_potential hwnd hslots hcap
            omega
          have hfinal : ∀ o, o ∈ (pass1From m (G.shuffle (orphanedIds m allWords) s).1 0 m.text_list.length).2 ∨
              (∃ tp ∈ (pass1From m (G.shuffle (orphanedIds m allWords) s).1 0 m.text_list.length).1.text_list, o ∈ tp.word_ids) →
              ∃ t' ∈ (pass2From (pass1From m (G.shuffle (orphanedIds m allWords) s).1 0 m.text_list.length).1 (textRefCounts (pass1From m (G.shuffle (orphanedIds m allWords) s).1 0 m.text_list.length).1.text_list) (pass1From m (G.shuffle (orphanedIds m allWords) s).1 0 m.text_list.length).2 0 (pass1From m (G.shuffle (orphanedIds m allWords) s).1 0 m.text_list.length).1.text_list.length).1.text_list, o ∈ t'.word_ids := by
            intro o ho
            have hcount : 0 < (fun _ => (0 : Nat)) o +
                (flatSlots ((pass2From (pass1From m (G.shuffle (orphanedIds m allWords) s).1 0 m.text_list.length).1 (textRefCounts (pass1From m (G.shuffle (orphanedIds m allWords) s).1 0 m.text_list.length).1.text_list) (pass1From m (G.shuffle (orphanedIds m allWords) s).1 0 m.text_list.length).2 0 (pass1From m (G.shuffle (orphanedIds m allWords) s).1 0 m.text_list.length).1.text_list.length).1.text_list.drop 0)).count o := by
              rcases ho with h | h
              · rcases qD o h with h' | h'
                · rw [hq2nil] at h'
                  exact absurd h' (List.not_mem_nil _)
                · have hz : (fun _ => (0 : Nat)) o = 0 := rfl
                  omega
              · obtain ⟨tp, htp, hotp⟩ := h
                have hm₁ : o ∈ flatSlots ((pass1From m (G.shuffle (orphanedIds m allWords) s).1 0 m.text_list.length).1.text_list.drop 0) := by
                  rw [List.drop_zero]
                  exact List.mem_flatMap.mpr ⟨tp, htp, hotp⟩
                have hpos := List.count_pos_iff.mpr hm₁
                have hz : (fun _ => (0 : Nat)) o = 0 := rfl
                exact qC o (by omega)
            have hq' : 0 < (flatSlots ((pass2From (pass1From m (G.shuffle (orphanedIds m allWords) s).1 0 m.text_list.length).1 (textRefCounts (pass1From m (G.shuffle (orphanedIds m allWords) s).1 0 m.text_list.length).1.text_list) (pass1From m (G.shuffle (orphanedIds m allWords) s).1 0 m.text_list.length).2 0 (pass1From m (G.shuffle (orphanedIds m allWords) s).1 0 m.text_list.length).1.text_list.length).1.text_list.drop 0)).count o := by
              have hz : (fun _ => (0 : Nat)) o = 0 := rfl
              omega
            have hmem := List.count_pos_iff.mp hq'
            rw [List.drop_zero] at hmem
            exact List.mem_flatMap.mp hmem
          rcases ihC w.id hsh with h | h
          · exact hfinal w.id (Or.inl h)
          · exact hfinal w.id (Or.inr h)
  · intro t' ht' x hx
    revert ht'
    unfold coverageRepair
    by_cases hor : (orphanedIds m allWords).isEmpty = true
    · rw [if_pos hor]
      intro ht'
      exact hslots t' ht' x hx
    · rw [if_neg hor]
      by_cases hp2 : (pass1From m (G.shuffle (orphanedIds m allWords) s).1 0 m.text_list.length).2.isEmpty = true
      · rw [if_pos hp2]
        intro ht'
        obtain ⟨j, hj⟩ := List.mem_iff_get?.mp ht'
        have hj' : (pass1From m (G.shuffle (orphanedIds m allWords) s).1 0 m.text_list.length).1.text_list.get? j = some t' := hj
        have hjlt : j < m.text_list.length := by
          have := (List.get?_eq_some.mp hj').1
          have hl := s2
          omega
        obtain ⟨t₀, ht₀⟩ : ∃ t₀, m.text_list.get? j = some t₀ :=
          ⟨m.text_list.get ⟨j, hjlt⟩, List.get?_eq_get hjlt⟩
        obtain ⟨-, hBb⟩ := ihB j t₀ t' ht₀ hj'

        rcases hBb x hx with h | h
        · exact hslots t₀ (List.get?_mem ht₀) x h
        · obtain ⟨w', hw', hid, -⟩ := orphanedIds_mem.mp (hperm.mem_iff.mp h)
          rw [← hid]
          exact List.mem_map_of_mem _ hw'
      · rw [if_neg hp2]
        intro ht'
        obtain ⟨j, hj⟩ := List.mem_iff_get?.mp ht'
        obtain ⟨q1, q2, q3, q4⟩ := pass2From_structural
          (pass1From m (G.shuffle (orphanedIds m allWords) s).1 0 m.text_list.length).1.text_list.length (pass1From m (G.shuffle (orphanedIds m allWords) s).1 0 m.text_list.length).1 (textRefCounts (pass1From m (G.shuffle (orphanedIds m allWords) s).1 0 m.text_list.length).1.text_list) (pass1From m (G.shuffle (orphanedIds m allWords) s).1 0 m.text_list.length).2 0
        have hj' : (pass2From (pass1From m (G.shuffle (orphanedIds m allWords) s).1 0 m.text_list.length).1 (textRefCounts (pass1From m (G.shuffle (orphanedIds m allWords) s).1 0 m.text_list.length).1.text_list) (pass1From m (G.shuffle (orphanedIds m allWords) s).1 0 m.text_list.length).2 0 (pass1From m (G.shuffle (orphanedIds m allWords) s).1 0 m.text_list.length).1.text_list.length).1.text_list.get? j = some t' := hj
        have hjlt : j < m.text_list.length := by
          have h1 := (List.get?_eq_some.mp hj').1
          have h2 := q2
          have h3 := s2
          omega
        obtain ⟨t₀, ht₀⟩ : ∃ t₀, m.text_list.get? j = some t₀ :=
          ⟨m.text_list.get ⟨j, hjlt⟩, List.get?_eq_get hjlt⟩
        obtain ⟨t₁, h₁, -, -, -, -, -⟩ := s4 j t₀ ht₀
        have hp2ne : (pass1From m (G.shuffle (orphanedIds m allWords) s).1 0 m.text_list.length).2 ≠ [] := by
          intro hc
          apply hp2
          rw [hc]
          rfl
        have htnodup : ∀ tz ∈ (pass1From m (G.shuffle (orphanedIds m allWords) s).1 0 m.text_list.length).1.text_list, tz.word_ids.Nodup := by
          intro tz htz
          obtain ⟨j₀, hj₀⟩ := List.mem_iff_get?.mp htz
          exact ihF hp2ne (by omega) j₀ tz (Nat.zero_le _) hj₀
        have hc₀ : ∀ y, (textRefCounts (pass1From m (G.shuffle (orphanedIds m allWords) s).1 0 m.text_list.length).1.text_list) y = (fun _ => (0 : Nat)) y +
            (flatSlots ((pass1From m (G.shuffle (orphanedIds m allWords) s).1 0 m.text_list.length).1.text_list.drop 0)).count y := by
          intro y
          rw [List.drop_zero, textRefCounts_eq_count _ y htnodup]
          exact (Nat.zero_add _).symm
        have hrn₂ : (pass1From m (G.shuffle (orphanedIds m allWords) s).1 0 m.text_list.length).2.Nodup := hshnd.sublist ihA
        have hr0₂ : ∀ o ∈ (pass1From m (G.shuffle (orphanedIds m allWords) s).1 0 m.text_list.length).2, (textRefCounts (pass1From m (G.shuffle (orphanedIds m allWords) s).1 0 m.text_list.length).1.text_list) o = 0 := by
          intro o ho
          exact textRefCounts_zero (fun tz htz => ihD o ho tz htz)
        obtain ⟨qA, qB, qC, qD, qE⟩ :=
          pass2From_spec (pass1From m (G.shuffle (orphanedIds m allWords) s).1 0 m.text_list.length).1.text_list.length (pass1From m (G.shuffle (orphanedIds m allWords) s).1 0 m.text_list.length).1 (textRefCounts (pass1From m (G.shuffle (orphanedIds m allWords) s).1 0 m.text_list.length).1.text_list) (pass1From m (G.shuffle (orphanedIds m allWords) s).1 0 m.text_list.length).2 0
            (fun _ => (0 : Nat)) hc₀ hrn₂ hr0₂
        obtain ⟨-, hBb⟩ := ihB j t₀ t₁ ht₀ h₁
        rcases qB j t₁ t' h₁ hj' x hx with h | h
        · rcases hBb x h with h' | h'
          · exact hslots t₀ (List.get?_mem ht₀) x h'
          · obtain ⟨w', hw', hid, -⟩ :=
              orphanedIds_mem.mp (hperm.mem_iff.mp h')
            rw [← hid]
            exact List.mem_map_of_mem _ hw'
        · have h' : x ∈ (G.shuffle (orphanedIds m allWords) s).1 := ihA.subset h
          obtain ⟨w', hw', hid, -⟩ :=
            orphanedIds_mem.mp (hperm.mem_iff.mp h')
          rw [← hid]
          exact List.mem_map_of_mem _ hw'

/-! ## Pipeline composition -/

theorem rootId_inj {i j : Nat} (hi : i < 100) (hj : j < 100)
    (h : rootId i = rootId j) : i = j :=
  pad2_inj hi hj (string_append_left_cancel h)

theorem textId_inj {i j : Nat} (hi : i < 100) (hj : j < 100)
    (h : textId i = textId j) : i = j :=
  pad2_inj hi hj (string_append_left_cancel h)

/-- Lists whose positions carry the ids of an injective enumeration have
pairwise-distinct ids. -/
theorem map_id_nodup_of_pointwise {α : Type} (f : α → String)
    (g : Nat → String)
    (hginj : ∀ i, i < 100 → ∀ j, j < 100 → g i = g j → i = j)
    (l : List α) (start : Nat) (hlen : start + l.length ≤ 100)
    (hp : ∀ k, k < l.length → ∃ w, l.get? k = some w ∧ f w = g (start + k)) :
    (l.map f).Nodup := by
  have hmap : l.map f = (List.range l.length).map (fun k => g (start + k)) := by
    apply List.ext_get?
    intro i
    rw [List.get?_map, List.get?_map]
    by_cases hi : i < l.length
    · obtain ⟨w, hw, hfw⟩ := hp i hi
      rw [hw, List.get?_range hi]
      simp [hfw]
    · rw [List.get?_eq_none.mpr (by omega), List.get?_eq_none.mpr
        (by simp only [List.length_range]; omega)]
      rfl
  rw [hmap]
  refine List.Nodup.map_on ?_ (List.nodup_range _)
  intro a ha b hb hab
  have ha' := List.mem_range.mp ha
  have hb' := List.mem_range.mp hb
  have := hginj (start + a) (by omega) (start + b) (by omega) hab
  omega

/-- Root assignment leaves the word id sequence unchanged. -/
theorem buildRoots_map_id (wpr : Nat) (names : List String) (dt : Nat)
    (n ri : Nat) (ws : List Word) :
    (buildRoots wpr names dt ri n ws).1.map Word.id = ws.map Word.id := by
  apply List.ext_get?
  intro i
  rw [List.get?_map, List.get?_map]
  have h := buildRoots_frame wpr names dt n ri ws i
  cases hw : ws.get? i with
  | none =>
    rw [hw] at h
    have hnone : (buildRoots wpr names dt ri n ws).1.get? i = none := by
      cases hx : (buildRoots wpr names dt ri n ws).1.get? i with
      | none => rfl
      | some w' =>
        rw [hx] at h
        simp at h
    rw [hnone]
  | some w =>
    rw [hw] at h
    cases hx : (buildRoots wpr names dt ri n ws).1.get? i with
    | none =>
      rw [hx] at h
      simp at h
    | some w' =>
      rw [hx] at h
      simp only [Option.map_some'] at h
      have hfr := Option.some.inj h
      have hid : w'.id = w.id := congrArg Prod.fst hfr
      simp [hid]

/-- The root at position `j` carries the sequential id `rootId (ri + j)`. -/
theorem buildRoots_root_ids (wpr : Nat) (names : List String) (dt : Nat) :
    ∀ (n ri : Nat) (ws : List Word) (j : Nat), j < n →
    ∃ r, (buildRoots wpr names dt ri n ws).2.get? j = some r ∧
      r.id = rootId (ri + j)
  | 0, ri, ws, j, hj => absurd hj (by omega)
  | n + 1, ri, ws, j, hj => by
    simp only [buildRoots]
    cases j with
    | zero =>
      exact ⟨_, rfl, by simp⟩
    | succ j' =>
      obtain ⟨r, hr, hid⟩ := buildRoots_root_ids wpr names dt n (ri + 1)
        (ws.drop wpr) j' (by omega)
      refine ⟨r, by simpa using hr, ?_⟩
      rw [hid]
      congr 1
      omega

/-- Whenever every meaning pool is large enough, the pipeline always
produces a model: no stage can fail. -/
theorem generate_total (cfg : Config) (G : RandGen σ) (init : Int → σ)
    (seed : Int) (hok : poolsOk cfg.categories [] = true)
    (hpos : 0 < (cfg.categories.map (fun c => c.count)).sum) :
    ∃ m, generate_language cfg G init seed = some m := by
  obtain ⟨⟨ws₀, s₁⟩, hw⟩ := Option.isSome_iff_exists.mp
    (mkAllWords_total G cfg.alphabetSize cfg.categories [] 0 [] [] (init seed)
      hok (by simp))
  obtain ⟨hlen, -, -⟩ := mkAllWords_spec G cfg.alphabetSize cfg.categories
    0 [] [] (init seed) ws₀ s₁ hw
  have hne : ((buildRoots cfg.wordsPerRoot
      (cfg.rootNames.take (min cfg.rootCount (ws₀.length / cfg.wordsPerRoot)))
      cfg.rootDiscoveryThreshold 0
      (min cfg.rootCount (ws₀.length / cfg.wordsPerRoot))
      (G.shuffle ws₀ s₁).1).1.mergeSort
        (fun a b => a.base_cost ≤ b.base_cost)) ≠ [] := by
    apply List.ne_nil_of_length_pos
    rw [List.length_mergeSort, buildRoots_words_length]
    have hsl : (G.shuffle ws₀ s₁).1.length = ws₀.length :=
      (G.shuffle_perm ws₀ s₁).length_eq
    omega
  refine Option.isSome_iff_exists.mp ?_
  simp only [generate_language, hw, Option.some_bind, Option.isSome_map']
  exact mkTexts_total cfg G _ (cfg.textNames.take cfg.textCount) hne
    cfg.textCount 0 _

/-- Word-list facts of a generated model: count, pairwise-distinct ids and
dict/list agreement, plus the stored seed. -/
theorem generate_words (cfg : Config) (G : RandGen σ) (init : Int → σ)
    (seed : Int) (m : LanguageModel)
    (h : generate_language cfg G init seed = some m)
    (hsum100 : (cfg.categories.map (fun c => c.count)).sum ≤ 100) :
    m.word_list.length = (cfg.categories.map (fun c => c.count)).sum ∧
    (m.word_list.map Word.id).Nodup ∧
    m.words = m.word_list.map (fun w => (w.id, w)) ∧
    m.seed = seed := by
  simp only [generate_language, Option.bind_eq_some, Option.map_eq_some'] at h
  obtain ⟨⟨ws₀, s₁⟩, hw, ⟨ts, s₃⟩, ht, hm⟩ := h
  obtain ⟨hlen₀, hids₀, -⟩ := mkAllWords_spec G cfg.alphabetSize
    cfg.categories 0 [] [] (init seed) ws₀ s₁ hw
  have hnd₀ : (ws₀.map Word.id).Nodup := by
    refine map_id_nodup_of_pointwise Word.id wordId
      (fun i hi j hj hij => wordId_inj hi hj hij) ws₀ 0 (by omega) ?_
    intro k hk
    obtain ⟨w, hwk, hid, -⟩ := hids₀ k hk
    exact ⟨w, hwk, hid⟩
  have hshp := G.shuffle_perm ws₀ s₁
  have hnd_sh : ((G.shuffle ws₀ s₁).1.map Word.id).Nodup :=
    (hshp.map Word.id).nodup_iff.mpr hnd₀
  have hnd_br : ((buildRoots cfg.wordsPerRoot (cfg.rootNames.take (min cfg.rootCount (ws₀.length / cfg.wordsPerRoot))) cfg.rootDiscoveryThreshold 0 (min cfg.rootCount (ws₀.length / cfg.wordsPerRoot)) (G.shuffle ws₀ s₁).1).1.map Word.id).Nodup := by
    rw [buildRoots_map_id]
    exact hnd_sh
  have hnd_SW : (((buildRoots cfg.wordsPerRoot (cfg.rootNames.take (min cfg.rootCount (ws₀.length / cfg.wordsPerRoot))) cfg.rootDiscoveryThreshold 0 (min cfg.rootCount (ws₀.length / cfg.wordsPerRoot)) (G.shuffle ws₀ s₁).1).1.mergeSort fun a b => a.base_cost ≤ b.base_cost).map Word.id).Nodup :=
    ((List.mergeSort_perm _ _).map Word.id).nodup_iff.mpr hnd_br
  have hSWlen : ((buildRoots cfg.wordsPerRoot (cfg.rootNames.take (min cfg.rootCount (ws₀.length / cfg.wordsPerRoot))) cfg.rootDiscoveryThreshold 0 (min cfg.rootCount (ws₀.length / cfg.wordsPerRoot)) (G.shuffle ws₀ s₁).1).1.mergeSort fun a b => a.base_cost ≤ b.base_cost).length = (cfg.categories.map (fun c => c.count)).sum := by
    rw [List.length_mergeSort, buildRoots_words_length, hshp.length_eq, hlen₀]
  obtain ⟨⟨cw, crs, cwl, crl, cseed⟩, clen, cmeta⟩ :=
    coverageRepair_structural G { seed := seed, words := populate (fun w => w.id) ((buildRoots cfg.wordsPerRoot (cfg.rootNames.take (min cfg.rootCount (ws₀.length / cfg.wordsPerRoot))) cfg.rootDiscoveryThreshold 0 (min cfg.rootCount (ws₀.length / cfg.wordsPerRoot)) (G.shuffle ws₀ s₁).1).1.mergeSort fun a b => a.base_cost ≤ b.base_cost), roots := populate (fun r => r.id) (buildRoots cfg.wordsPerRoot (cfg.rootNames.take (min cfg.rootCount (ws₀.length / cfg.wordsPerRoot))) cfg.rootDiscoveryThreshold 0 (min cfg.rootCount (ws₀.length / cfg.wordsPerRoot)) (G.shuffle ws₀ s₁).1).2, texts := populate (fun t => t.id) ts, word_list := ((buildRoots cfg.wordsPerRoot (cfg.rootNames.take (min cfg.rootCount (ws₀.length / cfg.wordsPerRoot))) cfg.rootDiscoveryThreshold 0 (min cfg.rootCount (ws₀.length / cfg.wordsPerRoot)) (G.shuffle ws₀ s₁).1).1.mergeSort fun a b => a.base_cost ≤ b.base_cost), root_list := (buildRoots cfg.wordsPerRoot (cfg.rootNames.take (min cfg.rootCount (ws₀.length / cfg.wordsPerRoot))) cfg.rootDiscoveryThreshold 0 (min cfg.rootCount (ws₀.length / cfg.wordsPerRoot)) (G.shuffle ws₀ s₁).1).2, text_list := ts } ((buildRoots cfg.wordsPerRoot (cfg.rootNames.take (min cfg.rootCount (ws₀.length / cfg.wordsPerRoot))) cfg.rootDiscoveryThreshold 0 (min cfg.rootCount (ws₀.length / cfg.wordsPerRoot)) (G.shuffle ws₀ s₁).1).1.mergeSort fun a b => a.base_cost ≤ b.base_cost) s₃
  subst hm
  refine ⟨?_, ?_, ?_, ?_⟩
  · rw [cwl]
    exact hSWlen
  · rw [cwl]
    exact hnd_SW
  · rw [cw, cwl]
    exact populate_eq (fun w => w.id) ((buildRoots cfg.wordsPerRoot (cfg.rootNames.take (min cfg.rootCount (ws₀.length / cfg.wordsPerRoot))) cfg.rootDiscoveryThreshold 0 (min cfg.rootCount (ws₀.length / cfg.wordsPerRoot)) (G.shuffle ws₀ s₁).1).1.mergeSort fun a b => a.base_cost ≤ b.base_cost) hnd_SW
  · rw [cseed]

/-- Root facts of a generated model: the clamped root count, distinct root
ids, dict/list agreement, and — under an exact partition — the family sizes
and the word-to-root linkage. -/
theorem generate_roots (cfg : Config) (G : RandGen σ) (init : Int → σ)
    (seed : Int) (m : LanguageModel)
    (h : generate_language cfg G init seed = some m)
    (hroot100 : cfg.rootCount ≤ 100) :
    m.root_list.length =
      min cfg.rootCount (m.word_list.length / cfg.wordsPerRoot) ∧
    (m.root_list.map Root.id).Nodup ∧
    m.roots = m.root_list.map (fun r => (r.id, r)) ∧
    (0 < cfg.wordsPerRoot →
      min cfg.rootCount ((cfg.categories.map (fun c => c.count)).sum / cfg.wordsPerRoot) * cfg.wordsPerRoot =
        (cfg.categories.map (fun c => c.count)).sum →
      (∀ r ∈ m.root_list, r.word_ids.length = cfg.wordsPerRoot ∧
        r.discovery_threshold = cfg.rootDiscoveryThreshold) ∧
      (∀ w ∈ m.word_list, ∃ r ∈ m.root_list,
        w.root_id = r.id ∧ w.id ∈ r.word_ids)) := by
  simp only [generate_language, Option.bind_eq_some, Option.map_eq_some'] at h
  obtain ⟨⟨ws₀, s₁⟩, hw, ⟨ts, s₃⟩, ht, hm⟩ := h
  obtain ⟨hlen₀, hids₀, -⟩ := mkAllWords_spec G cfg.alphabetSize
    cfg.categories 0 [] [] (init seed) ws₀ s₁ hw
  have hshp := G.shuffle_perm ws₀ s₁
  have hRSlen : (buildRoots cfg.wordsPerRoot (cfg.rootNames.take (min cfg.rootCount (ws₀.length / cfg.wordsPerRoot))) cfg.rootDiscoveryThreshold 0 (min cfg.rootCount (ws₀.length / cfg.wordsPerRoot)) (G.shuffle ws₀ s₁).1).2.length = (min cfg.rootCount (ws₀.length / cfg.wordsPerRoot)) :=
    buildRoots_roots_length cfg.wordsPerRoot _ cfg.rootDiscoveryThreshold
      (min cfg.rootCount (ws₀.length / cfg.wordsPerRoot)) 0 (G.shuffle ws₀ s₁).1
  have hSWlen : ((buildRoots cfg.wordsPerRoot (cfg.rootNames.take (min cfg.rootCount (ws₀.length / cfg.wordsPerRoot))) cfg.rootDiscoveryThreshold 0 (min cfg.rootCount (ws₀.length / cfg.wordsPerRoot)) (G.shuffle ws₀ s₁).1).1.mergeSort fun a b => a.base_cost ≤ b.base_cost).length = ws₀.length := by
    rw [List.length_mergeSort, buildRoots_words_length, hshp.length_eq]
  have hnd_RS : ((buildRoots cfg.wordsPerRoot (cfg.rootNames.take (min cfg.rootCount (ws₀.length / cfg.wordsPerRoot))) cfg.rootDiscoveryThreshold 0 (min cfg.rootCount (ws₀.length / cfg.wordsPerRoot)) (G.shuffle ws₀ s₁).1).2.map Root.id).Nodup := by
    refine map_id_nodup_of_pointwise Root.id rootId
      (fun i hi j hj hij => rootId_inj hi hj hij) _ 0 ?_ ?_
    · rw [hRSlen]
      omega
    · intro k hk
      rw [hRSlen] at hk
      obtain ⟨r, hr, hid⟩ := buildRoots_root_ids cfg.wordsPerRoot _
        cfg.rootDiscoveryThreshold (min cfg.rootCount (ws₀.length / cfg.wordsPerRoot)) 0 (G.shuffle ws₀ s₁).1 k hk
      exact ⟨r, hr, hid⟩
  obtain ⟨⟨cw, crs, cwl, crl, cseed⟩, clen, cmeta⟩ :=
    coverageRepair_structural G { seed := seed, words := populate (fun w => w.id) ((buildRoots cfg.wordsPerRoot (cfg.rootNames.take (min cfg.rootCount (ws₀.length / cfg.wordsPerRoot))) cfg.rootDiscoveryThreshold 0 (min cfg.rootCount (ws₀.length / cfg.wordsPerRoot)) (G.shuffle ws₀ s₁).1).1.mergeSort fun a b => a.base_cost ≤ b.base_cost), roots := populate (fun r => r.id) (buildRoots cfg.wordsPerRoot (cfg.rootNames.take (min cfg.rootCount (ws₀.length / cfg.wordsPerRoot))) cfg.rootDiscoveryThreshold 0 (min cfg.rootCount (ws₀.length / cfg.wordsPerRoot)) (G.shuffle ws₀ s₁).1).2, texts := populate (fun t => t.id) ts, word_list := ((buildRoots cfg.wordsPerRoot (cfg.rootNames.take (min cfg.rootCount (ws₀.length / cfg.wordsPerRoot))) cfg.rootDiscoveryThreshold 0 (min cfg.rootCount (ws₀.length / cfg.wordsPerRoot)) (G.shuffle ws₀ s₁).1).1.mergeSort fun a b => a.base_cost ≤ b.base_cost), root_list := (buildRoots cfg.wordsPerRoot (cfg.rootNames.take (min cfg.rootCount (ws₀.length / cfg.wordsPerRoot))) cfg.rootDiscoveryThreshold 0 (min cfg.rootCount (ws₀.length / cfg.wordsPerRoot)) (G.shuffle ws₀ s₁).1).2, text_list := ts } ((buildRoots cfg.wordsPerRoot (cfg.rootNames.take (min cfg.rootCount (ws₀.length / cfg.wordsPerRoot))) cfg.rootDiscoveryThreshold 0 (min cfg.rootCount (ws₀.length / cfg.wordsPerRoot)) (G.shuffle ws₀ s₁).1).1.mergeSort fun a b => a.base_cost ≤ b.base_cost) s₃
  subst hm
  refine ⟨?_, ?_, ?_, ?_⟩
  · rw [crl, cwl]
    show (buildRoots cfg.wordsPerRoot (cfg.rootNames.take (min cfg.rootCount (ws₀.length / cfg.wordsPerRoot))) cfg.rootDiscoveryThreshold 0 (min cfg.rootCount (ws₀.length / cfg.wordsPerRoot)) (G.shuffle ws₀ s₁).1).2.length = min cfg.rootCount (((buildRoots cfg.wordsPerRoot (cfg.rootNames.take (min cfg.rootCount (ws₀.length / cfg.wordsPerRoot))) cfg.rootDiscoveryThreshold 0 (min cfg.rootCount (ws₀.length / cfg.wordsPerRoot)) (G.shuffle ws₀ s₁).1).1.mergeSort fun a b => a.base_cost ≤ b.base_cost).length / cfg.wordsPerRoot)
    rw [hRSlen, hSWlen]
  · rw [crl]
    exact hnd_RS
  · rw [crs, crl]
    exact populate_eq (fun r => r.id) (buildRoots cfg.wordsPerRoot (cfg.rootNames.take (min cfg.rootCount (ws₀.length / cfg.wordsPerRoot))) cfg.rootDiscoveryThreshold 0 (min cfg.rootCount (ws₀.length / cfg.wordsPerRoot)) (G.shuffle ws₀ s₁).1).2 hnd_RS
  · intro hwpr hexact
    have hshlen : (G.shuffle ws₀ s₁).1.length = (min cfg.rootCount (ws₀.length / cfg.wordsPerRoot)) * cfg.wordsPerRoot := by
      rw [hshp.length_eq, hlen₀]
      exact hexact.symm
    obtain ⟨hroots, hwords⟩ := buildRoots_partition cfg.wordsPerRoot
      (cfg.rootNames.take (min cfg.rootCount (ws₀.length / cfg.wordsPerRoot))) cfg.rootDiscoveryThreshold (min cfg.rootCount (ws₀.length / cfg.wordsPerRoot)) 0
      (G.shuffle ws₀ s₁).1 hshlen hwpr
    constructor
    · intro r hr
      rw [crl] at hr
      exact hroots r hr
    · intro w hw'
      rw [cwl] at hw'
      have hwbr : w ∈ (buildRoots cfg.wordsPerRoot (cfg.rootNames.take (min cfg.rootCount (ws₀.length / cfg.wordsPerRoot))) cfg.rootDiscoveryThreshold 0 (min cfg.rootCount (ws₀.length / cfg.wordsPerRoot)) (G.shuffle ws₀ s₁).1).1 := (List.mergeSort_perm _ _).mem_iff.mp hw'
      obtain ⟨r, hr, hrid, hrmem⟩ := hwords w hwbr
      refine ⟨r, ?_, hrid, hrmem⟩
      rw [crl]
      exact hr

/-- Text facts of a generated model: count, distinct ids, dict/list
agreement, per-text metadata (sequential id, configured unlock threshold,
slot count within range), slot validity, and complete coverage. -/
theorem generate_texts (cfg : Config) (G : RandGen σ) (init : Int → σ)
    (seed : Int) (m : LanguageModel)
    (h : generate_language cfg G init seed = some m)
    (hsum100 : (cfg.categories.map (fun c => c.count)).sum ≤ 100)
    (htext100 : cfg.textCount ≤ 100)
    (hslotle : cfg.slotLo ≤ cfg.slotHi)
    (hsumcap : (cfg.categories.map (fun c => c.count)).sum ≤
      cfg.textCount * cfg.slotLo) :
    m.text_list.length = cfg.textCount ∧
    (m.text_list.map Text.id).Nodup ∧
    m.texts = m.text_list.map (fun t => (t.id, t)) ∧
    (∀ j t, m.text_list.get? j = some t → t.id = textId j ∧
      t.unlock_threshold = cfg.unlockThresholds.getD j (j * 8) ∧
      cfg.slotLo ≤ t.word_ids.length ∧ t.word_ids.length ≤ cfg.slotHi) ∧
    (∀ t ∈ m.text_list, ∀ x ∈ t.word_ids, x ∈ m.word_list.map Word.id) ∧
    (∀ w ∈ m.word_list, ∃ t ∈ m.text_list, w.id ∈ t.word_ids) := by
  simp only [generate_language, Option.bind_eq_some, Option.map_eq_some'] at h
  obtain ⟨⟨ws₀, s₁⟩, hw, ⟨ts, s₃⟩, ht, hm⟩ := h
  obtain ⟨hlen₀, hids₀, -⟩ := mkAllWords_spec G cfg.alphabetSize
    cfg.categories 0 [] [] (init seed) ws₀ s₁ hw
  have hnd₀ : (ws₀.map Word.id).Nodup := by
    refine map_id_nodup_of_pointwise Word.id wordId
      (fun i hi j hj hij => wordId_inj hi hj hij) ws₀ 0 (by omega) ?_
    intro k hk
    obtain ⟨w, hwk, hid, -⟩ := hids₀ k hk
    exact ⟨w, hwk, hid⟩
  have hshp := G.shuffle_perm ws₀ s₁
  have hnd_br : ((buildRoots cfg.wordsPerRoot (cfg.rootNames.take (min cfg.rootCount (ws₀.length / cfg.wordsPerRoot))) cfg.rootDiscoveryThreshold 0 (min cfg.rootCount (ws₀.length / cfg.wordsPerRoot)) (G.shuffle ws₀ s₁).1).1.map Word.id).Nodup := by
    rw [buildRoots_map_id]
    exact (hshp.map Word.id).nodup_iff.mpr hnd₀
  have hnd_SW : (((buildRoots cfg.wordsPerRoot (cfg.rootNames.take (min cfg.rootCount (ws₀.length / cfg.wordsPerRoot))) cfg.rootDiscoveryThreshold 0 (min cfg.rootCount (ws₀.length / cfg.wordsPerRoot)) (G.shuffle ws₀ s₁).1).1.mergeSort fun a b => a.base_cost ≤ b.base_cost).map Word.id).Nodup :=
    ((List.mergeSort_perm _ _).map Word.id).nodup_iff.mpr hnd_br
  have hSWlen : ((buildRoots cfg.wordsPerRoot (cfg.rootNames.take (min cfg.rootCount (ws₀.length / cfg.wordsPerRoot))) cfg.rootDiscoveryThreshold 0 (min cfg.rootCount (ws₀.length / cfg.wordsPerRoot)) (G.shuffle ws₀ s₁).1).1.mergeSort fun a b => a.base_cost ≤ b.base_cost).length = (cfg.categories.map (fun c => c.count)).sum := by
    rw [List.length_mergeSort, buildRoots_words_length, hshp.length_eq, hlen₀]
  obtain ⟨htslen, htsblock⟩ := mkTexts_spec cfg G ((buildRoots cfg.wordsPerRoot (cfg.rootNames.take (min cfg.rootCount (ws₀.length / cfg.wordsPerRoot))) cfg.rootDiscoveryThreshold 0 (min cfg.rootCount (ws₀.length / cfg.wordsPerRoot)) (G.shuffle ws₀ s₁).1).1.mergeSort fun a b => a.base_cost ≤ b.base_cost)
    (cfg.textNames.take cfg.textCount) cfg.textCount 0
    (G.shuffle ws₀ s₁).2 ts s₃ ht
  have hnd_ts : (ts.map Text.id).Nodup := by
    refine map_id_nodup_of_pointwise Text.id textId
      (fun i hi j hj hij => textId_inj hi hj hij) ts 0 (by omega) ?_
    intro k hk
    obtain ⟨t, htk, hid, -⟩ := htsblock k (by omega)
    exact ⟨t, htk, hid⟩
  have hsync_M : TextsSync { seed := seed, words := populate (fun w => w.id) ((buildRoots cfg.wordsPerRoot (cfg.rootNames.take (min cfg.rootCount (ws₀.length / cfg.wordsPerRoot))) cfg.rootDiscoveryThreshold 0 (min cfg.rootCount (ws₀.length / cfg.wordsPerRoot)) (G.shuffle ws₀ s₁).1).1.mergeSort fun a b => a.base_cost ≤ b.base_cost), roots := populate (fun r => r.id) (buildRoots cfg.wordsPerRoot (cfg.rootNames.take (min cfg.rootCount (ws₀.length / cfg.wordsPerRoot))) cfg.rootDiscoveryThreshold 0 (min cfg.rootCount (ws₀.length / cfg.wordsPerRoot)) (G.shuffle ws₀ s₁).1).2, texts := populate (fun t => t.id) ts, word_list := ((buildRoots cfg.wordsPerRoot (cfg.rootNames.take (min cfg.rootCount (ws₀.length / cfg.wordsPerRoot))) cfg.rootDiscoveryThreshold 0 (min cfg.rootCount (ws₀.length / cfg.wordsPerRoot)) (G.shuffle ws₀ s₁).1).1.mergeSort fun a b => a.base_cost ≤ b.base_cost), root_list := (buildRoots cfg.wordsPerRoot (cfg.rootNames.take (min cfg.rootCount (ws₀.length / cfg.wordsPerRoot))) cfg.rootDiscoveryThreshold 0 (min cfg.rootCount (ws₀.length / cfg.wordsPerRoot)) (G.shuffle ws₀ s₁).1).2, text_list := ts } := by
    show populate (fun t => t.id) ts = ts.map (fun t => (t.id, t))
    exact populate_eq (fun t => t.id) ts hnd_ts
  have hslots_M : ∀ t ∈ ts, ∀ x ∈ t.word_ids, x ∈ ((buildRoots cfg.wordsPerRoot (cfg.rootNames.take (min cfg.rootCount (ws₀.length / cfg.wordsPerRoot))) cfg.rootDiscoveryThreshold 0 (min cfg.rootCount (ws₀.length / cfg.wordsPerRoot)) (G.shuffle ws₀ s₁).1).1.mergeSort fun a b => a.base_cost ≤ b.base_cost).map Word.id := by
    intro t htm x hx
    obtain ⟨j, hj⟩ := List.mem_iff_get?.mp htm
    have hjlt : j < cfg.textCount := by
      have := (List.get?_eq_some.mp hj).1
      omega
    obtain ⟨t', hj', -, -, -, hvals⟩ := htsblock j hjlt
    have : t' = t := Option.some.inj (hj'.symm.trans hj)
    subst this
    obtain ⟨w, hwm, hwid⟩ := hvals x hx
    exact List.mem_map.mpr ⟨w, hwm, hwid⟩
  have htsmin : ∀ t ∈ ts, cfg.slotLo ≤ t.word_ids.length := by
    intro t htm
    obtain ⟨j, hj⟩ := List.mem_iff_get?.mp htm
    have hjlt : j < cfg.textCount := by
      have := (List.get?_eq_some.mp hj).1
      omega
    obtain ⟨t', hj', -, -, hrange, -⟩ := htsblock j hjlt
    have : t' = t := Option.some.inj (hj'.symm.trans hj)
    subst this
    exact (hrange hslotle).1
  have hcap : ((buildRoots cfg.wordsPerRoot (cfg.rootNames.take (min cfg.rootCount (ws₀.length / cfg.wordsPerRoot))) cfg.rootDiscoveryThreshold 0 (min cfg.rootCount (ws₀.length / cfg.wordsPerRoot)) (G.shuffle ws₀ s₁).1).1.mergeSort fun a b => a.base_cost ≤ b.base_cost).length ≤ (flatSlots ts).length := by
    have hge := flatSlots_length_ge cfg.slotLo ts htsmin
    rw [hSWlen]
    rw [htslen] at hge
    omega
  obtain ⟨ccov, cvals⟩ := coverageRepair_spec G { seed := seed, words := populate (fun w => w.id) ((buildRoots cfg.wordsPerRoot (cfg.rootNames.take (min cfg.rootCount (ws₀.length / cfg.wordsPerRoot))) cfg.rootDiscoveryThreshold 0 (min cfg.rootCount (ws₀.length / cfg.wordsPerRoot)) (G.shuffle ws₀ s₁).1).1.mergeSort fun a b => a.base_cost ≤ b.base_cost), roots := populate (fun r => r.id) (buildRoots cfg.wordsPerRoot (cfg.rootNames.take (min cfg.rootCount (ws₀.length / cfg.wordsPerRoot))) cfg.rootDiscoveryThreshold 0 (min cfg.rootCount (ws₀.length / cfg.wordsPerRoot)) (G.shuffle ws₀ s₁).1).2, texts := populate (fun t => t.id) ts, word_list := ((buildRoots cfg.wordsPerRoot (cfg.rootNames.take (min cfg.rootCount (ws₀.length / cfg.wordsPerRoot))) cfg.rootDiscoveryThreshold 0 (min cfg.rootCount (ws₀.length / cfg.wordsPerRoot)) (G.shuffle ws₀ s₁).1).1.mergeSort fun a b => a.base_cost ≤ b.base_cost), root_list := (buildRoots cfg.wordsPerRoot (cfg.rootNames.take (min cfg.rootCount (ws₀.length / cfg.wordsPerRoot))) cfg.rootDiscoveryThreshold 0 (min cfg.rootCount (ws₀.length / cfg.wordsPerRoot)) (G.shuffle ws₀ s₁).1).2, text_list := ts } ((buildRoots cfg.wordsPerRoot (cfg.rootNames.take (min cfg.rootCount (ws₀.length / cfg.wordsPerRoot))) cfg.rootDiscoveryThreshold 0 (min cfg.rootCount (ws₀.length / cfg.wordsPerRoot)) (G.shuffle ws₀ s₁).1).1.mergeSort fun a b => a.base_cost ≤ b.base_cost) s₃ hnd_SW
    hslots_M hcap
  have csync : TextsSync (coverageRepair G { seed := seed, words := populate (fun w => w.id) ((buildRoots cfg.wordsPerRoot (cfg.rootNames.take (min cfg.rootCount (ws₀.length / cfg.wordsPerRoot))) cfg.rootDiscoveryThreshold 0 (min cfg.rootCount (ws₀.length / cfg.wordsPerRoot)) (G.shuffle ws₀ s₁).1).1.mergeSort fun a b => a.base_cost ≤ b.base_cost), roots := populate (fun r => r.id) (buildRoots cfg.wordsPerRoot (cfg.rootNames.take (min cfg.rootCount (ws₀.length / cfg.wordsPerRoot))) cfg.rootDiscoveryThreshold 0 (min cfg.rootCount (ws₀.length / cfg.wordsPerRoot)) (G.shuffle ws₀ s₁).1).2, texts := populate (fun t => t.id) ts, word_list := ((buildRoots cfg.wordsPerRoot (cfg.rootNames.take (min cfg.rootCount (ws₀.length / cfg.wordsPerRoot))) cfg.rootDiscoveryThreshold 0 (min cfg.rootCount (ws₀.length / cfg.wordsPerRoot)) (G.shuffle ws₀ s₁).1).1.mergeSort fun a b => a.base_cost ≤ b.base_cost), root_list := (buildRoots cfg.wordsPerRoot (cfg.rootNames.take (min cfg.rootCount (ws₀.length / cfg.wordsPerRoot))) cfg.rootDiscoveryThreshold 0 (min cfg.rootCount (ws₀.length / cfg.wordsPerRoot)) (G.shuffle ws₀ s₁).1).2, text_list := ts } ((buildRoots cfg.wordsPerRoot (cfg.rootNames.take (min cfg.rootCount (ws₀.length / cfg.wordsPerRoot))) cfg.rootDiscoveryThreshold 0 (min cfg.rootCount (ws₀.length / cfg.wordsPerRoot)) (G.shuffle ws₀ s₁).1).1.mergeSort fun a b => a.base_cost ≤ b.base_cost) s₃).1 :=
    coverageRepair_sync G { seed := seed, words := populate (fun w => w.id) ((buildRoots cfg.wordsPerRoot (cfg.rootNames.take (min cfg.rootCount (ws₀.length / cfg.wordsPerRoot))) cfg.rootDiscoveryThreshold 0 (min cfg.rootCount (ws₀.length / cfg.wordsPerRoot)) (G.shuffle ws₀ s₁).1).1.mergeSort fun a b => a.base_cost ≤ b.base_cost), roots := populate (fun r => r.id) (buildRoots cfg.wordsPerRoot (cfg.rootNames.take (min cfg.rootCount (ws₀.length / cfg.wordsPerRoot))) cfg.rootDiscoveryThreshold 0 (min cfg.rootCount (ws₀.length / cfg.wordsPerRoot)) (G.shuffle ws₀ s₁).1).2, texts := populate (fun t => t.id) ts, word_list := ((buildRoots cfg.wordsPerRoot (cfg.rootNames.take (min cfg.rootCount (ws₀.length / cfg.wordsPerRoot))) cfg.rootDiscoveryThreshold 0 (min cfg.rootCount (ws₀.length / cfg.wordsPerRoot)) (G.shuffle ws₀ s₁).1).1.mergeSort fun a b => a.base_cost ≤ b.base_cost), root_list := (buildRoots cfg.wordsPerRoot (cfg.rootNames.take (min cfg.rootCount (ws₀.length / cfg.wordsPerRoot))) cfg.rootDiscoveryThreshold 0 (min cfg.rootCount (ws₀.length / cfg.wordsPerRoot)) (G.shuffle ws₀ s₁).1).2, text_list := ts } ((buildRoots cfg.wordsPerRoot (cfg.rootNames.take (min cfg.rootCount (ws₀.length / cfg.wordsPerRoot))) cfg.rootDiscoveryThreshold 0 (min cfg.rootCount (ws₀.length / cfg.wordsPerRoot)) (G.shuffle ws₀ s₁).1).1.mergeSort fun a b => a.base_cost ≤ b.base_cost) s₃ hsync_M hnd_ts
  obtain ⟨⟨cw, crs, cwl, crl, cseed⟩, clen, cmeta⟩ :=
    coverageRepair_structural G { seed := seed, words := populate (fun w => w.id) ((buildRoots cfg.wordsPerRoot (cfg.rootNames.take (min cfg.rootCount (ws₀.length / cfg.wordsPerRoot))) cfg.rootDiscoveryThreshold 0 (min cfg.rootCount (ws₀.length / cfg.wordsPerRoot)) (G.shuffle ws₀ s₁).1).1.mergeSort fun a b => a.base_cost ≤ b.base_cost), roots := populate (fun r => r.id) (buildRoots cfg.wordsPerRoot (cfg.rootNames.take (min cfg.rootCount (ws₀.length / cfg.wordsPerRoot))) cfg.rootDiscoveryThreshold 0 (min cfg.rootCount (ws₀.length / cfg.wordsPerRoot)) (G.shuffle ws₀ s₁).1).2, texts := populate (fun t => t.id) ts, word_list := ((buildRoots cfg.wordsPerRoot (cfg.rootNames.take (min cfg.rootCount (ws₀.length / cfg.wordsPerRoot))) cfg.rootDiscoveryThreshold 0 (min cfg.rootCount (ws₀.length / cfg.wordsPerRoot)) (G.shuffle ws₀ s₁).1).1.mergeSort fun a b => a.base_cost ≤ b.base_cost), root_list := (buildRoots cfg.wordsPerRoot (cfg.rootNames.take (min cfg.rootCount (ws₀.length / cfg.wordsPerRoot))) cfg.rootDiscoveryThreshold 0 (min cfg.rootCount (ws₀.length / cfg.wordsPerRoot)) (G.shuffle ws₀ s₁).1).2, text_list := ts } ((buildRoots cfg.wordsPerRoot (cfg.rootNames.take (min cfg.rootCount (ws₀.length / cfg.wordsPerRoot))) cfg.rootDiscoveryThreshold 0 (min cfg.rootCount (ws₀.length / cfg.wordsPerRoot)) (G.shuffle ws₀ s₁).1).1.mergeSort fun a b => a.base_cost ≤ b.base_cost) s₃
  subst hm
  have clen' : (coverageRepair G { seed := seed, words := populate (fun w => w.id) ((buildRoots cfg.wordsPerRoot (cfg.rootNames.take (min cfg.rootCount (ws₀.length / cfg.wordsPerRoot))) cfg.rootDiscoveryThreshold 0 (min cfg.rootCount (ws₀.length / cfg.wordsPerRoot)) (G.shuffle ws₀ s₁).1).1.mergeSort fun a b => a.base_cost ≤ b.base_cost), roots := populate (fun r => r.id) (buildRoots cfg.wordsPerRoot (cfg.rootNames.take (min cfg.rootCount (ws₀.length / cfg.wordsPerRoot))) cfg.rootDiscoveryThreshold 0 (min cfg.rootCount (ws₀.length / cfg.wordsPerRoot)) (G.shuffle ws₀ s₁).1).2, texts := populate (fun t => t.id) ts, word_list := ((buildRoots cfg.wordsPerRoot (cfg.rootNames.take (min cfg.rootCount (ws₀.length / cfg.wordsPerRoot))) cfg.rootDiscoveryThreshold 0 (min cfg.rootCount (ws₀.length / cfg.wordsPerRoot)) (G.shuffle ws₀ s₁).1).1.mergeSort fun a b => a.base_cost ≤ b.base_cost), root_list := (buildRoots cfg.wordsPerRoot (cfg.rootNames.take (min cfg.rootCount (ws₀.length / cfg.wordsPerRoot))) cfg.rootDiscoveryThreshold 0 (min cfg.rootCount (ws₀.length / cfg.wordsPerRoot)) (G.shuffle ws₀ s₁).1).2, text_list := ts } ((buildRoots cfg.wordsPerRoot (cfg.rootNames.take (min cfg.rootCount (ws₀.length / cfg.wordsPerRoot))) cfg.rootDiscoveryThreshold 0 (min cfg.rootCount (ws₀.length / cfg.wordsPerRoot)) (G.shuffle ws₀ s₁).1).1.mergeSort fun a b => a.base_cost ≤ b.base_cost) s₃).1.text_list.length =
      ts.length := clen
  refine ⟨?_, ?_, ?_, ?_, ?_, ?_⟩
  · rw [clen']
    exact htslen
  · have hmapeq : (coverageRepair G { seed := seed, words := populate (fun w => w.id) ((buildRoots cfg.wordsPerRoot (cfg.rootNames.take (min cfg.rootCount (ws₀.length / cfg.wordsPerRoot))) cfg.rootDiscoveryThreshold 0 (min cfg.rootCount (ws₀.length / cfg.wordsPerRoot)) (G.shuffle ws₀ s₁).1).1.mergeSort fun a b => a.base_cost ≤ b.base_cost), roots := populate (fun r => r.id) (buildRoots cfg.wordsPerRoot (cfg.rootNames.take (min cfg.rootCount (ws₀.length / cfg.wordsPerRoot))) cfg.rootDiscoveryThreshold 0 (min cfg.rootCount (ws₀.length / cfg.wordsPerRoot)) (G.shuffle ws₀ s₁).1).2, texts := populate (fun t => t.id) ts, word_list := ((buildRoots cfg.wordsPerRoot (cfg.rootNames.take (min cfg.rootCount (ws₀.length / cfg.wordsPerRoot))) cfg.rootDiscoveryThreshold 0 (min cfg.rootCount (ws₀.length / cfg.wordsPerRoot)) (G.shuffle ws₀ s₁).1).1.mergeSort fun a b => a.base_cost ≤ b.base_cost), root_list := (buildRoots cfg.wordsPerRoot (cfg.rootNames.take (min cfg.rootCount (ws₀.length / cfg.wordsPerRoot))) cfg.rootDiscoveryThreshold 0 (min cfg.rootCount (ws₀.length / cfg.wordsPerRoot)) (G.shuffle ws₀ s₁).1).2, text_list := ts } ((buildRoots cfg.wordsPerRoot (cfg.rootNames.take (min cfg.rootCount (ws₀.length / cfg.wordsPerRoot))) cfg.rootDiscoveryThreshold 0 (min cfg.rootCount (ws₀.length / cfg.wordsPerRoot)) (G.shuffle ws₀ s₁).1).1.mergeSort fun a b => a.base_cost ≤ b.base_cost) s₃).1.text_list.map Text.id =
        ts.map Text.id := by
      refine texts_map_id_eq clen' ?_
      intro j t hjt
      obtain ⟨t', h', hid, -, -, -, -⟩ := cmeta j t hjt
      exact ⟨t', h', hid⟩
    rw [hmapeq]
    exact hnd_ts
  · exact csync
  · intro j t hjt
    have hjlt : j < cfg.textCount := by
      have h1 := (List.get?_eq_some.mp hjt).1
      rw [clen', htslen] at h1
      exact h1
    obtain ⟨t₀, hj₀, hid₀, hunl₀, hrange₀, -⟩ := htsblock j hjlt
    obtain ⟨t', h', hid, -, -, hunl, hlen⟩ := cmeta j t₀ hj₀
    have : t' = t := Option.some.inj (h'.symm.trans hjt)
    subst this
    obtain ⟨hlo, hhi⟩ := hrange₀ hslotle
    refine ⟨?_, ?_, ?_, ?_⟩
    · rw [hid, hid₀]
      simp
    · rw [hunl, hunl₀]
      simp
    · rw [hlen]
      exact hlo
    · rw [hlen]
      exact hhi
  · intro t htm x hx
    have hmem := cvals t htm x hx
    rw [cwl]
    exact hmem
  · intro w hw'
    rw [cwl] at hw'
    exact ccov w hw'

theorem catOffset_lt : ∀ (cats : List CategoryConfig) (j : Nat)
    (hj : j < cats.length) (k : Nat), k < (cats.get ⟨j, hj⟩).count →
    catOffset cats j + k < (cats.map (fun c => c.count)).sum
  | [], j, hj, k, hk => absurd hj (by simp at hj ⊢)
  | cat :: rest, 0, hj, k, hk => by
    have hg : (cat :: rest).get ⟨0, hj⟩ = cat := rfl
    rw [hg] at hk
    have hco : catOffset (cat :: rest) 0 = 0 := by
      simp [catOffset]
    rw [hco]
    simp only [List.map_cons, List.sum_cons]
    omega
  | cat :: rest, j + 1, hj, k, hk => by
    have hj' : j < rest.length := by simpa using hj
    have hg : (cat :: rest).get ⟨j + 1, hj⟩ = rest.get ⟨j, hj'⟩ := rfl
    rw [hg] at hk
    have hco : catOffset (cat :: rest) (j + 1) =
        cat.count + catOffset rest j := by
      simp [catOffset, List.take_succ_cons]
    have hrec := catOffset_lt rest j hj' k hk
    rw [hco]
    simp only [List.map_cons, List.sum_cons]
    omega

/-- Per-category cost interpolation in the generated model: the `k`-th word
created in category `j` survives into `word_list` with its creation id, its
category name and the interpolated cost. -/
theorem generate_cats (cfg : Config) (G : RandGen σ) (init : Int → σ)
    (seed : Int) (m : LanguageModel)
    (h : generate_language cfg G init seed = some m) :
    ∀ j, ∀ hj : j < cfg.categories.length, ∀ k,
    k < (cfg.categories.get ⟨j, hj⟩).count →
    ∃ w ∈ m.word_list, w.id = wordId (catOffset cfg.categories j + k) ∧
      w.category = (cfg.categories.get ⟨j, hj⟩).name ∧
      w.base_cost = baseCost (cfg.categories.get ⟨j, hj⟩).costLo
        (cfg.categories.get ⟨j, hj⟩).costHi k
        (cfg.categories.get ⟨j, hj⟩).count := by
  simp only [generate_language, Option.bind_eq_some, Option.map_eq_some'] at h
  obtain ⟨⟨ws₀, s₁⟩, hw, ⟨ts, s₃⟩, ht, hm⟩ := h
  obtain ⟨hlen₀, hids₀, hblock₀⟩ := mkAllWords_spec G cfg.alphabetSize
    cfg.categories 0 [] [] (init seed) ws₀ s₁ hw
  have hshp := G.shuffle_perm ws₀ s₁
  obtain ⟨⟨cw, crs, cwl, crl, cseed⟩, clen, cmeta⟩ :=
    coverageRepair_structural G { seed := seed, words := populate (fun w => w.id) ((buildRoots cfg.wordsPerRoot (cfg.rootNames.take (min cfg.rootCount (ws₀.length / cfg.wordsPerRoot))) cfg.rootDiscoveryThreshold 0 (min cfg.rootCount (ws₀.length / cfg.wordsPerRoot)) (G.shuffle ws₀ s₁).1).1.mergeSort fun a b => a.base_cost ≤ b.base_cost), roots := populate (fun r => r.id) (buildRoots cfg.wordsPerRoot (cfg.rootNames.take (min cfg.rootCount (ws₀.length / cfg.wordsPerRoot))) cfg.rootDiscoveryThreshold 0 (min cfg.rootCount (ws₀.length / cfg.wordsPerRoot)) (G.shuffle ws₀ s₁).1).2, texts := populate (fun t => t.id) ts, word_list := ((buildRoots cfg.wordsPerRoot (cfg.rootNames.take (min cfg.rootCount (ws₀.length / cfg.wordsPerRoot))) cfg.rootDiscoveryThreshold 0 (min cfg.rootCount (ws₀.length / cfg.wordsPerRoot)) (G.shuffle ws₀ s₁).1).1.mergeSort fun a b => a.base_cost ≤ b.base_cost), root_list := (buildRoots cfg.wordsPerRoot (cfg.rootNames.take (min cfg.rootCount (ws₀.length / cfg.wordsPerRoot))) cfg.rootDiscoveryThreshold 0 (min cfg.rootCount (ws₀.length / cfg.wordsPerRoot)) (G.shuffle ws₀ s₁).1).2, text_list := ts } ((buildRoots cfg.wordsPerRoot (cfg.rootNames.take (min cfg.rootCount (ws₀.length / cfg.wordsPerRoot))) cfg.rootDiscoveryThreshold 0 (min cfg.rootCount (ws₀.length / cfg.wordsPerRoot)) (G.shuffle ws₀ s₁).1).1.mergeSort fun a b => a.base_cost ≤ b.base_cost) s₃
  subst hm
  intro j hj k hk
  obtain ⟨w, hwp, hcat, hcost⟩ := hblock₀ j hj k hk
  have hlt : catOffset cfg.categories j + k < ws₀.length := by
    rw [hlen₀]
    exact catOffset_lt cfg.categories j hj k hk
  obtain ⟨w', hwp', hid', -⟩ := hids₀ (catOffset cfg.categories j + k) hlt
  have hww : w' = w := Option.some.inj (hwp'.symm.trans hwp)
  subst hww
  have hwmem : w' ∈ ws₀ := List.get?_mem hwp
  have hwsh : w' ∈ (G.shuffle ws₀ s₁).1 := hshp.mem_iff.mpr hwmem
  obtain ⟨w₂, hw₂, hfr⟩ := buildRoots_mem_frame cfg.wordsPerRoot
    (cfg.rootNames.take (min cfg.rootCount (ws₀.length / cfg.wordsPerRoot))) cfg.rootDiscoveryThreshold (min cfg.rootCount (ws₀.length / cfg.wordsPerRoot)) 0
    (G.shuffle ws₀ s₁).1 w' hwsh
  have hw₂SW : w₂ ∈ ((buildRoots cfg.wordsPerRoot (cfg.rootNames.take (min cfg.rootCount (ws₀.length / cfg.wordsPerRoot))) cfg.rootDiscoveryThreshold 0 (min cfg.rootCount (ws₀.length / cfg.wordsPerRoot)) (G.shuffle ws₀ s₁).1).1.mergeSort fun a b => a.base_cost ≤ b.base_cost) := (List.mergeSort_perm _ _).mem_iff.mpr hw₂
  refine ⟨w₂, ?_, ?_, ?_, ?_⟩
  · rw [cwl]
    exact hw₂SW
  · have h1 : w₂.id = w'.id := congrArg Prod.fst hfr
    rw [h1, hid']
    simp
  · have h1 : w₂.category = w'.category :=
      congrArg (fun p => p.2.2.2.1) hfr
    rw [h1, hcat]
  · have h1 : w₂.base_cost = w'.base_cost :=
      congrArg (fun p => p.2.2.2.2) hfr
    rw [h1, hcost]

/-! ## Failure behaviour of the word stage -/

/-- When the meaning selection is shorter than the words still to create,
the inner loop hits the out-of-range index (`unique_meanings[i]`,
`IndexError`). -/
theorem mkWordsFor_none (G : RandGen σ) (alpha : Nat) (cat : CategoryConfig)
    (uniq : List String) (startIdx : Nat) :
    ∀ (n i : Nat) (used : List String) (usedG : List (List Nat)) (s : σ),
    0 < n → uniq.length < i + n →
    mkWordsFor G alpha cat uniq startIdx i n used usedG s = none
  | 0, i, used, usedG, s, hn, hlt => absurd hn (by omega)
  | n + 1, i, used, usedG, s, hn, hlt => by
    cases hgi : uniq.get? i with
    | none =>
      simp only [mkWordsFor, hgi, Option.none_bind]
    | some mm =>
      have hi : i < uniq.length := (List.get?_eq_some.mp hgi).1
      simp only [mkWordsFor, hgi, Option.some_bind]
      rw [mkWordsFor_none G alpha cat uniq startIdx n (i + 1) _ _ _
        (by omega) (by omega)]
      rfl

/-- A configuration whose category list eventually reaches a category with
a pool strictly smaller than its count (every earlier category having a
sufficient pool). -/
def poolsBad : List CategoryConfig → List String → Bool
  | [], _ => false
  | c :: rest, prior =>
    (decide (c.pool.length < c.count) && decide (0 < c.count)) ||
    (decide (c.count ≤
        (c.pool.filter (fun m => ¬ prior.contains m)).length) &&
      poolsBad rest (prior ++ c.pool))

theorem mkAllWords_none (G : RandGen σ) (alpha : Nat) :
    ∀ (cats : List CategoryConfig) (prior : List String) (startIdx : Nat)
      (used : List String) (usedG : List (List Nat)) (s : σ),
    poolsBad cats prior = true → (∀ x ∈ used, x ∈ prior) →
    mkAllWords G alpha cats startIdx used usedG s = none
  | [], prior, startIdx, used, usedG, s, hbad, _ => by
    simp [poolsBad] at hbad
  | cat :: rest, prior, startIdx, used, usedG, s, hbad, hsub => by
    simp only [poolsBad, Bool.or_eq_true, Bool.and_eq_true,
      decide_eq_true_eq] at hbad
    rcases hbad with ⟨hshort, hpos⟩ | ⟨hcount, hbad'⟩
    · have huniqlen : (((G.shuffle cat.pool s).1.filter
          (fun m => ¬ used.contains m)).take cat.count).length <
          0 + cat.count := by
        have h1 : ((G.shuffle cat.pool s).1.filter
            (fun m => ¬ used.contains m)).length ≤
            (G.shuffle cat.pool s).1.length := List.length_filter_le _ _
        have h2 : (G.shuffle cat.pool s).1.length = cat.pool.length :=
          (G.shuffle_perm _ _).length_eq
        simp only [List.length_take]
        omega
      simp only [mkAllWords]
      rw [mkWordsFor_none G alpha cat _ startIdx cat.count 0 _ _ _ hpos
        huniqlen]
      rfl
    · have hperm : ((G.shuffle cat.pool s).1.filter
          (fun m => ¬ used.contains m)).length ≥ cat.count := by
        have hp : (G.shuffle cat.pool s).1.Perm cat.pool :=
          G.shuffle_perm _ _
        have hmono : (cat.pool.filter (fun m => ¬ prior.contains m)).length ≤
            (cat.pool.filter (fun m => ¬ used.contains m)).length := by
          simp only [← List.countP_eq_length_filter]
          apply List.countP_mono_left
          intro a _ ha
          simp only [decide_eq_true_eq] at ha ⊢
          intro hmem
          exact ha (List.elem_iff.mpr (hsub a (List.elem_iff.mp hmem)))
        have hfe : (((G.shuffle cat.pool s).1.filter
            (fun m => ¬ used.contains m))).length =
            (cat.pool.filter (fun m => ¬ used.contains m)).length :=
          (hp.filter _).length_eq
        omega
      have htot := mkWordsFor_total G alpha cat
        (((G.shuffle cat.pool s).1.filter (fun m => ¬ used.contains m)).take
          cat.count) startIdx cat.count 0 used usedG
        (G.shuffle cat.pool s).2
        (by simp only [List.length_take]; omega)
      obtain ⟨⟨ws₁, u₁, ug₁, s₁⟩, hws₁⟩ := Option.isSome_iff_exists.mp htot
      simp only [mkAllWords, hws₁, Option.some_bind]
      obtain ⟨-, -, hused⟩ := mkWordsFor_spec G alpha cat _ startIdx
        cat.count 0 _ _ _ ws₁ u₁ ug₁ s₁ hws₁
      rw [mkAllWords_none G alpha rest (prior ++ cat.pool)
        (startIdx + cat.count) u₁ ug₁ s₁ hbad' ?_]
      · rfl
      · intro x hx
        rcases hused x hx with hx' | hx'
        · exact List.mem_append.mpr (Or.inl (hsub x hx'))
        · have hx'' : x ∈ (G.shuffle cat.pool s).1 :=
            List.mem_of_mem_filter (List.mem_of_mem_take hx')
          exact List.mem_append.mpr
            (Or.inr ((G.shuffle_perm cat.pool s).mem_iff.mp hx''))

/-- A bad pool makes the whole generator fail (the `IndexError` propagates:
there is no configuration-error message). -/
theorem generate_none_of_poolsBad (cfg : Config) (G : RandGen σ)
    (init : Int → σ) (seed : Int)
    (hbad : poolsBad cfg.categories [] = true) :
    generate_language cfg G init seed = none := by
  have h := mkAllWords_none G cfg.alphabetSize cfg.categories [] 0 [] []
    (init seed) hbad (by simp)
  simp only [generate_language, h, Option.none_bind]

/-! ## Deviant configurations for the failure-mode analysis -/

/-- The default configuration with `ROOT_COUNT = 6`: the root partition
would need `6 × 6 = 36` words but only 30 exist. -/
def cfgBadRoot : Config := { defaultConfig with rootCount := 6 }

/-- The default configuration asking for 9 rare words from the 8-meaning
rare pool. -/
def cfgBadPool : Config :=
  { defaultConfig with
    categories :=
      [⟨"common", 10, 80, 250, 2, 3, commonPool⟩,
       ⟨"everyday", 10, 500, 2000, 3, 4, everydayPool⟩,
       ⟨"academic", 6, 4000, 15000, 4, 5, academicPool⟩,
       ⟨"rare", 9, 20000, 60000, 5, 6, rarePool⟩] }

/-- Under the constant stream, the first category's first two words both
draw the all-zero glyph sequence. -/
theorem mkAllWords_first_two (alpha : Nat) (cat : CategoryConfig)
    (cats : List CategoryConfig) (s : Unit) (out : List Word × Unit)
    (h : mkAllWords unitGen alpha (cat :: cats) 0 [] [] s = some out)
    (hcount : 2 ≤ cat.count) :
    ∃ w₁ ∈ out.1, ∃ w₂ ∈ out.1, w₁.id = wordId 0 ∧ w₂.id = wordId 1 ∧
      w₁.glyph_indices = List.replicate cat.glyphLo 0 ∧
      w₂.glyph_indices = List.replicate cat.glyphLo 0 := by
  simp only [mkAllWords, Option.bind_eq_some, Option.map_eq_some'] at h
  obtain ⟨⟨ws₁, u₁, ug₁, s₁⟩, hws₁, ⟨ws₂, s₂⟩, hws₂, hout⟩ := h
  obtain rfl := by simpa using hout
  obtain ⟨hlen₁, hblock₁, -⟩ := mkWordsFor_spec unitGen alpha cat _ 0
    cat.count 0 _ _ _ ws₁ u₁ ug₁ s₁ hws₁
  have hglyphs := mkWordsFor_unitGen_glyphs alpha cat _ 0 cat.count 0 _ _ _
    (ws₁, u₁, ug₁, s₁) hws₁
  obtain ⟨wa, hwa, hida, -, -, -, -⟩ := hblock₁ 0 (by omega)
  obtain ⟨wb, hwb, hidb, -, -, -, -⟩ := hblock₁ 1 (by omega)
  have hwa_mem : wa ∈ ws₁ := List.get?_mem hwa
  have hwb_mem : wb ∈ ws₁ := List.get?_mem hwb
  refine ⟨wa, ?_, wb, ?_, by simpa using hida, by simpa using hidb,
    hglyphs wa hwa_mem, hglyphs wb hwb_mem⟩
  · exact List.mem_append_left _ hwa_mem
  · exact List.mem_append_left _ hwb_mem

/-- Under the constant stream, the generated model holds two distinct words
with the same glyph sequence: the retry bound is exhausted and the duplicate
accepted. -/
theorem generate_unitGen_dup (seed : Int) (m : LanguageModel)
    (h : generate_language defaultConfig unitGen unitInit seed = some m) :
    ∃ w₁ ∈ m.word_list, ∃ w₂ ∈ m.word_list, w₁ ≠ w₂ ∧
      w₁.glyph_indices = w₂.glyph_indices := by
  have hcats : defaultConfig.categories =
      ⟨"common", 10, 80, 250, 2, 3, commonPool⟩ ::
      [⟨"everyday", 10, 500, 2000, 3, 4, everydayPool⟩,
       ⟨"academic", 6, 4000, 15000, 4, 5, academicPool⟩,
       ⟨"rare", 4, 20000, 60000, 5, 6, rarePool⟩] := rfl
  simp only [generate_language, Option.bind_eq_some, Option.map_eq_some'] at h
  obtain ⟨⟨ws₀, s₁⟩, hw, ⟨ts, s₃⟩, ht, hm⟩ := h
  rw [hcats] at hw
  obtain ⟨w₁, hw₁, w₂, hw₂, hid₁, hid₂, hg₁, hg₂⟩ :=
    mkAllWords_first_two defaultConfig.alphabetSize _ _ (unitInit seed)
      (ws₀, s₁) hw (by decide)
  have hshp := unitGen.shuffle_perm ws₀ s₁
  have htrans : ∀ w ∈ ws₀, ∃ w' ∈ m.word_list, frameOf w' = frameOf w := by
    intro w hwm
    have hwsh : w ∈ (unitGen.shuffle ws₀ s₁).1 := hshp.mem_iff.mpr hwm
    obtain ⟨w', hw', hfr⟩ := buildRoots_mem_frame defaultConfig.wordsPerRoot
      (defaultConfig.rootNames.take (min defaultConfig.rootCount
        (ws₀.length / defaultConfig.wordsPerRoot)))
      defaultConfig.rootDiscoveryThreshold
      (min defaultConfig.rootCount (ws₀.length / defaultConfig.wordsPerRoot))
      0 (unitGen.shuffle ws₀ s₁).1 w hwsh
    obtain ⟨⟨cw, crs, cwl, crl, cseed⟩, -, -⟩ :=
      coverageRepair_structural unitGen
        { seed := seed,
          words := populate (fun w => w.id)
            ((buildRoots defaultConfig.wordsPerRoot
              (defaultConfig.rootNames.take (min defaultConfig.rootCount
                (ws₀.length / defaultConfig.wordsPerRoot)))
              defaultConfig.rootDiscoveryThreshold 0
              (min defaultConfig.rootCount
                (ws₀.length / defaultConfig.wordsPerRoot))
              (unitGen.shuffle ws₀ s₁).1).1.mergeSort
                fun a b => a.base_cost ≤ b.base_cost),
          roots := populate (fun r => r.id)
            (buildRoots defaultConfig.wordsPerRoot
              (defaultConfig.rootNames.take (min defaultConfig.rootCount
                (ws₀.length / defaultConfig.wordsPerRoot)))
              defaultConfig.rootDiscoveryThreshold 0
              (min defaultConfig.rootCount
                (ws₀.length / defaultConfig.wordsPerRoot))
              (unitGen.shuffle ws₀ s₁).1).2,
          texts := populate (fun t => t.id) ts,
          word_list := ((buildRoots defaultConfig.wordsPerRoot
            (defaultConfig.rootNames.take (min defaultConfig.rootCount
              (ws₀.length / defaultConfig.wordsPerRoot)))
            defaultConfig.rootDiscoveryThreshold 0
            (min defaultConfig.rootCount
              (ws₀.length / defaultConfig.wordsPerRoot))
            (unitGen.shuffle ws₀ s₁).1).1.mergeSort
              fun a b => a.base_cost ≤ b.base_cost),
          root_list := (buildRoots defaultConfig.wordsPerRoot
            (defaultConfig.rootNames.take (min defaultConfig.rootCount
              (ws₀.length / defaultConfig.wordsPerRoot)))
            defaultConfig.rootDiscoveryThreshold 0
            (min defaultConfig.rootCount
              (ws₀.length / defaultConfig.wordsPerRoot))
            (unitGen.shuffle ws₀ s₁).1).2,
          text_list := ts }
        ((buildRoots defaultConfig.wordsPerRoot
          (defaultConfig.rootNames.take (min defaultConfig.rootCount
            (ws₀.length / defaultConfig.wordsPerRoot)))
          defaultConfig.rootDiscoveryThreshold 0
          (min defaultConfig.rootCount
            (ws₀.length / defaultConfig.wordsPerRoot))
          (unitGen.shuffle ws₀ s₁).1).1.mergeSort
            fun a b => a.base_cost ≤ b.base_cost) s₃
    refine ⟨w', ?_, hfr⟩
    rw [← hm, cwl]
    exact (List.mergeSort_perm _ _).mem_iff.mpr hw'
  obtain ⟨w₁', hw₁', hfr₁⟩ := htrans w₁ hw₁
  obtain ⟨w₂', hw₂', hfr₂⟩ := htrans w₂ hw₂
  refine ⟨w₁', hw₁', w₂', hw₂', ?_, ?_⟩
  · intro heq
    have h1 : w₁'.id = w₁.id := congrArg Prod.fst hfr₁
    have h2 : w₂'.id = w₂.id := congrArg Prod.fst hfr₂
    rw [heq] at h1
    rw [h2] at h1
    rw [hid₁, hid₂] at h1
    exact absurd h1.symm (by decide)
  · have h1 : w₁'.glyph_indices = w₁.glyph_indices :=
      congrArg (fun p => p.2.1) hfr₁
    have h2 : w₂'.glyph_indices = w₂.glyph_indices :=
      congrArg (fun p => p.2.1) hfr₂
    rw [h1, h2, hg₁, hg₂]

/-- The retry loop is exactly best-effort: it returns a sequence outside
`used` whenever any of the 100 attempts avoids `used`, and otherwise keeps
the final attempt, collision and all. -/
theorem tryGlyphs_spec (G : RandGen σ) (alpha : Nat)
    (used : List (List Nat)) (n : Nat) :
    ∀ (fuel : Nat) (s : σ),
    ((∃ k, k ≤ fuel ∧ (glyphAttempt G alpha n k s).1 ∉ used) →
      (tryGlyphs G alpha used n fuel s).1 ∉ used) ∧
    ((∀ k, k ≤ fuel → (glyphAttempt G alpha n k s).1 ∈ used) →
      tryGlyphs G alpha used n fuel s = glyphAttempt G alpha n fuel s)
  | 0, s => by
    constructor
    · rintro ⟨k, hk, hfresh⟩
      have hk0 : k = 0 := by omega
      subst hk0
      show (tryGlyphs G alpha used n 0 s).1 ∉ used
      simp only [tryGlyphs]
      split
      · rename_i hc
        exact absurd hc hfresh
      · rename_i hc
        exact hc
    · intro hall
      show tryGlyphs G alpha used n 0 s = glyphAttempt G alpha n 0 s
      simp only [tryGlyphs, glyphAttempt]
      split
      · rfl
      · rfl
  | fuel + 1, s => by
    obtain ⟨ih1, ih2⟩ :=
      tryGlyphs_spec G alpha used n fuel (glyphTuple G alpha n s).2
    constructor
    · rintro ⟨k, hk, hfresh⟩
      show (tryGlyphs G alpha used n (fuel + 1) s).1 ∉ used
      simp only [tryGlyphs]
      split
      · rename_i hc
        cases k with
        | zero => exact absurd hc hfresh
        | succ k' => exact ih1 ⟨k', by omega, hfresh⟩
      · rename_i hc
        exact hc
    · intro hall
      show tryGlyphs G alpha used n (fuel + 1) s =
        glyphAttempt G alpha n (fuel + 1) s
      simp only [tryGlyphs]
      split
      · rename_i hc
        show tryGlyphs G alpha used n fuel (glyphTuple G alpha n s).2 =
          glyphAttempt G alpha n fuel (glyphTuple G alpha n s).2
        exact ih2 (fun k hk => hall (k + 1) (by omega))
      · rename_i hc
        exact absurd (hall 0 (by omega)) hc

/-- The interpolation written out as the spec states it. -/
theorem baseCost_formula (lo hi : Int) (i count : Nat) :
    baseCost lo hi i count =
      if 1 < count then
        truncQ ((lo : ℚ) + (i : ℚ) / ((count : ℚ) - 1) *
          ((hi : ℚ) - (lo : ℚ)))
      else truncQ ((lo : ℚ) + (1 / 2 : ℚ) * ((hi : ℚ) - (lo : ℚ))) := by
  by_cases h : 1 < count
  · simp [baseCost, h]
  · simp [baseCost, h]

/-! ## The claims -/

/-- C1: generation is a pure function of the seed: the model is computed
from the stream state `init seed` alone, so two calls whose streams start
equal — in particular two calls with the same seed — return structurally
identical models (same ids, same field values, same list orders). -/
theorem C1_determinism : ∀ (σ' : Type) (G : RandGen σ') (cfg : Config)
    (init init' : Int → σ') (seed : Int), init seed = init' seed →
    generate_language cfg G init seed = generate_language cfg G init' seed := by
  intro σ' G cfg init init' seed h
  simp only [generate_language, h]

theorem C1_determinism_witness :
    generate_language defaultConfig unitGen unitInit 42 =
      generate_language defaultConfig unitGen unitInit 42 :=
  C1_determinism Unit unitGen defaultConfig unitInit unitInit 42 rfl

/-- C2: under the default configuration (30 words, 4 texts of 8–12 slots),
for every stream and seed the union of the texts' `word_ids` equals the
full word id set: every word id appears in some text and every slot holds
a word id. -/
theorem C2_coverage : ∀ (σ' : Type) (G : RandGen σ') (init : Int → σ')
    (seed : Int) (m : LanguageModel),
    generate_language defaultConfig G init seed = some m →
    (∀ w ∈ m.word_list, ∃ t ∈ m.text_list, w.id ∈ t.word_ids) ∧
    (∀ t ∈ m.text_list, ∀ x ∈ t.word_ids, ∃ w ∈ m.word_list, w.id = x) := by
  intro σ' G init seed m h
  obtain ⟨-, -, -, -, hvals, hcov⟩ := generate_texts defaultConfig G init
    seed m h (by decide) (by decide) (by decide) (by decide)
  refine ⟨hcov, ?_⟩
  intro t ht x hx
  obtain ⟨w, hw, hwid⟩ := List.mem_map.mp (hvals t ht x hx)
  exact ⟨w, hw, hwid⟩

theorem C2_coverage_witness : ∃ m,
    generate_language defaultConfig unitGen unitInit 42 = some m ∧
    ((∀ w ∈ m.word_list, ∃ t ∈ m.text_list, w.id ∈ t.word_ids) ∧
     (∀ t ∈ m.text_list, ∀ x ∈ t.word_ids, ∃ w ∈ m.word_list, w.id = x)) := by
  obtain ⟨m, hm⟩ := generate_total defaultConfig unitGen unitInit 42
    (by decide) (by decide)
  exact ⟨m, hm, C2_coverage Unit unitGen unitInit 42 m hm⟩

/-- C3 (amended): glyph uniqueness is only best-effort.  The retry loop
accepts a sequence outside the used set whenever any of its 100 attempts
avoids it, and otherwise keeps the 100th attempt even though it collides —
so distinct words can share a `glyph_indices` sequence (see the
counterexample, where a constant stream collapses every attempt). -/
theorem C3_glyph_retry : ∀ (σ' : Type) (G : RandGen σ') (alpha : Nat)
    (used : List (List Nat)) (n : Nat) (s : σ'),
    ((∃ k, k ≤ 99 ∧ (glyphAttempt G alpha n k s).1 ∉ used) →
      (tryGlyphs G alpha used n 99 s).1 ∉ used) ∧
    ((∀ k, k ≤ 99 → (glyphAttempt G alpha n k s).1 ∈ used) →
      tryGlyphs G alpha used n 99 s = glyphAttempt G alpha n 99 s) :=
  fun σ' G alpha used n s => tryGlyphs_spec G alpha used n 99 s

theorem C3_glyph_retry_witness :
    (tryGlyphs unitGen 26 [] 2 99 ()).1 ∉ ([] : List (List Nat)) :=
  (C3_glyph_retry Unit unitGen 26 [] 2 ()).1
    ⟨0, by omega, List.not_mem_nil _⟩

/-- C3 counterexample: under the constant stream (a legal interpretation of
`random.Random`), the default-configuration model contains two distinct
words with the same glyph sequence — the claimed order-sensitive global
uniqueness of `glyph_indices` fails. -/
theorem C3_glyph_counterexample : ∃ m,
    generate_language defaultConfig unitGen unitInit 42 = some m ∧
    ∃ w₁ ∈ m.word_list, ∃ w₂ ∈ m.word_list, w₁ ≠ w₂ ∧
      w₁.glyph_indices = w₂.glyph_indices := by
  obtain ⟨m, hm⟩ := generate_total defaultConfig unitGen unitInit 42
    (by decide) (by decide)
  exact ⟨m, hm, generate_unitGen_dup 42 m hm⟩

/-- C4: the coverage repair never creates a new orphan: whenever the word
ids are pairwise distinct (as every generated model's are), any word id
referenced by some text before the repair is still referenced by some text
afterwards. -/
theorem C4_repair_monotone : ∀ (σ' : Type) (G : RandGen σ')
    (m : LanguageModel) (allWords : List Word) (s : σ'),
    (allWords.map Word.id).Nodup →
    ∀ wid, (∃ t ∈ m.text_list, wid ∈ t.word_ids) →
      ∃ t' ∈ (coverageRepair G m allWords s).1.text_list,
        wid ∈ t'.word_ids :=
  fun σ' G m allWords s hwnd => coverageRepair_mono G m allWords s hwnd

theorem C4_repair_monotone_witness :
    ∃ t' ∈ (coverageRepair unitGen
      { seed := 0, words := [], roots := [], texts := [], word_list := [],
        root_list := [],
        text_list := [⟨"text_00", "T", ["word_00"], "common", 0⟩] }
      [] ()).1.text_list, "word_00" ∈ t'.word_ids :=
  C4_repair_monotone Unit unitGen
    { seed := 0, words := [], roots := [], texts := [], word_list := [],
      root_list := [],
      text_list := [⟨"text_00", "T", ["word_00"], "common", 0⟩] }
    [] () (by simp) "word_00"
    ⟨⟨"text_00", "T", ["word_00"], "common", 0⟩, by simp, by simp⟩

/-- C5: under the default configuration the number of roots equals
`min(ROOT_COUNT, total_words // WORDS_PER_ROOT)`, every root lists exactly
`WORDS_PER_ROOT` word ids, and every word's `root_id` names a root whose
`word_ids` contains the word's id. -/
theorem C5_root_structure : ∀ (σ' : Type) (G : RandGen σ')
    (init : Int → σ') (seed : Int) (m : LanguageModel),
    generate_language defaultConfig G init seed = some m →
    m.root_list.length = min defaultConfig.rootCount
      (m.word_list.length / defaultConfig.wordsPerRoot) ∧
    (∀ r ∈ m.root_list, r.word_ids.length = defaultConfig.wordsPerRoot) ∧
    (∀ w ∈ m.word_list, ∃ r ∈ m.root_list,
      w.root_id = r.id ∧ w.id ∈ r.word_ids) := by
  intro σ' G init seed m h
  obtain ⟨hlen, -, -, hpart⟩ := generate_roots defaultConfig G init seed m h
    (by decide)
  obtain ⟨hroots, hwords⟩ := hpart (by decide) (by decide)
  exact ⟨hlen, fun r hr => (hroots r hr).1, hwords⟩

theorem C5_root_structure_witness : ∃ m,
    generate_language defaultConfig unitGen unitInit 42 = some m ∧
    (m.root_list.length = min defaultConfig.rootCount
      (m.word_list.length / defaultConfig.wordsPerRoot) ∧
    (∀ r ∈ m.root_list, r.word_ids.length = defaultConfig.wordsPerRoot) ∧
    (∀ w ∈ m.word_list, ∃ r ∈ m.root_list,
      w.root_id = r.id ∧ w.id ∈ r.word_ids)) := by
  obtain ⟨m, hm⟩ := generate_total defaultConfig unitGen unitInit 42
    (by decide) (by decide)
  exact ⟨m, hm, C5_root_structure Unit unitGen unitInit 42 m hm⟩

/-- C6: under the default configuration the unlock thresholds along
`text_list` are non-decreasing and the first text's threshold is 0. -/
theorem C6_thresholds : ∀ (σ' : Type) (G : RandGen σ') (init : Int → σ')
    (seed : Int) (m : LanguageModel),
    generate_language defaultConfig G init seed = some m →
    (∀ i j ti tj, i ≤ j → m.text_list.get? i = some ti →
      m.text_list.get? j = some tj →
      ti.unlock_threshold ≤ tj.unlock_threshold) ∧
    (∃ t0, m.text_list.get? 0 = some t0 ∧ t0.unlock_threshold = 0) := by
  intro σ' G init seed m h
  obtain ⟨hlen, -, -, hmeta, -, -⟩ := generate_texts defaultConfig G init
    seed m h (by decide) (by decide) (by decide) (by decide)
  have h4 : defaultConfig.textCount = 4 := rfl
  constructor
  · intro i j ti tj hij hti htj
    obtain ⟨-, hui, -, -⟩ := hmeta i ti hti
    obtain ⟨-, huj, -, -⟩ := hmeta j tj htj
    have hilt : i < 4 := by
      have := (List.get?_eq_some.mp hti).1
      rw [hlen, h4] at this
      exact this
    have hjlt : j < 4 := by
      have := (List.get?_eq_some.mp htj).1
      rw [hlen, h4] at this
      exact this
    rw [hui, huj]
    interval_cases i <;> interval_cases j <;> revert hij <;> decide
  · have h0 : 0 < m.text_list.length := by
      rw [hlen, h4]
      omega
    obtain ⟨t0, ht0⟩ : ∃ t0, m.text_list.get? 0 = some t0 :=
      ⟨m.text_list.get ⟨0, h0⟩, List.get?_eq_get h0⟩
    obtain ⟨-, hu0, -, -⟩ := hmeta 0 t0 ht0
    refine ⟨t0, ht0, ?_⟩
    rw [hu0]
    decide

theorem C6_thresholds_witness : ∃ m,
    generate_language defaultConfig unitGen unitInit 42 = some m ∧
    ((∀ i j ti tj, i ≤ j → m.text_list.get? i = some ti →
      m.text_list.get? j = some tj →
      ti.unlock_threshold ≤ tj.unlock_threshold) ∧
    (∃ t0, m.text_list.get? 0 = some t0 ∧ t0.unlock_threshold = 0)) := by
  obtain ⟨m, hm⟩ := generate_total defaultConfig unitGen unitInit 42
    (by decide) (by decide)
  exact ⟨m, hm, C6_thresholds Unit unitGen unitInit 42 m hm⟩

/-- C7: under the default configuration the `k`-th word created in each
category carries the interpolated cost
`int(lo + (k/(count-1)) * (hi-lo))` — the midpoint when the count is 1 —
computed exactly over the rationals. -/
theorem C7_cost_interpolation : ∀ (σ' : Type) (G : RandGen σ')
    (init : Int → σ') (seed : Int) (m : LanguageModel),
    generate_language defaultConfig G init seed = some m →
    ∀ j, ∀ hj : j < defaultConfig.categories.length, ∀ k,
    k < (defaultConfig.categories.get ⟨j, hj⟩).count →
    ∃ w ∈ m.word_list,
      w.id = wordId (catOffset defaultConfig.categories j + k) ∧
      w.category = (defaultConfig.categories.get ⟨j, hj⟩).name ∧
      w.base_cost =
        (if 1 < (defaultConfig.categories.get ⟨j, hj⟩).count then
          truncQ (((defaultConfig.categories.get ⟨j, hj⟩).costLo : ℚ) +
            (k : ℚ) / (((defaultConfig.categories.get ⟨j, hj⟩).count : ℚ) - 1) *
            (((defaultConfig.categories.get ⟨j, hj⟩).costHi : ℚ) -
              ((defaultConfig.categories.get ⟨j, hj⟩).costLo : ℚ)))
        else
          truncQ (((defaultConfig.categories.get ⟨j, hj⟩).costLo : ℚ) +
            (1 / 2 : ℚ) *
            (((defaultConfig.categories.get ⟨j, hj⟩).costHi : ℚ) -
              ((defaultConfig.categories.get ⟨j, hj⟩).costLo : ℚ)))) := by
  intro σ' G init seed m h j hj k hk
  obtain ⟨w, hw, hid, hcat, hcost⟩ := generate_cats defaultConfig G init
    seed m h j hj k hk
  refine ⟨w, hw, hid, hcat, ?_⟩
  rw [hcost, baseCost_formula]

theorem C7_cost_interpolation_witness : ∃ m,
    generate_language defaultConfig unitGen unitInit 42 = some m ∧
    ∃ w ∈ m.word_list, w.id = wordId 0 ∧ w.category = "common" ∧
      w.base_cost = 80 := by
  obtain ⟨m, hm⟩ := generate_total defaultConfig unitGen unitInit 42
    (by decide) (by decide)
  obtain ⟨w, hw, hid, hcat, hcost⟩ :=
    C7_cost_interpolation Unit unitGen unitInit 42 m hm 0 (by decide) 0
      (by decide)
  refine ⟨m, hm, w, hw, hid, hcat, ?_⟩
  rw [hcost]
  show truncQ (((80 : Int) : ℚ) + ((0 : Nat) : ℚ) / (((10 : Nat) : ℚ) - 1) *
    (((250 : Int) : ℚ) - ((80 : Int) : ℚ))) = 80
  norm_num [truncQ]

/-- C8 (amended): neither misconfiguration yields a descriptive
configuration error.  An impossible root partition is silently clamped:
with `ROOT_COUNT = 6` over 30 words generation succeeds and simply builds
5 roots.  An insufficient meaning pool (9 rare words from the 8-meaning
pool) aborts generation with no model at all — the bare `IndexError`,
not a configuration error. -/
theorem C8_failure_modes :
    (∀ (σ' : Type) (G : RandGen σ') (init : Int → σ') (seed : Int),
      ∃ m, generate_language cfgBadRoot G init seed = some m ∧
        m.root_list.length = 5 ∧ 5 < cfgBadRoot.rootCount) ∧
    (∀ (σ' : Type) (G : RandGen σ') (init : Int → σ') (seed : Int),
      generate_language cfgBadPool G init seed = none) := by
  constructor
  · intro σ' G init seed
    obtain ⟨m, hm⟩ := generate_total cfgBadRoot G init seed (by decide)
      (by decide)
    obtain ⟨hwlen, -, -, -⟩ := generate_words cfgBadRoot G init seed m hm
      (by decide)
    obtain ⟨hrlen, -, -, -⟩ := generate_roots cfgBadRoot G init seed m hm
      (by decide)
    refine ⟨m, hm, ?_, by decide⟩
    rw [hrlen, hwlen]
    decide
  · intro σ' G init seed
    exact generate_none_of_poolsBad cfgBadPool G init seed (by decide)

/-- C8 counterexample: with the default configuration's root count raised
to 6 (needing 6 × 6 = 36 of the 30 words), generation does not fail — it
silently returns a model with 5 roots. -/
theorem C8_counterexample :
    cfgBadRoot.rootCount * cfgBadRoot.wordsPerRoot = 36 ∧
    ∃ m, generate_language cfgBadRoot unitGen unitInit 42 = some m ∧
      m.word_list.length = 30 ∧ m.root_list.length = 5 := by
  refine ⟨by decide, ?_⟩
  obtain ⟨m, hm⟩ := generate_total cfgBadRoot unitGen unitInit 42
    (by decide) (by decide)
  obtain ⟨hwlen, -, -, -⟩ := generate_words cfgBadRoot unitGen unitInit 42
    m hm (by decide)
  obtain ⟨hrlen, -, -, -⟩ := generate_roots cfgBadRoot unitGen unitInit 42
    m hm (by decide)
  refine ⟨m, hm, ?_, ?_⟩
  · rw [hwlen]
    decide
  · rw [hrlen, hwlen]
    decide

/-- C9: the replacement `Word` built during root assignment differs from
the original only in `root_id`: every other field is copied unchanged, and
along the whole root-assignment pass the word at every position keeps its
id, glyphs, meaning, category and cost. -/
theorem C9_restamp_frame :
    (∀ (rid : String) (old : Word),
      (restampWord rid old).id = old.id ∧
      (restampWord rid old).root_id = rid ∧
      (restampWord rid old).glyph_indices = old.glyph_indices ∧
      (restampWord rid old).meaning = old.meaning ∧
      (restampWord rid old).category = old.category ∧
      (restampWord rid old).base_cost = old.base_cost) ∧
    (∀ (wpr : Nat) (names : List String) (dt n ri : Nat) (ws : List Word)
      (i : Nat),
      ((buildRoots wpr names dt ri n ws).1.get? i).map frameOf =
        (ws.get? i).map frameOf) :=
  ⟨fun rid old => ⟨rfl, rfl, rfl, rfl, rfl, rfl⟩,
    fun wpr names dt n ri ws i => buildRoots_frame wpr names dt n ri ws i⟩

/-- C10: in every generated model the id-keyed maps and the ordered lists
agree entity by entity — looking any listed entity up by id returns that
same value, the maps have exactly as many entries as the lists — and the
agreement survives every text replacement of the coverage repair (the
final `texts` map equals the final `text_list` keyed by id). -/
theorem C10_dict_list_sync : ∀ (σ' : Type) (G : RandGen σ')
    (init : Int → σ') (seed : Int) (m : LanguageModel),
    generate_language defaultConfig G init seed = some m →
    (∀ w ∈ m.word_list, dictGet m.words w.id = some w) ∧
    m.words.length = m.word_list.length ∧
    (∀ r ∈ m.root_list, dictGet m.roots r.id = some r) ∧
    m.roots.length = m.root_list.length ∧
    (∀ t ∈ m.text_list, dictGet m.texts t.id = some t) ∧
    m.texts.length = m.text_list.length := by
  intro σ' G init seed m h
  obtain ⟨-, hwnd, hwsync, -⟩ := generate_words defaultConfig G init seed m h
    (by decide)
  obtain ⟨-, hrnd, hrsync, -⟩ := generate_roots defaultConfig G init seed m h
    (by decide)
  obtain ⟨-, htnd, htsync, -, -, -⟩ := generate_texts defaultConfig G init
    seed m h (by decide) (by decide) (by decide) (by decide)
  refine ⟨?_, ?_, ?_, ?_, ?_, ?_⟩
  · intro w hw
    rw [hwsync]
    exact dictGet_map_self (fun w => w.id) m.word_list hwnd w hw
  · rw [hwsync, List.length_map]
  · intro r hr
    rw [hrsync]
    exact dictGet_map_self (fun r => r.id) m.root_list hrnd r hr
  · rw [hrsync, List.length_map]
  · intro t ht
    rw [htsync]
    exact dictGet_map_self (fun t => t.id) m.text_list htnd t ht
  · rw [htsync, List.length_map]

theorem C10_dict_list_sync_witness : ∃ m,
    generate_language defaultConfig unitGen unitInit 42 = some m ∧
    ((∀ w ∈ m.word_list, dictGet m.words w.id = some w) ∧
    m.words.length = m.word_list.length ∧
    (∀ r ∈ m.root_list, dictGet m.roots r.id = some r) ∧
    m.roots.length = m.root_list.length ∧
    (∀ t ∈ m.text_list, dictGet m.texts t.id = some t) ∧
    m.texts.length = m.text_list.length) := by
  obtain ⟨m, hm⟩ := generate_total defaultConfig unitGen unitInit 42
    (by decide) (by decide)
  exact ⟨m, hm, C10_dict_list_sync Unit unitGen unitInit 42 m hm⟩

end LinguaPerdita
